import Mathlib

/-!
# Verification of the sonicwave fragmentation / FEC / reassembly protocol

This file is a shallow embedding of the core of `src/lib/ggwave-service.ts`
(the first `GGWaveService` class in that file): the packet grammar, the FEC
group layout, parity generation, the recovery solver, and the per-session
receive state machine of `handleReceivedPacket`, together with the sender
`sendLargeData`.

Modelling conventions:
* JS byte values (`Uint8Array` entries) are `Nat`s; where the source masks
  with `& 0xFF` on possibly negative numbers we use `Int.emod _ 256`
  (the two's-complement low byte of an integer).
* JS `Map`s are association lists with JS `Map.set` semantics (update in
  place keeps the position of an existing key, a new key is appended), and
  JS `Set`s of strings are duplicate-free lists in insertion order.
* `MD5` (crypto-js), `gzip`/`gunzip` (fflate) and `TextDecoder` are opaque
  to the protocol logic and are passed as function parameters
  (`md5 : List Nat → String`, `gz : List Nat → Option (List Nat)`, ...).
  No axiom is assumed about them; theorems that need a property of them
  (e.g. that gunzip inverts gzip) take it as an explicit hypothesis.
* Timers (`setTimeout` / `clearTimeout`) are modelled by storing the
  computed timeout duration in the session; cancelling a timer has no
  state beyond removal of the session that owns it.
* `handleReceivedPacket` returns `RxState × Option Out` where `Out`
  distinguishes the plaintext passthrough (`Out.text raw`), a direct
  `FILE:` frame handed to the file adapter (`Out.file raw`), and a
  completed session payload (`Out.bytes data`, the byte stream after the
  optional gunzip step, before `TextDecoder` / `FILE:` rerouting).
-/

namespace Sonicwave

/-! ## JS string helpers -/

/-- Auxiliary splitter: returns the first field and the remaining fields. -/
def splitCharAux (sep : Char) : List Char → List Char × List (List Char)
  | [] => ([], [])
  | c :: cs =>
    let r := splitCharAux sep cs
    if c = sep then ([], r.1 :: r.2) else (c :: r.1, r.2)

/-- JS `String.prototype.split(sep)` for a one-character separator,
on the character list. `split` of the empty string is `[""]`. -/
def splitChar (sep : Char) (l : List Char) : List (List Char) :=
  (splitCharAux sep l).1 :: (splitCharAux sep l).2

/-- JS `raw.split(':')` (and `seq.split('-')`) on a Lean `String`. -/
def jsSplit (sep : Char) (s : String) : List String :=
  (splitChar sep s.data).map String.mk

/-- JS `Array.prototype.join(sep)`. -/
def jsJoin (sep : String) (l : List String) : String :=
  String.intercalate sep l

/-- Substring test, JS `String.prototype.includes` on character lists:
some suffix of the haystack starts with the needle. -/
def listContainsSub (hay sub : List Char) : Bool :=
  match hay with
  | [] => sub.isEmpty
  | _ :: t => sub.isPrefixOf hay || listContainsSub t sub

/-- JS `s.includes(sub)`. -/
def jsIncludes (s sub : String) : Bool :=
  listContainsSub s.data sub.data

/-- JS `s.startsWith(p)`. -/
def jsStartsWith (s p : String) : Bool :=
  p.data.isPrefixOf s.data

/-! ## Decimal printing (template literals `${n}`) and `parseInt` -/

/-- The decimal digit character for `n < 10`. -/
def digitChar (n : Nat) : Char := Char.ofNat (48 + n)

/-- Fuel-driven digit printer (structural recursion so that the kernel can
evaluate it; the fuel is always sufficient at the wrapper below). -/
def decDigitsF : Nat → Nat → List Char
  | 0, _ => []
  | fuel + 1, n =>
    if n < 10 then [digitChar n]
    else decDigitsF fuel (n / 10) ++ [digitChar (n % 10)]

/-- Decimal digit list of a natural number (canonical, no leading zeros),
as produced by a JS template literal for a nonnegative integer. -/
def decDigits (n : Nat) : List Char := decDigitsF (n + 1) n

/-- Decimal string of a natural number. -/
def decStr (n : Nat) : String := String.mk (decDigits n)

def isDigitChar (c : Char) : Bool := 48 ≤ c.toNat && c.toNat ≤ 57

def isJsSpace (c : Char) : Bool :=
  c = ' ' || c = '\t' || c = '\n' || c = '\r'

/-- Value of a digit run (most significant first), given an accumulator. -/
def digitsVal (acc : Nat) : List Char → Nat
  | [] => acc
  | c :: cs => digitsVal (acc * 10 + (c.toNat - 48)) cs

/-- JS `parseInt(s, 10)`: skip leading whitespace, optional sign, then the
longest leading run of decimal digits; `none` models `NaN`. -/
def parseIntM (s : String) : Option Int :=
  let l := s.data.dropWhile isJsSpace
  let (neg, l) : Bool × List Char :=
    match l with
    | '-' :: rest => (true, rest)
    | '+' :: rest => (false, rest)
    | _ => (false, l)
  let digits := l.takeWhile isDigitChar
  if digits.isEmpty then none
  else
    let v : Int := (digitsVal 0 digits : Nat)
    some (if neg then -v else v)

/-! ## Base64 (`btoa` / `atob` with the traditional alphabet) -/

def b64Alphabet : List Char :=
  "ABCDEFGHIJKLMNOPQRSTUVWXYZabcdefghijklmnopqrstuvwxyz0123456789+/".data

/-- The base64 character for a 6-bit value. -/
def b64Char (n : Nat) : Char := b64Alphabet.getD n '?'

def b64ValAux (c : Char) : List Char → Nat → Option Nat
  | [], _ => none
  | d :: ds, i => if d = c then some i else b64ValAux c ds (i + 1)

/-- The 6-bit value of a base64 character, `none` if not in the alphabet. -/
def b64Val (c : Char) : Option Nat := b64ValAux c b64Alphabet 0

/-- `btoa(String.fromCharCode(...bytes))`: base64-encode a byte list
(bytes are < 256 wherever this is applied). -/
def b64encode : List Nat → List Char
  | [] => []
  | [a] =>
    [b64Char (a / 4), b64Char (a % 4 * 16), '=', '=']
  | [a, b] =>
    [b64Char (a / 4), b64Char (a % 4 * 16 + b / 16), b64Char (b % 16 * 4), '=']
  | a :: b :: c :: rest =>
    b64Char (a / 4) :: b64Char (a % 4 * 16 + b / 16) ::
    b64Char (b % 16 * 4 + c / 64) :: b64Char (c % 64) :: b64encode rest

/-- `atob` on an already format-checked string: decode quartets of base64
characters, the last quartet possibly padded with one or two `=`. -/
def atobQuads : List Char → Option (List Nat)
  | [] => some []
  | c1 :: c2 :: c3 :: c4 :: rest => do
    let v1 ← b64Val c1
    let v2 ← b64Val c2
    if c3 = '=' then
      if c4 = '=' ∧ rest = [] then some [v1 * 4 + v2 / 16] else none
    else do
      let v3 ← b64Val c3
      if c4 = '=' then
        if rest = [] then some [v1 * 4 + v2 / 16, v2 % 16 * 16 + v3 / 4]
        else none
      else do
        let v4 ← b64Val c4
        let tail ← atobQuads rest
        some ((v1 * 4 + v2 / 16) :: (v2 % 16 * 16 + v3 / 4) ::
              (v3 % 4 * 64 + v4) :: tail)
  | _ => none

/-- Count of trailing `'='` characters, and the part before them. -/
def stripPad (l : List Char) : List Char × Nat :=
  match l.reverse.takeWhile (· = '=') with
  | pads => ((l.take (l.length - pads.length)), pads.length)

/-- The test of the regex `^[A-Za-z0-9+/]*={0,2}$` from
`validateAndDecodeBase64`. -/
def b64FormatOk (l : List Char) : Bool :=
  let (body, pads) := stripPad l
  decide (pads ≤ 2) && body.all (fun c => (b64Val c).isSome)

/-- `validateAndDecodeBase64`: character-set check (the regex above),
length divisible by 4, then `atob`; `none` models both a failed validation
and a decode error. -/
def validateAndDecodeBase64 (s : String) : Option (List Nat) :=
  if b64FormatOk s.data && decide (s.data.length % 4 = 0) then
    atobQuads s.data
  else none

/-! ## Association lists with JS `Map` semantics, JS `Set`s of strings -/

/-- JS `Map.get`. -/
def aget {α β : Type} [BEq α] (l : List (α × β)) (k : α) : Option β :=
  match l.find? (fun p => p.1 == k) with
  | some p => some p.2
  | none => none

/-- JS `Map.set`: update in place if the key exists, else append. -/
def aset {α β : Type} [BEq α] (l : List (α × β)) (k : α) (v : β) :
    List (α × β) :=
  match l with
  | [] => [(k, v)]
  | p :: t => if p.1 == k then (k, v) :: t else p :: aset t k v

/-- JS `Map.has`. -/
def ahas {α β : Type} [BEq α] (l : List (α × β)) (k : α) : Bool :=
  (aget l k).isSome

/-- JS `Map.delete`. -/
def adel {α β : Type} [BEq α] (l : List (α × β)) (k : α) : List (α × β) :=
  match l with
  | [] => []
  | p :: t => if p.1 == k then t else p :: adel t k

/-- JS `Set.add` for strings (insertion order, no duplicates). -/
def sadd (l : List String) (x : String) : List String :=
  if l.contains x then l else l ++ [x]

/-- Insertion into a list of `(Int, chunk)` pairs sorted by key; used to
model `Array.from(map.entries()).sort((a, b) => a[0] - b[0])`. -/
def insFirst (p : Int × List Nat) :
    List (Int × List Nat) → List (Int × List Nat)
  | [] => [p]
  | q :: t => if p.1 ≤ q.1 then p :: q :: t else q :: insFirst p t

/-- Sort chunk entries by ascending sequence number (the keys are distinct
in every reachable state, so any comparison sort agrees with JS). -/
def sortByKey (l : List (Int × List Nat)) : List (Int × List Nat) :=
  l.foldr insFirst []

/-- JS `x || d` for strings (`parts[2] || "0"`). -/
def jsOrStr (x d : String) : String := if x = "" then d else x

/-- JS `x || d` for positive defaults (`fecScheme.parityCount || 1`). -/
def jsOrNat (x d : Nat) : Nat := if x = 0 then d else x

/-- JS number printing for the integers occurring in parity keys. -/
def intStr (i : Int) : String :=
  if i < 0 then "-" ++ decStr (-i).toNat else decStr i.toNat

/-- `[a, a+1, ..., b]` over the integers (empty if `b < a`), the index set
of a JS `for (let i = a; i <= b; i++)` loop. -/
def intRange (a b : Int) : List Int :=
  (List.range (b + 1 - a).toNat).map (fun k => a + Int.ofNat k)

/-- `Math.ceil(a / b)` for a positive integer divisor. -/
def ceilDivI (a : Int) (b : Nat) : Int :=
  if b = 0 then 0 else (a + b - 1).fdiv b

/-- `Math.round(q)` (JS rounds halves toward `+∞`). -/
def jsRoundQ (q : ℚ) : Int := ⌊q + 1 / 2⌋

/-- JS `/` on the rationals; the `0` case stands for the JS `Infinity`
results, which are unreachable at every call site (strictly increasing
weights), see the comments at the solver. -/
def qdiv (a b : ℚ) : ℚ := if b = 0 then 0 else a / b

/-! ## FEC schemes (`FEC_SCHEMES` record of the service) -/

structure FECScheme where
  groupSize : Nat
  parityCount : Nat
  overlap : Bool
  name : String
deriving DecidableEq, Repr

def FEC_NONE : FECScheme := ⟨0, 0, false, "No protection (0% overhead)"⟩
def BASIC_4 : FECScheme := ⟨4, 1, false, "Simple protection 4:1 (25% overhead)"⟩
def BASIC_2 : FECScheme := ⟨2, 1, false, "Simple protection 2:1 (50% overhead)"⟩
def OVERLAPPING_3 : FECScheme :=
  ⟨3, 1, true, "Enhanced overlapping protection (67% overhead)"⟩
def STRONG_OVERLAPPING_3 : FECScheme :=
  ⟨3, 3, true,
   "Strong overlapping protection (100% overhead, corrects up to 3 errors)"⟩

def FEC_SCHEMES : List (String × FECScheme) :=
  [("NONE", FEC_NONE), ("BASIC_4", BASIC_4), ("BASIC_2", BASIC_2),
   ("OVERLAPPING_3", OVERLAPPING_3),
   ("STRONG_OVERLAPPING_3", STRONG_OVERLAPPING_3)]

def DEFAULT_FEC_SCHEME : FECScheme := STRONG_OVERLAPPING_3

/-- `CHUNK_SIZE` (bytes per data packet before base64). -/
def CHUNK_SIZE : Nat := 75

/-! ## SEQUENCIA parser (parity identifiers) -/

structure SequenciaInfo where
  inicio : Int
  fim : Int
  tipo : String
  isValid : Bool
deriving DecidableEq, Repr

/-- `parseSequencia`: parse `"{inicio}-{fim}[-{tipo}]"`. A `NaN` from
`parseInt` is represented by the pair `(0, valid := false)`; every use of
the parse result consults `isValid` first or only re-renders the fields,
so the representative value is never observable. -/
def parseSequencia (seq : String) : SequenciaInfo :=
  let parts := jsSplit '-' seq
  if parts.length < 2 then ⟨0, 0, "0", false⟩
  else
    let tipo := jsOrStr (parts.getD 2 "") "0"
    match parseIntM (parts.getD 0 ""), parseIntM (parts.getD 1 "") with
    | some inicio, some fim =>
      ⟨inicio, fim, tipo, decide (inicio ≤ fim) && decide (0 < inicio)⟩
    | some inicio, none => ⟨inicio, 0, tipo, false⟩
    | none, some fim => ⟨0, fim, tipo, false⟩
    | none, none => ⟨0, 0, tipo, false⟩

/-- `createParityKey`: `"{inicio}-{fim}-{tipo}"`. -/
def createParityKey (inicio fim : Int) (tipo : String) : String :=
  intStr inicio ++ "-" ++ intStr fim ++ "-" ++ tipo

/-- `normalizeSequencia`: re-render a valid SEQUENCIA with an explicit
`tipo`; invalid strings are returned unchanged. -/
def normalizeSequencia (seq : String) : String :=
  let parsed := parseSequencia seq
  if parsed.isValid then createParityKey parsed.inicio parsed.fim parsed.tipo
  else seq

/-! ## FEC group layout -/

structure FECGroup where
  start : Nat
  stop : Nat  -- `end` in the source (a Lean keyword)
  type : String
deriving DecidableEq, Repr

/-- Phase 1 of `generateOverlappingGroups`: main groups
`start = 1, 4, 7, …`, `end = min(start + 2, total)`, `type = "0"`.
The `k`-th loop iteration has `start = 3k + 1`; the iteration count
translates the loop condition `start ≤ total`. -/
def mainGroups (totalPackets : Nat) : List FECGroup :=
  (List.range ((totalPackets + 2) / 3)).map (fun k =>
    ⟨3 * k + 1, min (3 * k + 1 + 2) totalPackets, "0"⟩)

/-- The `mainGroupKeys` seen-set. The source stores the strings
`"{start}-{end}"`, whose encoding of the pair is injective, so the set is
modelled by the list of pairs. -/
def mainGroupKeys (totalPackets : Nat) : List (Nat × Nat) :=
  (mainGroups totalPackets).map (fun g => (g.start, g.stop))

/-- Phase 2 of `generateOverlappingGroups`: the loop
`for (i = 2; i ≤ total; i++)`, emitting `(i, i+2)` with type `O{oIndex}`
when `i + 2 ≤ total` and the key is not a main-group key; `oIndex`
increments on every `i` with `i + 2 ≤ total`, emitted or not. -/
def overlappingGroupsLoop (totalPackets : Nat) : List FECGroup :=
  ((List.range' 2 (totalPackets - 1)).foldl
    (fun (st : Nat × List FECGroup) i =>
      if i + 2 ≤ totalPackets then
        let acc :=
          if (mainGroupKeys totalPackets).contains (i, i + 2) then st.2
          else st.2 ++ [⟨i, i + 2, "O" ++ decStr st.1⟩]
        (st.1 + 1, acc)
      else st)
    (0, [])).2

/-- `generateOverlappingGroups`: all main groups first, then all
overlapping groups. -/
def generateOverlappingGroups (totalPackets : Nat) : List FECGroup :=
  mainGroups totalPackets ++ overlappingGroupsLoop totalPackets

/-- `generateFECGroups`: the transmission-order group plan for a scheme. -/
def generateFECGroups (totalPackets : Nat) (fec : FECScheme) : List FECGroup :=
  if fec.groupSize = 0 then []
  else if fec.overlap then generateOverlappingGroups totalPackets
  else
    ((List.range ((totalPackets + fec.groupSize - 1) / fec.groupSize)).map
      (fun k =>
        let i := k * fec.groupSize
        (List.range fec.parityCount).map (fun p =>
          (⟨i + 1, min (i + fec.groupSize) totalPackets, decStr p⟩ :
            FECGroup)))).flatten

/-! ## Parity generation -/

/-- Right-pad (or cut, see below) a chunk to `size` bytes with zeros.
The source copies the chunk into a fresh zeroed `Uint8Array(size)`;
for a chunk longer than `size` that `set` call would throw a
`RangeError`, so the `take` is never observable on reachable data. -/
def padTo (c : List Nat) (size : Nat) : List Nat :=
  c.take size ++ List.replicate (size - c.length) 0

/-- `xorBytes`: byte-wise XOR of zero-padded chunks. -/
def xorBytes (chunks : List (List Nat)) (size : Nat) : List Nat :=
  chunks.foldl (fun result c => List.zipWith (· ^^^ ·) result (padTo c size))
    (List.replicate size 0)

/-- One weighted accumulation step:
`acc[j] ^= (padded[j] * weight) & 0xFF` for `j < size` (positions past the
end of `acc` are untouched: the JS out-of-bounds write is a no-op, and the
zero-padding makes XOR with positions past the chunk a no-op). -/
def xorWeightedUnder (size : Nat) (weight : Int) (acc data : List Nat) :
    List Nat :=
  acc.mapIdx (fun j a =>
    if j < size then a ^^^ ((data.getD j 0 * weight).emod 256).toNat else a)

/-- Unweighted version (`acc[j] ^= padded[j]`). -/
def xorUnder (size : Nat) (acc data : List Nat) : List Nat :=
  acc.mapIdx (fun j a => if j < size then a ^^^ data.getD j 0 else a)

/-- `generateParityData`: primary = XOR; secondary = positionally weighted
(`weight = i + 1`); tertiary = squared weights. -/
def generateParityData (chunks : List (List Nat)) (scheme : FECScheme) :
    List (List Nat) :=
  if scheme.parityCount = 0 then []
  else
    let primary := xorBytes chunks CHUNK_SIZE
    let weighted := fun (w : Nat → Nat) =>
      (chunks.foldl
        (fun (st : Nat × List Nat) chunk =>
          (st.1 + 1, xorWeightedUnder CHUNK_SIZE (w st.1) st.2 chunk))
        (0, List.replicate CHUNK_SIZE 0)).2
    let secondary :=
      if 2 ≤ scheme.parityCount then [weighted (fun i => i + 1)] else []
    let tertiary :=
      if 3 ≤ scheme.parityCount then [weighted (fun i => (i + 1) * (i + 1))]
      else []
    primary :: (secondary ++ tertiary)

/-- Strip trailing zero bytes (the `while (len > 0 && data[len-1] === 0)`
loops followed by `slice(0, len)`). -/
def trimZeros (l : List Nat) : List Nat :=
  (l.reverse.dropWhile (fun b => b == 0)).reverse

/-! ## Recovery solver (`recoverChunks`) -/

/-- Sort a list of sequence numbers ascending
(`missingIndices.sort((a, b) => a - b)`). -/
def insInt (x : Int) : List Int → List Int
  | [] => [x]
  | y :: t => if x ≤ y then x :: y :: t else y :: insInt x t

def sortInts (l : List Int) : List Int := l.foldr insInt []

/-- The single-missing branch: `recovered = primary XOR all present padded
chunks`, trailing zeros stripped, stored only when nonempty. -/
def recoverSingle (missingIndex : Int) (primaryParity : List Nat)
    (presentChunks : List (Int × List Nat)) : List (Int × List Nat) :=
  let recoveredData :=
    presentChunks.foldl (fun acc pc => xorUnder CHUNK_SIZE acc pc.2)
      primaryParity
  let trimmed := trimZeros recoveredData
  if 0 < trimmed.length then [(missingIndex, trimmed)] else []

/-- The per-byte 2x2 solve of the double-missing branch, on the parities
already adjusted by the present chunks: `y = round((b - w1*a)/(w2 - w1)) &
0xFF`, `x = (a ^ y) & 0xFF` (assignment ordered by ascending seq; for
equal weights the source's `(a / 2) & 0xFF` fallback). Rational
arithmetic stands in for JS float64; the divisions here are exact or
unreachable, see `qdiv`. -/
def doubleSolve (groupStart missing1 missing2 : Int)
    (adjustedPrimary adjustedSecondary : List Nat) : List (Nat × Nat) :=
  let weight1 := missing1 - groupStart + 1
  let weight2 := missing2 - groupStart + 1
  (List.range CHUNK_SIZE).map (fun j =>
    let a : Int := adjustedPrimary.getD j 0
    let b : Int := adjustedSecondary.getD j 0
    if weight1 ≠ weight2 then
      let y := (jsRoundQ (qdiv (b - weight1 * a) (weight2 - weight1))).emod 256
      let x := (Int.ofNat (a.toNat ^^^ y.toNat)).emod 256
      (if missing1 < missing2 then x.toNat else y.toNat,
       if missing1 < missing2 then y.toNat else x.toNat)
    else (a.toNat / 2, a.toNat / 2))

/-- The per-byte 3x3 real-arithmetic Gaussian elimination of the
triple-missing branch, with byte rounding, on the adjusted parities. The
divisions by `w22_new` and `w33_final` are guarded as in the source; the
division computing `mult32` is unreachable with `0` denominator (strictly
increasing weights), see `qdiv`. -/
def tripleSolve (groupStart missing1 missing2 missing3 : Int)
    (adjP adjS adjT : List Nat) : List (Nat × Nat × Nat) :=
  let w21 : ℚ := ((missing1 - groupStart + 1 : Int) : ℚ)
  let w22 : ℚ := ((missing2 - groupStart + 1 : Int) : ℚ)
  let w23 : ℚ := ((missing3 - groupStart + 1 : Int) : ℚ)
  let w31 := w21 * w21
  let w32 := w22 * w22
  let w33 := w23 * w23
  (List.range CHUNK_SIZE).map (fun j =>
    let a : ℚ := (adjP.getD j 0 : Nat)
    let b : ℚ := (adjS.getD j 0 : Nat)
    let c : ℚ := (adjT.getD j 0 : Nat)
    let mult21 := w21
    let mult31 := w31
    let b2 := b - mult21 * a
    let c2 := c - mult31 * a
    let w22n := w22 - mult21 * 1
    let w23n := w23 - mult21 * 1
    let w32n := w32 - mult31 * 1
    let w33n := w33 - mult31 * 1
    let mult32 := qdiv w32n w22n
    let c3 := c2 - mult32 * b2
    let w33f := w33n - mult32 * w23n
    let z := if w33f ≠ 0 then c3 / w33f else 0
    let y := if w22n ≠ 0 then (b2 - w23n * z) / w22n else 0
    let x := a - 1 * y - 1 * z
    (((jsRoundQ x).emod 256).toNat, ((jsRoundQ y).emod 256).toNat,
     ((jsRoundQ z).emod 256).toNat))

/-- The double-missing branch: adjust both parities by the present
chunks, then the per-byte solve; trim and store both only when both are
nonempty. -/
def recoverDouble (groupStart missing1 missing2 : Int)
    (primaryParity secondaryParity : List Nat)
    (presentChunks : List (Int × List Nat)) : List (Int × List Nat) :=
  let adjustedPrimary :=
    presentChunks.foldl (fun acc pc => xorUnder CHUNK_SIZE acc pc.2)
      primaryParity
  let adjustedSecondary :=
    presentChunks.foldl
      (fun acc pc =>
        xorWeightedUnder CHUNK_SIZE (pc.1 - groupStart + 1) acc pc.2)
      secondaryParity
  let solved := doubleSolve groupStart missing1 missing2 adjustedPrimary
    adjustedSecondary
  let t1 := trimZeros (solved.map Prod.fst)
  let t2 := trimZeros (solved.map Prod.snd)
  if 0 < t1.length ∧ 0 < t2.length then [(missing1, t1), (missing2, t2)]
  else []

def recoverTriple (groupStart missing1 missing2 missing3 : Int)
    (primaryParity secondaryParity tertiaryParity : List Nat)
    (presentChunks : List (Int × List Nat)) : List (Int × List Nat) :=
  let adjP := presentChunks.foldl
    (fun acc pc => xorWeightedUnder CHUNK_SIZE 1 acc pc.2) primaryParity
  let adjS := presentChunks.foldl
    (fun acc pc =>
      xorWeightedUnder CHUNK_SIZE (pc.1 - groupStart + 1) acc pc.2)
    secondaryParity
  let adjT := presentChunks.foldl
    (fun acc pc =>
      xorWeightedUnder CHUNK_SIZE
        ((pc.1 - groupStart + 1) * (pc.1 - groupStart + 1)) acc pc.2)
    tertiaryParity
  let solved := tripleSolve groupStart missing1 missing2 missing3 adjP adjS
    adjT
  let t1 := trimZeros (solved.map (fun v => v.1))
  let t2 := trimZeros (solved.map (fun v => v.2.1))
  let t3 := trimZeros (solved.map (fun v => v.2.2))
  if 0 < t1.length ∧ 0 < t2.length ∧ 0 < t3.length then
    [(missing1, t1), (missing2, t2), (missing3, t3)]
  else []

/-- `recoverChunks`: attempt recovery for the group
`[groupStart, groupStart + groupSize - 1]`, returning the `recovered` map
(in insertion order). -/
def recoverChunks (chunks : List (Int × List Nat))
    (parity : List (String × List Nat)) (groupStart : Int) (groupSize : Nat)
    (scheme : FECScheme) : List (Int × List Nat) :=
  if scheme.parityCount = 0 then []
  else
    let groupEnd := groupStart + groupSize - 1
    let idxs := intRange groupStart groupEnd
    let missingIndices := idxs.filter (fun i => !ahas chunks i)
    let presentChunks :=
      idxs.filterMap (fun i => (aget chunks i).map (fun d => (i, d)))
    let primaryParityKey := createParityKey groupStart groupEnd "0"
    let secondaryParityKey := createParityKey groupStart groupEnd "1"
    let hasPrimary := ahas parity primaryParityKey
    let hasSecondary := ahas parity secondaryParityKey
    if missingIndices.length = 1 ∧ hasPrimary then
      recoverSingle (missingIndices.headD 0)
        ((aget parity primaryParityKey).getD []) presentChunks
    else if missingIndices.length = 2 ∧ hasPrimary ∧ hasSecondary then
      let sorted := sortInts missingIndices
      recoverDouble groupStart (sorted.getD 0 0) (sorted.getD 1 0)
        ((aget parity primaryParityKey).getD [])
        ((aget parity secondaryParityKey).getD []) presentChunks
    else if missingIndices.length = 3 ∧ 3 ≤ scheme.parityCount ∧ hasPrimary ∧
        hasSecondary ∧ ahas parity (createParityKey groupStart groupEnd "2")
    then
      let sorted := sortInts missingIndices
      recoverTriple groupStart (sorted.getD 0 0) (sorted.getD 1 0)
        (sorted.getD 2 0)
        ((aget parity primaryParityKey).getD [])
        ((aget parity secondaryParityKey).getD [])
        ((aget parity (createParityKey groupStart groupEnd "2")).getD [])
        presentChunks
    else []

/-! ## Receive sessions and the per-packet state machine -/

structure Session where
  total : Int
  expectedHash : String
  flags : String
  fec : FECScheme
  chunks : List (Int × List Nat)
  parity : List (String × List Nat)
  timeoutMs : Int
  seen : List String
deriving DecidableEq, Repr

structure RxState where
  sessions : List (String × Session)
  /-- The result of `inferCurrentProtocol()` (the service's
  `currentProtocol`, or its conservative fallback), consulted by the
  START handler for the adaptive timeout. -/
  proto : String
deriving DecidableEq, Repr

/-- `calculateTimeout`: adaptive timeout from packet count and protocol
speed. -/
def calculateTimeout (totalPackets : Int) (protocolName : String) : Int :=
  let multiplier : Int :=
    if jsIncludes protocolName "NORMAL" then 3
    else if jsIncludes protocolName "FAST" && !jsIncludes protocolName "FASTEST"
      then 2
    else if jsIncludes protocolName "FASTEST" then 1
    else 1
  max (30000 + totalPackets * 5000 * multiplier) 60000

def isFecClass (c : Char) : Bool :=
  ('A' ≤ c && c ≤ 'Z') || c = '_' || ('0' ≤ c && c ≤ '9')

/-- First match of the regex `F([A-Z_0-9]+)` in the flags string: the
capture after the first `F` that is followed by at least one class
character. -/
def fecScanAux : List Char → Option String
  | [] => none
  | c :: rest =>
    if c = 'F' ∧ rest.takeWhile isFecClass ≠ [] then
      some (String.mk (rest.takeWhile isFecClass))
    else fecScanAux rest

def fecTokenOf (flags : String) : Option String := fecScanAux flags.data

/-- Resolve the FEC scheme announced in the START flags (unknown or
missing token falls back to the default scheme). -/
def resolveFecScheme (flags : String) : FECScheme :=
  match fecTokenOf flags with
  | some name =>
    match aget FEC_SCHEMES name with
    | some s => s
    | none => DEFAULT_FEC_SCHEME
  | none => DEFAULT_FEC_SCHEME

/-- `attemptAggressiveRecovery`: for every held parity key, if it parses,
names a group with exactly one missing chunk, and is a primary (`tipo =
"0"`), XOR-recover that chunk, strip trailing zeros, and store when
nonempty. The parity map is iterated in insertion order. -/
def aggressivePass (parity : List (String × List Nat))
    (chunks0 : List (Int × List Nat)) : List (Int × List Nat) :=
  parity.foldl
    (fun chunks p =>
      let info := parseSequencia p.1
      if info.isValid then
        let idxs := intRange info.inicio info.fim
        let missingInGroup := idxs.filter (fun i => !ahas chunks i)
        if missingInGroup.length = 1 ∧ info.tipo = "0" then
          let missingIndex := missingInGroup.headD 0
          let recoveredData := idxs.foldl
            (fun acc i =>
              match aget chunks i with
              | some d => xorUnder CHUNK_SIZE acc d
              | none => acc) p.2
          let trimmed := trimZeros recoveredData
          if 0 < trimmed.length then aset chunks missingIndex trimmed
          else chunks
        else chunks
      else chunks)
    chunks0

/-- Apply a `recovered` map: `sess.chunks.set(index, data)` for each
entry in order. -/
def applyRecovered (chunks recovered : List (Int × List Nat)) :
    List (Int × List Nat) :=
  recovered.foldl (fun m p => aset m p.1 p.2) chunks

/-- The standard-group recovery pass of `handleReceivedPacket`: one
`recoverChunks` call per group `g = 1 .. ceil(total / groupSize)`. -/
def mainPass (sess : Session) : List (Int × List Nat) :=
  (intRange 1 (ceilDivI sess.total sess.fec.groupSize)).foldl
    (fun chunks g =>
      let startSeq : Int := (g - 1) * (sess.fec.groupSize : Int) + 1
      applyRecovered chunks
        (recoverChunks chunks sess.parity startSeq sess.fec.groupSize
          sess.fec))
    sess.chunks

/-- The overlapping-group recovery pass: the receiver re-enumerates the
deterministic plan, keeps the `O*` groups, and calls `recoverChunks` with
`parityCount := 1`; recovered chunks are stored only if absent. The JS
`sess.total` is a number; its loops run identically on `total.toNat`. -/
def overlapPass (sess : Session) (chunks0 : List (Int × List Nat)) :
    List (Int × List Nat) :=
  ((generateOverlappingGroups sess.total.toNat).filter
    (fun g => jsStartsWith g.type "O")).foldl
    (fun chunks g =>
      (recoverChunks chunks sess.parity g.start (g.stop - g.start + 1)
        {sess.fec with parityCount := 1}).foldl
        (fun m p => if ahas m p.1 then m else aset m p.1 p.2) chunks)
    chunks0

/-- The complete after-packet recovery phase (standard pass, overlapping
pass, aggressive fallback), skipped entirely for `groupSize = 0`. -/
def recoveryPhase (sess : Session) : Session :=
  if 0 < sess.fec.groupSize then
    let c1 := mainPass sess
    let c2 := if sess.fec.overlap then overlapPass sess c1 else c1
    let c3 :=
      if (c2.length : Int) < sess.total ∧ sess.parity ≠ [] then
        aggressivePass sess.parity c2
      else c2
    {sess with chunks := c3}
  else sess

/-- Receiver output, before `TextDecoder` and `FILE:` rerouting (see the
header comment). -/
inductive Out where
  | text (raw : String)
  | file (raw : String)
  | bytes (data : List Nat)
deriving DecidableEq, Repr

/-- Result of the `switch` dispatch: an early `return null`/`return raw`
(`ret`), or fall-through to the after-packet recovery and completion
check for session `sid` (`fin`). -/
inductive DispResult where
  | ret (st : RxState) (out : Option Out)
  | fin (st : RxState) (sid : String)
deriving DecidableEq, Repr

/-- The `case 'S'` branch. -/
def dispatchS (st : RxState) (sid packetId : String) (parts : List String) :
    DispResult :=
  if parts.length < 5 then .ret st none
  else
    let expectedHash := parts.getD 3 ""
    let flags := parts.getD 5 ""
    match parseIntM (parts.getD 4 "") with
    | none => .ret st none
    | some total =>
      if expectedHash = "" then .ret st none
      else
        let fec := resolveFecScheme flags
        let sess : Session :=
          { total := total, expectedHash := expectedHash, flags := flags,
            fec := fec, chunks := [], parity := [],
            timeoutMs := calculateTimeout total st.proto,
            seen := [packetId] }
        .fin {st with sessions := aset (adel st.sessions sid) sid sess} sid

/-- The `case 'D'` branch. -/
def dispatchD (st : RxState) (sid packetId : String) (parts : List String) :
    DispResult :=
  if parts.length < 4 then .ret st none
  else
    let dataBase64 := jsJoin ":" (parts.drop 3)
    match parseIntM (parts.getD 2 "") with
    | none => .ret st none
    | some seqNum =>
      match aget st.sessions sid with
      | none => .ret st none
      | some sess =>
        if sess.seen.contains packetId then .fin st sid
        else
          let sess1 := {sess with seen := sadd sess.seen packetId}
          match validateAndDecodeBase64 dataBase64 with
          | some dataBytes =>
            let sess2 := {sess1 with chunks := aset sess1.chunks seqNum dataBytes}
            .fin {st with sessions := aset st.sessions sid sess2} sid
          | none =>
            .ret {st with sessions := aset st.sessions sid sess1} none

/-- The `case 'P'` branch. -/
def dispatchP (st : RxState) (sid packetId : String) (parts : List String) :
    DispResult :=
  if parts.length < 4 then .ret st none
  else
    let rangeStr := parts.getD 2 ""
    let parityBase64 := parts.getD 3 ""
    match aget st.sessions sid with
    | none => .ret st none
    | some sess =>
      if sess.seen.contains packetId then .fin st sid
      else
        let sess1 := {sess with seen := sadd sess.seen packetId}
        match validateAndDecodeBase64 parityBase64 with
        | some parityBytes =>
          let sess2 := {sess1 with
            parity := aset sess1.parity (normalizeSequencia rangeStr) parityBytes}
          .fin {st with sessions := aset st.sessions sid sess2} sid
        | none =>
          .ret {st with sessions := aset st.sessions sid sess1} none

/-- The `case 'E'` branch. -/
def dispatchE (st : RxState) (sid packetId : String) : DispResult :=
  match aget st.sessions sid with
  | none => .ret st none
  | some sess =>
    if sess.seen.contains packetId then .fin st sid
    else
      let sess1 := {sess with seen := sadd sess.seen packetId}
      .fin {st with sessions := aset st.sessions sid sess1} sid

/-- The parse-and-dispatch part of `handleReceivedPacket` (everything
before the after-packet recovery/finalisation block). -/
def dispatchPacket (st : RxState) (raw : String) : DispResult :=
  let parts := jsSplit ':' raw
  if parts.length < 2 then .ret st none
  else
    let ty := parts.getD 0 ""
    let sid := parts.getD 1 ""
    if ty = "FILE" then .ret st (some (.file raw))
    else if ¬(ty = "S" ∨ ty = "D" ∨ ty = "P" ∨ ty = "E") then
      .ret st (some (.text raw))
    else
      let packetId := ty ++ ":" ++ sid ++ ":" ++ parts.getD 2 ""
      if ty = "S" then dispatchS st sid packetId parts
      else if ty = "D" then dispatchD st sid packetId parts
      else if ty = "P" then dispatchP st sid packetId parts
      else dispatchE st sid packetId

/-- The after-packet block: run the recovery passes, then if
`|chunks| == total` concatenate in ascending `seq` order, hash-check,
cancel the timer and delete the session, and deliver (after the optional
gunzip with its raw fallback). -/
def finalizePhase (md5 : List Nat → String)
    (gz : List Nat → Option (List Nat)) (st : RxState) (sid : String) :
    RxState × Option Out :=
  match aget st.sessions sid with
  | none => (st, none)
  | some sess =>
    let sess1 := recoveryPhase sess
    if (sess1.chunks.length : Int) = sess1.total then
      let fullData := ((sortByKey sess1.chunks).map Prod.snd).flatten
      let st' := {st with sessions := adel st.sessions sid}
      if md5 fullData = sess1.expectedHash then
        let finalData :=
          if jsIncludes sess1.flags "C" then
            match gz fullData with
            | some d => d
            | none => fullData
          else fullData
        (st', some (.bytes finalData))
      else (st', none)
    else ({st with sessions := aset st.sessions sid sess1}, none)

/-- `handleReceivedPacket`. -/
def handleReceivedPacket (md5 : List Nat → String)
    (gz : List Nat → Option (List Nat)) (st : RxState) (raw : String) :
    RxState × Option Out :=
  match dispatchPacket st raw with
  | .ret st' out => (st', out)
  | .fin st' sid => finalizePhase md5 gz st' sid

/-- The tail of the delivery path: `TextDecoder`, then the `FILE:` reroute
through `handleFilePacket` (whose result is the handler's return value);
`dec` abstracts `new TextDecoder().decode`, `fileH` abstracts
`handleFilePacket`. -/
def postProcess (dec : List Nat → String) (fileH : String → Option String) :
    Out → Option String
  | .text raw => some raw
  | .file raw => fileH raw
  | .bytes data =>
    let fullMessage := dec data
    if jsStartsWith fullMessage "FILE:" then fileH fullMessage
    else some fullMessage

/-- `handleReceivedPacket` at the `string | null` level of the source. -/
def handleReceivedPacketStr (md5 : List Nat → String)
    (gz : List Nat → Option (List Nat)) (dec : List Nat → String)
    (fileH : String → Option String) (st : RxState) (raw : String) :
    RxState × Option String :=
  match handleReceivedPacket md5 gz st raw with
  | (st', out) => (st', out.bind (postProcess dec fileH))

/-- Feed a list of frames through the receiver, collecting the per-frame
results. -/
def runFrames (md5 : List Nat → String)
    (gz : List Nat → Option (List Nat)) (st : RxState) :
    List String → RxState × List (Option Out)
  | [] => (st, [])
  | f :: fs =>
    let r1 := handleReceivedPacket md5 gz st f
    let r2 := runFrames md5 gz r1.1 fs
    (r2.1, r1.2 :: r2.2)

/-! ## Sender (`sendLargeData`) -/

/-- `chunkBytes`: split into slices of `size` bytes (the source is only
ever called with `CHUNK_SIZE`; a `0` size would not terminate in JS). -/
def chunkBytesF : Nat → List Nat → Nat → List (List Nat)
  | _, [], _ => []
  | 0, _ :: _, _ => []
  | fuel + 1, d :: ds, size =>
    match size with
    | 0 => []
    | s + 1 => (d :: ds).take (s + 1) :: chunkBytesF fuel (ds.drop s) (s + 1)

def chunkBytes (data : List Nat) (size : Nat) : List (List Nat) :=
  chunkBytesF data.length data size

/-- The wire FEC flag: reverse lookup of the scheme in `FEC_SCHEMES`
(reference equality in JS; the five records are pairwise structurally
distinct, so structural equality agrees on them). -/
def fecFlagOf (scheme : FECScheme) : String :=
  match FEC_SCHEMES.find? (fun p => p.2 == scheme) with
  | some p => "F" ++ p.1
  | none => "FBASIC_3"

/-- One parity packet of the plan (skipped when the parity index is out of
range, which does not happen for the shipped schemes). -/
def mkParityPacket (sid : String) (chunks : List (List Nat))
    (scheme : FECScheme) (g : FECGroup) : Option String :=
  let groupChunks := (chunks.drop (g.start - 1)).take (g.stop - (g.start - 1))
  let parityCount :=
    if jsStartsWith g.type "O" then 1 else jsOrNat scheme.parityCount 1
  let parities :=
    generateParityData groupChunks {scheme with parityCount := parityCount}
  let parityIndex :=
    if jsStartsWith g.type "O" then 0 else ((parseIntM g.type).getD 0).toNat
  if parityIndex < parities.length then
    some ("P:" ++ sid ++ ":" ++ createParityKey g.start g.stop g.type ++ ":"
      ++ String.mk (b64encode (parities.getD parityIndex [])))
  else none

/-- `sendLargeData`, as the list of frames handed to the transport, in
emission order. `message` is the byte stream after `TextEncoder`;
`gzipFn` abstracts fflate's gzip; `sid` stands for the
timestamp-and-nonce session id generated at call time. -/
def sendLargeDataPackets (md5 : List Nat → String)
    (gzipFn : List Nat → List Nat) (sid : String) (message : List Nat)
    (compress : Bool) (scheme : FECScheme) : List String :=
  let data := if compress then gzipFn message else message
  let flags := if compress then "C" else ""
  let fullHash := md5 data
  let chunks := chunkBytes data CHUNK_SIZE
  let total := chunks.length
  let allFlags := jsJoin "," ([flags, fecFlagOf scheme].filter
    (fun s => !(s == "")))
  let startPacket :=
    if allFlags ≠ "" then
      "S:" ++ sid ++ "::" ++ fullHash ++ ":" ++ decStr total ++ ":" ++ allFlags
    else
      "S:" ++ sid ++ "::" ++ fullHash ++ ":" ++ decStr total
  let dataPackets := (List.range total).map (fun i =>
    "D:" ++ sid ++ ":" ++ decStr (i + 1) ++ ":" ++
      String.mk (b64encode (chunks.getD i [])))
  let parityPackets :=
    if 0 < scheme.groupSize then
      (generateFECGroups total scheme).filterMap (mkParityPacket sid chunks scheme)
    else []
  [startPacket] ++ dataPackets ++ parityPackets ++ ["E:" ++ sid ++ "::"]

/-! ## Concrete stand-ins for the opaque collaborators (used by the closed
witness and counterexample theorems; any function of the right type
works, these are injective enough on the inputs at hand) -/

/-- A concrete hash-function stand-in: nonempty, colon-free. -/
def md5c (l : List Nat) : String :=
  "H" ++ decStr (l.foldl (fun a b => a * 257 + b + 1) 1 % 1000000007)

/-- A concrete gunzip stand-in that always fails. -/
def gzc : List Nat → Option (List Nat) := fun _ => none

/-! ## Statements of the specification, written from the spec's words
(for the refinement-style claims) -/

/-- The speed multiplier exactly as the specification states it: 3 if the
protocol name contains `NORMAL`, 2 if it contains `FAST` but not
`FASTEST`, 1 if it contains `FASTEST`, and 1 otherwise. -/
def specSpeedMult (protocolName : String) : Int :=
  if jsIncludes protocolName "NORMAL" then 3
  else if jsIncludes protocolName "FAST" && !jsIncludes protocolName "FASTEST"
    then 2
  else if jsIncludes protocolName "FASTEST" then 1
  else 1

/-- The overlapping group plan as the claim words it: all main groups
first; then the overlapping candidates `(i, i+2)` for `i = 2, 3, …` while
`i + 2 ≤ total`, emitted only when `(start, end)` is not a main-group
key, with `oIndex` incrementing on every enumerated `i` — so the emitted
type is `O{i - 2}`. -/
def claimOverlappingPlan (total : Nat) : List FECGroup :=
  mainGroups total ++
    (List.range' 2 (total - 3)).filterMap (fun i =>
      if (mainGroupKeys total).contains (i, i + 2) then none
      else some ⟨i, i + 2, "O" ++ decStr (i - 2)⟩)

/-! ## Verification predicates -/

/-- A chunk value as the recovery paths store them: nonempty with a
nonzero final byte. -/
def GoodChunk (v : List Nat) : Prop := v ≠ [] ∧ v.getLast? ≠ some 0

/-- `c'` extends `c`: present chunks are preserved, and every newly
appearing chunk is `GoodChunk`. -/
def ChunkExt (c c' : List (Int × List Nat)) : Prop :=
  (∀ k v, aget c k = some v → aget c' k = some v) ∧
  (∀ k v, aget c k = none → aget c' k = some v → GoodChunk v)

/-- A string containing no `':'`, i.e. one wire field. -/
def colonFree (s : String) : Prop := ∀ c ∈ s.data, c ≠ ':'

instance (s : String) : Decidable (colonFree s) := by
  unfold colonFree; infer_instance

/-- XOR of a byte list (reduction order irrelevant by associativity). -/
def listXor (l : List Nat) : Nat := l.foldr (· ^^^ ·) 0

/-- A DATA frame of the sender, as a function of the chunk index. -/
def dFrame (sid : String) (cw : List (List Nat)) (i : Nat) : String :=
  "D:" ++ sid ++ ":" ++ decStr (i + 1) ++ ":" ++
    String.mk (b64encode (cw.getD i []))

/-- A PARITY frame carrying a stored key/payload pair. -/
def pFrame (sid : String) (kv : String × List Nat) : String :=
  "P:" ++ sid ++ ":" ++ kv.1 ++ ":" ++ String.mk (b64encode kv.2)

/-- The parity frame emitted for a plan group (primary payload). -/
def parityFrame (sid : String) (cw : List (List Nat)) (g : FECGroup) :
    String :=
  "P:" ++ sid ++ ":" ++ createParityKey g.start g.stop g.type ++ ":" ++
    String.mk (b64encode (xorBytes
      ((cw.drop (g.start - 1)).take (g.stop - (g.start - 1))) CHUNK_SIZE))

/-- Key and primary parity payload of the `k`-th main group. -/
def mainPair (cw : List (List Nat)) (gs T k : Nat) : String × List Nat :=
  (createParityKey ((k * gs + 1 : Nat) : Int)
    ((min (k * gs + gs) T : Nat) : Int) "0",
   xorBytes ((cw.drop (k * gs + 1 - 1)).take
     (min (k * gs + gs) T - (k * gs + 1 - 1))) CHUNK_SIZE)

/-! ## Lemmas: association lists -/

section AssocLemmas

variable {α β : Type} [BEq α] [LawfulBEq α]

theorem aget_nil (k : α) : aget ([] : List (α × β)) k = none := rfl

theorem aget_cons (p : α × β) (t : List (α × β)) (k : α) :
    aget (p :: t) k = if p.1 == k then some p.2 else aget t k := by
  cases h : p.1 == k with
  | true => simp [aget, List.find?_cons_of_pos, h]
  | false => simp [aget, List.find?_cons_of_neg, h]

theorem aget_aset_self (l : List (α × β)) (k : α) (v : β) :
    aget (aset l k v) k = some v := by
  induction l with
  | nil => simp [aset, aget_cons]
  | cons p t ih =>
    cases h : p.1 == k with
    | true => simp [aset, h, aget_cons]
    | false => simp [aset, h, aget_cons, ih]

theorem aget_aset_ne (l : List (α × β)) (k k' : α) (v : β) (h : k' ≠ k) :
    aget (aset l k v) k' = aget l k' := by
  have hkk : (k == k') = false := by simp [BEq.comm]; exact fun hh => h hh.symm
  induction l with
  | nil => simp [aset, aget_cons, hkk]
  | cons p t ih =>
    cases hp : p.1 == k with
    | true =>
      have : p.1 = k := by simpa using hp
      subst this
      simp [aset, hp, aget_cons, hkk]
    | false => simp [aset, hp, aget_cons, ih]

theorem aset_eq_of_aget (l : List (α × β)) (k : α) (v : β)
    (h : aget l k = some v) : aset l k v = l := by
  induction l with
  | nil => simp [aget_nil] at h
  | cons p t ih =>
    rw [aget_cons] at h
    cases hp : p.1 == k with
    | true =>
      have hk : p.1 = k := by simpa using hp
      have hv : p.2 = v := by simpa [hp] using h
      obtain ⟨p1, p2⟩ := p
      simp only at hk hv
      subst hk
      subst hv
      simp [aset]
    | false =>
      simp only [hp, Bool.false_eq_true, if_false] at h
      simp [aset, hp, ih h]

theorem ahas_iff (l : List (α × β)) (k : α) :
    ahas l k = true ↔ ∃ v, aget l k = some v := by
  cases h : aget l k <;> simp [ahas, h]

theorem aget_adel_ne (l : List (α × β)) (k k' : α) (h : k' ≠ k) :
    aget (adel l k) k' = aget l k' := by
  induction l with
  | nil => rfl
  | cons p t ih =>
    cases hp : p.1 == k with
    | true =>
      have hk : p.1 = k := by simpa using hp
      have : (p.1 == k') = false := by
        simp [hk]
        exact fun hh => h hh.symm
      simp [adel, hp, aget_cons, this]
    | false => simp [adel, hp, aget_cons, ih]

theorem aget_some_key_mem {l : List (α × β)} {k : α} {v : β}
    (h : aget l k = some v) : k ∈ l.map Prod.fst := by
  induction l with
  | nil => simp [aget_nil] at h
  | cons p t ih =>
    rw [aget_cons] at h
    cases hp : p.1 == k with
    | true =>
      have : p.1 = k := by simpa using hp
      simp [this]
    | false =>
      simp only [hp, Bool.false_eq_true, if_false] at h
      simpa using Or.inr (ih h)

theorem aget_adel_self_of_nodup (l : List (α × β)) (k : α)
    (hn : (l.map Prod.fst).Nodup) : aget (adel l k) k = none := by
  induction l with
  | nil => rfl
  | cons p t ih =>
    simp only [List.map_cons, List.nodup_cons] at hn
    cases hp : p.1 == k with
    | true =>
      have hk : p.1 = k := by simpa using hp
      simp only [adel, hp, if_pos rfl]
      cases hg : aget t k with
      | none => exact hg
      | some v =>
        exact absurd (hk ▸ aget_some_key_mem hg) hn.1
    | false => simp [adel, hp, aget_cons, ih hn.2]

theorem length_aset (l : List (α × β)) (k : α) (v : β) :
    (aset l k v).length = if ahas l k then l.length else l.length + 1 := by
  induction l with
  | nil => simp [aset, ahas, aget_nil]
  | cons p t ih =>
    cases hp : p.1 == k with
    | true => simp [aset, hp, ahas, aget_cons]
    | false =>
      simp only [aset, hp, Bool.false_eq_true, if_false, List.length_cons, ih,
        ahas, aget_cons]
      split <;> simp

theorem keys_aset (l : List (α × β)) (k : α) (v : β) :
    (aset l k v).map Prod.fst =
      if ahas l k then l.map Prod.fst else l.map Prod.fst ++ [k] := by
  induction l with
  | nil => simp [aset, ahas, aget_nil]
  | cons p t ih =>
    cases hp : p.1 == k with
    | true =>
      have hk : p.1 = k := by simpa using hp
      simp [aset, hp, ahas, aget_cons, hk]
    | false =>
      simp only [aset, hp, Bool.false_eq_true, if_false, List.map_cons, ih,
        ahas, aget_cons]
      split <;> simp

theorem aget_mem_of_some {l : List (α × β)} {k : α} {v : β}
    (h : aget l k = some v) : (k, v) ∈ l := by
  induction l with
  | nil => simp [aget_nil] at h
  | cons p t ih =>
    rw [aget_cons] at h
    cases hp : p.1 == k with
    | true =>
      have hk : p.1 = k := by simpa using hp
      simp only [hp, if_pos rfl, Option.some.injEq] at h
      obtain ⟨p1, p2⟩ := p
      simp_all
    | false =>
      simp only [hp, Bool.false_eq_true, if_false] at h
      exact List.mem_cons_of_mem _ (ih h)

theorem aget_aset_cases (l : List (α × β)) (k k' : α) (v w : β)
    (h : aget (aset l k v) k' = some w) :
    (k' = k ∧ w = v) ∨ aget l k' = some w := by
  by_cases hk : k' = k
  · subst hk
    rw [aget_aset_self] at h
    exact Or.inl ⟨rfl, by simpa using h.symm⟩
  · rw [aget_aset_ne _ _ _ _ hk] at h
    exact Or.inr h

end AssocLemmas

/-! ## Characterisations of the dispatch -/

theorem dispatchPacket_eq_S (st : RxState) (raw : String)
    (h2 : ¬ (jsSplit ':' raw).length < 2)
    (hty : (jsSplit ':' raw).getD 0 "" = "S") :
    dispatchPacket st raw =
      dispatchS st ((jsSplit ':' raw).getD 1 "")
        ("S" ++ ":" ++ (jsSplit ':' raw).getD 1 "" ++ ":" ++
          (jsSplit ':' raw).getD 2 "")
        (jsSplit ':' raw) := by
  simp only [dispatchPacket, h2, if_false, hty]
  norm_num
  exact fun h => absurd h (by decide)

theorem dispatchS_fin (st : RxState) (sid pid : String) (parts : List String)
    (total : Int) (h5 : ¬ parts.length < 5)
    (ht : parseIntM (parts.getD 4 "") = some total)
    (hh : ¬ parts.getD 3 "" = "") :
    dispatchS st sid pid parts =
      .fin
        {st with
          sessions := aset (adel st.sessions sid) sid
            ⟨total, parts.getD 3 "", parts.getD 5 "",
              resolveFecScheme (parts.getD 5 ""), [], [],
              calculateTimeout total st.proto, [pid]⟩}
        sid := by
  simp only [dispatchS, h5, if_false, ht, hh]

/-! ## C7: adaptive timeout formula -/

/-- C7: for every `total ≥ 0` and protocol name, the receive-session
timeout computed on START equals
`max(60000, 30000 + total · 5000 · mult)` where `mult` is 3 for names
containing `NORMAL`, 2 for `FAST` but not `FASTEST`, 1 for `FASTEST`,
and 1 otherwise (`specSpeedMult`, written from the claim). -/
theorem c7_start_timeout_formula (st : RxState) (raw : String) (total : Int)
    (hty : (jsSplit ':' raw).getD 0 "" = "S")
    (hlen : 5 ≤ (jsSplit ':' raw).length)
    (ht : parseIntM ((jsSplit ':' raw).getD 4 "") = some total)
    (hh : (jsSplit ':' raw).getD 3 "" ≠ "")
    (_htot : 0 ≤ total) :
    ∃ st1 sid sess, dispatchPacket st raw = .fin st1 sid ∧
      aget st1.sessions sid = some sess ∧
      sess.timeoutMs = max 60000 (30000 + total * 5000 * specSpeedMult st.proto)
    := by
  have h2 : ¬ (jsSplit ':' raw).length < 2 := by omega
  have h5 : ¬ (jsSplit ':' raw).length < 5 := by omega
  rw [dispatchPacket_eq_S st raw h2 hty, dispatchS_fin st _ _ _ total h5 ht hh]
  refine ⟨_, _, _, rfl, aget_aset_self _ _ _, ?_⟩
  show calculateTimeout total st.proto = _
  simp only [calculateTimeout, specSpeedMult]
  exact Int.max_comm _ _

/-- Witness for C7 at a concrete START frame and state. -/
theorem c7_start_timeout_formula_witness :
    ∃ st1 sid sess,
      dispatchPacket ⟨[], "AUDIBLE_NORMAL"⟩ "S:77-000001::hh:4:FNONE" =
        .fin st1 sid ∧
      aget st1.sessions sid = some sess ∧
      sess.timeoutMs =
        max 60000 (30000 + 4 * 5000 * specSpeedMult "AUDIBLE_NORMAL") :=
  c7_start_timeout_formula ⟨[], "AUDIBLE_NORMAL"⟩ "S:77-000001::hh:4:FNONE" 4
    (by decide) (by decide) (by decide) (by decide) (by decide)

/-! ## C5: (no) PARITY length precondition -/

/-- Counterexample to C5: an open session (created by a START with scheme
`NONE`) receives `P:9-1:1-2:QUJD`, whose base-64 payload decodes to the
3 bytes `ABC` — shorter than `CHUNK_SIZE = 75`. The claim says such a
decode is rejected; the code stores it in the parity map under the
normalised key `1-2-0`. -/
theorem c5_counterexample :
    (aget (handleReceivedPacket md5c gzc
        (handleReceivedPacket md5c gzc ⟨[], "X"⟩ "S:9-1::hh:9:FNONE").1
        "P:9-1:1-2:QUJD").1.sessions "9-1").map
      (fun s => aget s.parity "1-2-0") = some (some [65, 66, 67]) ∧
    ([65, 66, 67] : List Nat).length < CHUNK_SIZE := by
  decide

theorem dispatchPacket_eq_P (st : RxState) (raw : String)
    (h2 : ¬ (jsSplit ':' raw).length < 2)
    (hty : (jsSplit ':' raw).getD 0 "" = "P") :
    dispatchPacket st raw =
      dispatchP st ((jsSplit ':' raw).getD 1 "")
        ("P" ++ ":" ++ (jsSplit ':' raw).getD 1 "" ++ ":" ++
          (jsSplit ':' raw).getD 2 "")
        (jsSplit ':' raw) := by
  simp only [dispatchPacket, h2, if_false, hty]
  norm_num
  rw [if_neg (by decide : ¬("P" : String) = "FILE"),
    if_neg (by decide : ¬("P" : String) = "S"),
    if_neg (by decide : ¬("P" : String) = "D")]

/-- C5 amended: when the receiver processes a PARITY packet for an open
session (not a duplicate), every payload that passes base-64 validation
is inserted into the parity map under the normalised range key — there is
no `CHUNK_SIZE` length check, so decodes shorter than 75 bytes are stored
rather than rejected. -/
theorem c5_amended_parity_stored_any_length (st : RxState) (raw : String)
    (sess : Session) (bytes : List Nat)
    (hty : (jsSplit ':' raw).getD 0 "" = "P")
    (hlen : 4 ≤ (jsSplit ':' raw).length)
    (hsess : aget st.sessions ((jsSplit ':' raw).getD 1 "") = some sess)
    (hdup : ¬ sess.seen.contains
      ("P" ++ ":" ++ (jsSplit ':' raw).getD 1 "" ++ ":" ++
        (jsSplit ':' raw).getD 2 "") = true)
    (hval : validateAndDecodeBase64 ((jsSplit ':' raw).getD 3 "") =
      some bytes) :
    ∃ st1 sid sess1, dispatchPacket st raw = .fin st1 sid ∧
      aget st1.sessions sid = some sess1 ∧
      aget sess1.parity (normalizeSequencia ((jsSplit ':' raw).getD 2 "")) =
        some bytes := by
  have h2 : ¬ (jsSplit ':' raw).length < 2 := by omega
  have h4 : ¬ (jsSplit ':' raw).length < 4 := by omega
  rw [dispatchPacket_eq_P st raw h2 hty]
  simp only [dispatchP, h4, if_false, hsess, hdup, hval]
  refine ⟨_, _, _, rfl, aget_aset_self _ _ _, aget_aset_self _ _ _⟩

/-- Witness for the amended C5: a concrete open session receives a parity
payload decoding to 3 bytes; it is stored. -/
theorem c5_amended_parity_stored_any_length_witness :
    ∃ st1 sid sess1,
      dispatchPacket
        ⟨[("9-1", ⟨9, "hh", "FNONE", FEC_NONE, [], [], 75000, ["S:9-1:"]⟩)],
          "X"⟩ "P:9-1:1-2:QUJD" = .fin st1 sid ∧
      aget st1.sessions sid = some sess1 ∧
      aget sess1.parity (normalizeSequencia "1-2") = some [65, 66, 67] := by
  have h := c5_amended_parity_stored_any_length
    ⟨[("9-1", ⟨9, "hh", "FNONE", FEC_NONE, [], [], 75000, ["S:9-1:"]⟩)], "X"⟩
    "P:9-1:1-2:QUJD"
    ⟨9, "hh", "FNONE", FEC_NONE, [], [], 75000, ["S:9-1:"]⟩ [65, 66, 67]
    (by decide) (by decide) (by decide) (by decide) (by decide)
  simpa using h

/-! ## C8: plaintext passthrough -/

/-- Counterexample to C8: the frame `"hello"` contains no colon, so it
does not start with any of `S:`, `D:`, `P:`, `E:`, `FILE:`; the claim
says it is delivered unchanged, but `handleReceivedPacket` returns `null`
for it (`parts.length < 2`), leaving the state untouched. -/
theorem c8_counterexample :
    handleReceivedPacket md5c gzc ⟨[], "X"⟩ "hello" = (⟨[], "X"⟩, none) ∧
    (handleReceivedPacket md5c gzc ⟨[], "X"⟩ "hello").2 ≠
      some (.text "hello") ∧
    jsStartsWith "hello" "S:" = false ∧ jsStartsWith "hello" "D:" = false ∧
    jsStartsWith "hello" "P:" = false ∧ jsStartsWith "hello" "E:" = false ∧
    jsStartsWith "hello" "FILE:" = false := by
  decide

/-- C8 amended: a received frame that contains at least one colon and
whose first colon-field is none of `S`, `D`, `P`, `E`, `FILE` is returned
unchanged as plaintext with no session processing; a frame with no colon
at all is dropped (`null`), also with no session processing. -/
theorem c8_amended_passthrough (md5 : List Nat → String)
    (gz : List Nat → Option (List Nat)) (st : RxState) (raw : String) :
    (2 ≤ (jsSplit ':' raw).length →
      (jsSplit ':' raw).getD 0 "" ∉ (["S", "D", "P", "E", "FILE"] : List String) →
      handleReceivedPacket md5 gz st raw = (st, some (.text raw))) ∧
    ((jsSplit ':' raw).length < 2 →
      handleReceivedPacket md5 gz st raw = (st, none)) := by
  constructor
  · intro hlen hmem
    have h2 : ¬ (jsSplit ':' raw).length < 2 := by omega
    have hfile : ¬ (jsSplit ':' raw).getD 0 "" = "FILE" := by
      intro h
      exact hmem (by rw [h]; decide)
    have hS : ¬ ((jsSplit ':' raw).getD 0 "" = "S" ∨
        (jsSplit ':' raw).getD 0 "" = "D" ∨
        (jsSplit ':' raw).getD 0 "" = "P" ∨
        (jsSplit ':' raw).getD 0 "" = "E") := by
      intro h
      rcases h with h | h | h | h <;> exact hmem (by rw [h]; decide)
    simp only [handleReceivedPacket, dispatchPacket, h2, if_false, hfile, hS,
      not_false_eq_true, if_true]
  · intro hlen
    simp only [handleReceivedPacket, dispatchPacket, hlen, if_true]

/-- Witness for the amended C8 at the concrete frames `"x:y"` (unknown
prefix, delivered raw) and `"hello"` (no colon, dropped). -/
theorem c8_amended_passthrough_witness :
    handleReceivedPacket md5c gzc ⟨[], "X"⟩ "x:y" =
      (⟨[], "X"⟩, some (.text "x:y")) ∧
    handleReceivedPacket md5c gzc ⟨[], "X"⟩ "zz" = (⟨[], "X"⟩, none) :=
  ⟨(c8_amended_passthrough md5c gzc ⟨[], "X"⟩ "x:y").1 (by decide) (by decide),
   (c8_amended_passthrough md5c gzc ⟨[], "X"⟩ "zz").2 (by decide)⟩

/-! ## C6: malformed-payload atomicity -/

theorem dispatchPacket_eq_D (st : RxState) (raw : String)
    (h2 : ¬ (jsSplit ':' raw).length < 2)
    (hty : (jsSplit ':' raw).getD 0 "" = "D") :
    dispatchPacket st raw =
      dispatchD st ((jsSplit ':' raw).getD 1 "")
        ("D" ++ ":" ++ (jsSplit ':' raw).getD 1 "" ++ ":" ++
          (jsSplit ':' raw).getD 2 "")
        (jsSplit ':' raw) := by
  simp only [dispatchPacket, h2, if_false, hty]
  norm_num
  rw [if_neg (by decide : ¬("D" : String) = "FILE"),
    if_neg (by decide : ¬("D" : String) = "S")]

/-- Counterexample to C6: an open session receives `D:9-2:1:ab!c`, whose
payload fails base-64 validation (`!`). The claim says the
duplicate-suppression set is left unchanged so that a later well-formed
copy is accepted; but the packet id `D:9-2:1` is recorded before payload
validation, so the seen set grows and the subsequent well-formed
`D:9-2:1:QUJD` is discarded as a duplicate (the chunk map stays empty). -/
theorem c6_counterexample :
    (aget (handleReceivedPacket md5c gzc
        (handleReceivedPacket md5c gzc ⟨[], "X"⟩ "S:9-2::hh:9:FNONE").1
        "D:9-2:1:ab!c").1.sessions "9-2").map Session.seen =
      some ["S:9-2:", "D:9-2:1"] ∧
    (aget (handleReceivedPacket md5c gzc (handleReceivedPacket md5c gzc
        (handleReceivedPacket md5c gzc ⟨[], "X"⟩ "S:9-2::hh:9:FNONE").1
        "D:9-2:1:ab!c").1 "D:9-2:1:QUJD").1.sessions "9-2").map
      Session.chunks = some [] := by
  decide

/-- C6 amended: a DATA or PARITY packet on an open session whose payload
fails base-64 validation is dropped without touching `chunks` or
`parity` and produces no output, but the packet id **is** first added to
the duplicate-suppression set, so a later well-formed copy of the same
packet is rejected as a duplicate. -/
theorem c6_amended_malformed_payload (md5 : List Nat → String)
    (gz : List Nat → Option (List Nat)) (st : RxState) (raw : String)
    (sess : Session)
    (hty : (jsSplit ':' raw).getD 0 "" = "D" ∨
      (jsSplit ':' raw).getD 0 "" = "P")
    (hlen : 4 ≤ (jsSplit ':' raw).length)
    (hseq : (jsSplit ':' raw).getD 0 "" = "D" →
      (parseIntM ((jsSplit ':' raw).getD 2 "")).isSome)
    (hsess : aget st.sessions ((jsSplit ':' raw).getD 1 "") = some sess)
    (hdup : sess.seen.contains
      ((jsSplit ':' raw).getD 0 "" ++ ":" ++ (jsSplit ':' raw).getD 1 "" ++
        ":" ++ (jsSplit ':' raw).getD 2 "") = false)
    (hbad : validateAndDecodeBase64
      (if (jsSplit ':' raw).getD 0 "" = "D" then
        jsJoin ":" ((jsSplit ':' raw).drop 3)
      else (jsSplit ':' raw).getD 3 "") = none) :
    handleReceivedPacket md5 gz st raw =
      ({st with
          sessions :=
            aset st.sessions ((jsSplit ':' raw).getD 1 "")
              ({sess with
                  seen :=
                    sadd sess.seen
                      ((jsSplit ':' raw).getD 0 "" ++ ":" ++
                        (jsSplit ':' raw).getD 1 "" ++ ":" ++
                        (jsSplit ':' raw).getD 2 "")})}, none) := by
  have h2 : ¬ (jsSplit ':' raw).length < 2 := by omega
  have h4 : ¬ (jsSplit ':' raw).length < 4 := by omega
  rcases hty with hty | hty
  · obtain ⟨seq, hseq'⟩ := Option.isSome_iff_exists.mp (hseq hty)
    rw [hty] at hbad hdup ⊢
    rw [if_pos rfl] at hbad
    rw [handleReceivedPacket, dispatchPacket_eq_D st raw h2 hty]
    simp only [dispatchD, h4, if_false, hseq', hsess, hdup, hbad]
    simp
  · rw [hty] at hbad hdup ⊢
    rw [if_neg (by decide : ¬("P" : String) = "D")] at hbad
    rw [handleReceivedPacket, dispatchPacket_eq_P st raw h2 hty]
    simp only [dispatchP, h4, if_false, hsess, hdup, hbad]
    simp

/-- Witness for the amended C6: a malformed DATA payload on a concrete
open session only grows the seen set. -/
theorem c6_amended_malformed_payload_witness :
    handleReceivedPacket md5c gzc
      ⟨[("w6", ⟨9, "hh", "FNONE", FEC_NONE, [], [], 75000, ["S:w6:"]⟩)], "X"⟩
      "D:w6:1:ab!c" =
      (⟨[("w6", ⟨9, "hh", "FNONE", FEC_NONE, [], [], 75000,
          ["S:w6:", "D:w6:1"]⟩)], "X"⟩, none) := by
  have h := c6_amended_malformed_payload md5c gzc
    ⟨[("w6", ⟨9, "hh", "FNONE", FEC_NONE, [], [], 75000, ["S:w6:"]⟩)], "X"⟩
    "D:w6:1:ab!c" ⟨9, "hh", "FNONE", FEC_NONE, [], [], 75000, ["S:w6:"]⟩
    (by decide) (by decide) (by decide) (by decide) (by decide) (by decide)
  simpa using h

/-! ## C10: a zero-total START finalises immediately -/

theorem aset_of_aget_none {α β : Type} [BEq α] [LawfulBEq α]
    (l : List (α × β)) (k : α) (v : β) (h : aget l k = none) :
    aset l k v = l ++ [(k, v)] := by
  induction l with
  | nil => rfl
  | cons p t ih =>
    rw [aget_cons] at h
    cases hp : p.1 == k with
    | true => simp [hp] at h
    | false =>
      simp only [hp, Bool.false_eq_true, if_false] at h
      simp [aset, hp, ih h]

theorem adel_append_single {α β : Type} [BEq α] [LawfulBEq α]
    (l : List (α × β)) (k : α) (v : β) (h : aget l k = none) :
    adel (l ++ [(k, v)]) k = l := by
  induction l with
  | nil => simp [adel]
  | cons p t ih =>
    rw [aget_cons] at h
    cases hp : p.1 == k with
    | true => simp [hp] at h
    | false =>
      simp only [hp, Bool.false_eq_true, if_false] at h
      simp [adel, hp, ih h]

/-- The five records that `resolveFecScheme` can return. -/
theorem resolveFecScheme_mem (flags : String) :
    resolveFecScheme flags ∈
      [FEC_NONE, BASIC_4, BASIC_2, OVERLAPPING_3, STRONG_OVERLAPPING_3] := by
  unfold resolveFecScheme
  cases fecTokenOf flags with
  | none => simp [DEFAULT_FEC_SCHEME]
  | some name =>
    simp only
    cases hg : aget FEC_SCHEMES name with
    | none => simp [DEFAULT_FEC_SCHEME]
    | some s =>
      have hmem := aget_mem_of_some hg
      have hs : s = FEC_NONE ∨ s = BASIC_4 ∨ s = BASIC_2 ∨
          s = OVERLAPPING_3 ∨ s = STRONG_OVERLAPPING_3 := by
        simp only [FEC_SCHEMES, List.mem_cons, List.not_mem_nil, or_false,
          Prod.mk.injEq] at hmem
        tauto
      rcases hs with h | h | h | h | h <;> simp [h]

/-- The recovery phase does nothing on a fresh empty session with
`total = 0` (for any of the shipped schemes). -/
theorem recoveryPhase_zero (hash flags : String) (fec : FECScheme)
    (t : Int) (seen : List String)
    (hfec : fec ∈
      [FEC_NONE, BASIC_4, BASIC_2, OVERLAPPING_3, STRONG_OVERLAPPING_3]) :
    recoveryPhase ⟨0, hash, flags, fec, [], [], t, seen⟩ =
      ⟨0, hash, flags, fec, [], [], t, seen⟩ := by
  simp only [List.mem_cons, List.not_mem_nil, or_false] at hfec
  rcases hfec with h | h | h | h | h <;> subst h <;>
    simp [recoveryPhase, mainPass, overlapPass, aggressivePass,
      FEC_NONE, BASIC_4, BASIC_2, OVERLAPPING_3, STRONG_OVERLAPPING_3,
      (by decide : intRange 1 (ceilDivI 0 4) = []),
      (by decide : intRange 1 (ceilDivI 0 2) = []),
      (by decide : intRange 1 (ceilDivI 0 3) = []),
      (by decide : generateOverlappingGroups 0 = [])]

/-- C10: a valid START whose `total` parses to `0` finalises the session
within the same `handleReceivedPacket` call: the completion check
`|chunks| == total` holds at once, the session is removed, and the empty
byte stream is delivered exactly when the START's hash field equals the
(abstracted) base-64 MD5 of the empty byte string. (`gz [] = none`
captures that gunzip fails on empty input, so the `C` flag cannot change
the delivered bytes.) -/
theorem c10_zero_total_start (md5 : List Nat → String)
    (gz : List Nat → Option (List Nat)) (st : RxState) (raw : String)
    (hty : (jsSplit ':' raw).getD 0 "" = "S")
    (hlen : 5 ≤ (jsSplit ':' raw).length)
    (ht : parseIntM ((jsSplit ':' raw).getD 4 "") = some 0)
    (hh : ¬ (jsSplit ':' raw).getD 3 "" = "")
    (hnd : (st.sessions.map Prod.fst).Nodup)
    (hgz : gz [] = none) :
    handleReceivedPacket md5 gz st raw =
      ({st with sessions := adel st.sessions ((jsSplit ':' raw).getD 1 "")},
       if md5 [] = (jsSplit ':' raw).getD 3 "" then some (.bytes []) else none)
    := by
  have h2 : ¬ (jsSplit ':' raw).length < 2 := by omega
  have h5 : ¬ (jsSplit ':' raw).length < 5 := by omega
  rw [handleReceivedPacket, dispatchPacket_eq_S st raw h2 hty,
    dispatchS_fin st _ _ _ 0 h5 ht hh]
  set sid := (jsSplit ':' raw).getD 1 "" with hsid
  set sess : Session :=
    ⟨0, (jsSplit ':' raw).getD 3 "", (jsSplit ':' raw).getD 5 "",
      resolveFecScheme ((jsSplit ':' raw).getD 5 ""), [], [],
      calculateTimeout 0 st.proto,
      ["S" ++ ":" ++ sid ++ ":" ++ (jsSplit ':' raw).getD 2 ""]⟩ with hsess
  have hdelnone : aget (adel st.sessions sid) sid = none :=
    aget_adel_self_of_nodup _ _ hnd
  have hset : aset (adel st.sessions sid) sid sess =
      adel st.sessions sid ++ [(sid, sess)] :=
    aset_of_aget_none _ _ _ hdelnone
  unfold finalizePhase
  simp only [aget_aset_self]
  have hrec : recoveryPhase sess = sess :=
    recoveryPhase_zero _ _ _ _ _ (resolveFecScheme_mem _)
  rw [hrec]
  have hcomp : ((sess.chunks.length : Int) = sess.total) := by
    simp [hsess]
  rw [if_pos hcomp]
  have hfull : ((sortByKey sess.chunks).map Prod.snd).flatten = [] := by
    simp [hsess, sortByKey]
  rw [hfull]
  have hdel2 : adel (aset (adel st.sessions sid) sid sess) sid =
      adel st.sessions sid := by
    rw [hset, adel_append_single _ _ _ hdelnone]
  by_cases hmd : md5 [] = sess.expectedHash
  · rw [if_pos hmd]
    have hexp : sess.expectedHash = (jsSplit ':' raw).getD 3 "" := rfl
    rw [hexp] at hmd
    rw [if_pos hmd]
    have hfin : (if jsIncludes sess.flags "C" then
        match gz [] with
        | some d => d
        | none => ([] : List Nat)
      else ([] : List Nat)) = [] := by
      rw [hgz]
      split <;> rfl
    rw [hfin]
    simp only [hdel2]
  · rw [if_neg hmd]
    have hexp : sess.expectedHash = (jsSplit ':' raw).getD 3 "" := rfl
    rw [hexp] at hmd
    rw [if_neg hmd]
    simp only [hdel2]

/-- Witness for C10: `S:w1::H1:0:FNONE` with the concrete hash function
(`md5c [] = "H1"`) delivers the empty message and removes the session. -/
theorem c10_zero_total_start_witness :
    handleReceivedPacket md5c gzc ⟨[], "X"⟩ "S:w1::H1:0:FNONE" =
      (⟨[], "X"⟩, some (.bytes [])) := by
  have h := c10_zero_total_start md5c gzc ⟨[], "X"⟩ "S:w1::H1:0:FNONE"
    (by decide) (by decide) (by decide) (by decide) (by decide) rfl
  rw [h]
  decide

/-! ## C4: duplicate immunity -/

/-- Counterexample to C4: START is not duplicate-suppressed. Injecting
the same START a second time after a DATA packet resets the session
("last START wins"), so the receiver state differs from injecting it
once: the accumulated chunk is lost. -/
theorem c4_counterexample :
    (aget (runFrames md5c gzc ⟨[], "X"⟩
        ["S:9-4::hh:2:FNONE", "D:9-4:1:QUJD", "S:9-4::hh:2:FNONE"]).1.sessions
      "9-4").map Session.chunks = some [] ∧
    (aget (runFrames md5c gzc ⟨[], "X"⟩
        ["S:9-4::hh:2:FNONE", "D:9-4:1:QUJD"]).1.sessions "9-4").map
      Session.chunks = some [(1, [65, 66, 67])] := by
  decide

theorem dispatchPacket_eq_E (st : RxState) (raw : String)
    (h2 : ¬ (jsSplit ':' raw).length < 2)
    (hty : (jsSplit ':' raw).getD 0 "" = "E") :
    dispatchPacket st raw =
      dispatchE st ((jsSplit ':' raw).getD 1 "")
        ("E" ++ ":" ++ (jsSplit ':' raw).getD 1 "" ++ ":" ++
          (jsSplit ':' raw).getD 2 "") := by
  simp only [dispatchPacket, h2, if_false, hty]
  norm_num
  rw [if_neg (by decide : ¬("E" : String) = "FILE"),
    if_neg (by decide : ¬("E" : String) = "S"),
    if_neg (by decide : ¬("E" : String) = "D"),
    if_neg (by decide : ¬("E" : String) = "P")]

/-- The after-packet phase is a no-op on a session that the recovery
passes leave unchanged and that is not complete. -/
theorem finalizePhase_noop (md5 : List Nat → String)
    (gz : List Nat → Option (List Nat)) (st : RxState) (sid : String)
    (sess : Session) (hget : aget st.sessions sid = some sess)
    (hrec : recoveryPhase sess = sess)
    (hncomp : ¬ ((sess.chunks.length : Int) = sess.total)) :
    finalizePhase md5 gz st sid = (st, none) := by
  unfold finalizePhase
  rw [hget]
  simp only [hrec, hncomp, if_false]
  rw [aset_eq_of_aget _ _ _ hget]

/-- C4 amended: duplicate immunity holds for DATA, PARITY and END frames
whose recovery state is stationary: if every session at the frame's sid
already carries the frame's packet id in its seen set, is left unchanged
by the recovery passes, and is not complete, then re-injecting the frame
leaves the receiver state unchanged and delivers nothing — so injecting
such a frame twice equals injecting it once. START frames are exempt:
the case 'S' has no duplicate check, and a repeated START discards the
existing session and its chunks ("last START wins"), as the
counterexample shows. -/
theorem c4_amended_duplicate_noop (md5 : List Nat → String)
    (gz : List Nat → Option (List Nat)) (st : RxState) (raw : String)
    (hty : (jsSplit ':' raw).getD 0 "" = "D" ∨
      (jsSplit ':' raw).getD 0 "" = "P" ∨ (jsSplit ':' raw).getD 0 "" = "E")
    (hses : ∀ sess, aget st.sessions ((jsSplit ':' raw).getD 1 "") =
        some sess →
      sess.seen.contains ((jsSplit ':' raw).getD 0 "" ++ ":" ++
        (jsSplit ':' raw).getD 1 "" ++ ":" ++ (jsSplit ':' raw).getD 2 "") =
          true ∧
      recoveryPhase sess = sess ∧
      ¬ ((sess.chunks.length : Int) = sess.total)) :
    handleReceivedPacket md5 gz st raw = (st, none) := by
  by_cases h2 : (jsSplit ':' raw).length < 2
  · simp only [handleReceivedPacket, dispatchPacket, h2, if_true]
  rcases hty with hty | hty | hty
  · rw [handleReceivedPacket, dispatchPacket_eq_D st raw h2 hty]
    rw [hty] at hses
    unfold dispatchD
    by_cases h4 : (jsSplit ':' raw).length < 4
    · simp [h4]
    rw [if_neg h4]
    cases hp : parseIntM ((jsSplit ':' raw).getD 2 "") with
    | none => simp
    | some seq =>
      simp only
      cases hg : aget st.sessions ((jsSplit ':' raw).getD 1 "") with
      | none => simp
      | some sess =>
        obtain ⟨hdup, hrec, hncomp⟩ := hses sess hg
        simp only [hdup, if_true]
        exact finalizePhase_noop md5 gz st _ sess hg hrec hncomp
  · rw [handleReceivedPacket, dispatchPacket_eq_P st raw h2 hty]
    rw [hty] at hses
    unfold dispatchP
    by_cases h4 : (jsSplit ':' raw).length < 4
    · simp [h4]
    rw [if_neg h4]
    cases hg : aget st.sessions ((jsSplit ':' raw).getD 1 "") with
    | none => simp
    | some sess =>
      obtain ⟨hdup, hrec, hncomp⟩ := hses sess hg
      simp only [hdup, if_true]
      exact finalizePhase_noop md5 gz st _ sess hg hrec hncomp
  · rw [handleReceivedPacket, dispatchPacket_eq_E st raw h2 hty]
    rw [hty] at hses
    unfold dispatchE
    cases hg : aget st.sessions ((jsSplit ':' raw).getD 1 "") with
    | none => simp
    | some sess =>
      obtain ⟨hdup, hrec, hncomp⟩ := hses sess hg
      simp only [hdup, if_true]
      exact finalizePhase_noop md5 gz st _ sess hg hrec hncomp

/-- Witness for the amended C4: a duplicate END frame on a concrete open
session (scheme `NONE`, one chunk of two present) is a complete no-op. -/
theorem c4_amended_duplicate_noop_witness :
    handleReceivedPacket md5c gzc
      ⟨[("w4", ⟨2, "hh", "FNONE", FEC_NONE, [(1, [65])], [], 75000,
          ["S:w4:", "E:w4:"]⟩)], "X"⟩ "E:w4::" =
      (⟨[("w4", ⟨2, "hh", "FNONE", FEC_NONE, [(1, [65])], [], 75000,
          ["S:w4:", "E:w4:"]⟩)], "X"⟩, none) := by
  apply c4_amended_duplicate_noop
  · decide
  · intro sess hg
    have hs : sess = ⟨2, "hh", "FNONE", FEC_NONE, [(1, [65])], [], 75000,
        ["S:w4:", "E:w4:"]⟩ := by
      have := hg
      simp only [show (jsSplit ':' "E:w4::").getD 1 "" = "w4" from rfl] at this
      simpa [aget_cons] using this.symm
    subst hs
    refine ⟨by decide, by decide, by decide⟩

/-! ## C9: recovered chunks are trimmed and nonempty -/

theorem dropWhile_head?_no {α : Type} (p : α → Bool) (l : List α) (a : α)
    (h : (l.dropWhile p).head? = some a) : p a = false := by
  induction l with
  | nil => simp [List.dropWhile] at h
  | cons x t ih =>
    rw [List.dropWhile_cons] at h
    by_cases hp : p x = true
    · exact ih (by simpa [hp] using h)
    · have hx : x = a := by
        simp only [hp, if_false] at h
        simpa using h
      subst hx
      simpa using hp

theorem goodChunk_trimZeros (l : List Nat)
    (h : 0 < (trimZeros l).length) : GoodChunk (trimZeros l) := by
  have hne : trimZeros l ≠ [] := by
    intro hnil
    rw [hnil] at h
    simp at h
  refine ⟨hne, ?_⟩
  intro hlast
  have h1 : (trimZeros l).getLast? =
      (l.reverse.dropWhile (fun b => b == 0)).head? := by
    simp [trimZeros, List.getLast?_reverse]
  rw [h1] at hlast
  have := dropWhile_head?_no (fun b => b == 0) l.reverse 0 hlast
  simp at this

theorem ahas_false_iff {α β : Type} [BEq α] (l : List (α × β)) (k : α) :
    ahas l k = false ↔ aget l k = none := by
  cases h : aget l k <;> simp [ahas, h]

theorem headD_mem {α : Type} (l : List α) (d : α) (h : l ≠ []) :
    l.headD d ∈ l := by
  cases l with
  | nil => exact absurd rfl h
  | cons x t => simp [List.headD]

theorem getD_mem {α : Type} (l : List α) (n : Nat) (d : α)
    (h : n < l.length) : l.getD n d ∈ l := by
  induction l generalizing n with
  | nil => simp at h
  | cons x t ih =>
    cases n with
    | zero => simp [List.getD]
    | succ m =>
      simp only [List.getD_cons_succ]
      exact List.mem_cons_of_mem _ (ih m (by simpa using h))

theorem mem_insInt (x y : Int) (l : List Int) :
    y ∈ insInt x l ↔ y = x ∨ y ∈ l := by
  induction l with
  | nil => simp [insInt]
  | cons z t ih =>
    by_cases h : x ≤ z
    · simp [insInt, h]
    · simp [insInt, h, ih]
      tauto

theorem mem_sortInts (x : Int) (l : List Int) :
    x ∈ sortInts l ↔ x ∈ l := by
  induction l with
  | nil => simp [sortInts]
  | cons z t ih =>
    simp only [sortInts, List.foldr_cons] at ih ⊢
    rw [mem_insInt]
    simp [ih]

theorem length_insInt (x : Int) (l : List Int) :
    (insInt x l).length = l.length + 1 := by
  induction l with
  | nil => rfl
  | cons z t ih =>
    by_cases h : x ≤ z <;> simp [insInt, h, ih]

theorem length_sortInts (l : List Int) :
    (sortInts l).length = l.length := by
  induction l with
  | nil => rfl
  | cons z t ih => simp [sortInts, length_insInt] at ih ⊢; simpa using ih

set_option maxHeartbeats 800000 in
/-- Every entry of a `recoverChunks` result names a chunk missing from
the input map and carries a trimmed, nonempty value. -/
theorem recoverChunks_entries (chunks : List (Int × List Nat))
    (parity : List (String × List Nat)) (groupStart : Int) (groupSize : Nat)
    (scheme : FECScheme) (p : Int × List Nat)
    (hp : p ∈ recoverChunks chunks parity groupStart groupSize scheme) :
    aget chunks p.1 = none ∧ GoodChunk p.2 := by
  unfold recoverChunks at hp
  split at hp
  · simp at hp
  dsimp only at hp
  have hmiss : ∀ i ∈ (intRange groupStart (groupStart + groupSize - 1)).filter
      (fun i => !ahas chunks i), aget chunks i = none := by
    intro i hi
    have := (List.mem_filter.mp hi).2
    rw [← ahas_false_iff]
    simpa using this
  split at hp
  · -- single-missing branch
    next hcond =>
    unfold recoverSingle at hp
    try dsimp only at hp
    split at hp
    · next htrim =>
      simp only [List.mem_singleton] at hp
      subst hp
      refine ⟨hmiss _ (headD_mem _ _ ?_), goodChunk_trimZeros _ htrim⟩
      intro hnil
      rw [hnil] at hcond
      simp at hcond
    · simp at hp
  split at hp
  · -- double-missing branch
    next hcond2 =>
    have hlen2 : (sortInts ((intRange groupStart
        (groupStart + groupSize - 1)).filter
        (fun i => !ahas chunks i))).length = 2 := by
      rw [length_sortInts]
      exact hcond2.1
    unfold recoverDouble at hp
    try dsimp only at hp
    split at hp
    · next hguard =>
      simp only [List.mem_cons, List.not_mem_nil, or_false] at hp
      rcases hp with hp | hp <;> subst hp
      · exact ⟨hmiss _ ((mem_sortInts _ _).mp (getD_mem _ _ _ (by omega))),
          goodChunk_trimZeros _ hguard.1⟩
      · exact ⟨hmiss _ ((mem_sortInts _ _).mp (getD_mem _ _ _ (by omega))),
          goodChunk_trimZeros _ hguard.2⟩
    · exact absurd hp (List.not_mem_nil p)
  split at hp
  · -- triple-missing branch
    next hcond3 =>
    have hlen3 : (sortInts ((intRange groupStart
        (groupStart + groupSize - 1)).filter
        (fun i => !ahas chunks i))).length = 3 := by
      rw [length_sortInts]
      exact hcond3.1
    unfold recoverTriple at hp
    try dsimp only at hp
    split at hp
    · next hguard =>
      simp only [List.mem_cons, List.not_mem_nil, or_false] at hp
      rcases hp with hp | hp | hp <;> subst hp
      · exact ⟨hmiss _ ((mem_sortInts _ _).mp (getD_mem _ _ _ (by omega))),
          goodChunk_trimZeros _ hguard.1⟩
      · exact ⟨hmiss _ ((mem_sortInts _ _).mp (getD_mem _ _ _ (by omega))),
          goodChunk_trimZeros _ hguard.2.1⟩
      · exact ⟨hmiss _ ((mem_sortInts _ _).mp (getD_mem _ _ _ (by omega))),
          goodChunk_trimZeros _ hguard.2.2⟩
    · exact absurd hp (List.not_mem_nil p)
  · simp at hp

theorem chunkExt_refl (c : List (Int × List Nat)) : ChunkExt c c :=
  ⟨fun _ _ h => h, fun k v hn hs => by rw [hn] at hs; cases hs⟩

theorem chunkExt_trans {a b c : List (Int × List Nat)}
    (h1 : ChunkExt a b) (h2 : ChunkExt b c) : ChunkExt a c := by
  refine ⟨fun k v h => h2.1 k v (h1.1 k v h), fun k v hn hs => ?_⟩
  cases hb : aget b k with
  | none => exact h2.2 k v hb hs
  | some w =>
    have h2w := h2.1 k w hb
    rw [h2w] at hs
    injection hs with hvw
    exact hvw ▸ h1.2 k w hn hb

theorem chunkExt_aset_over {c cur : List (Int × List Nat)} (k : Int)
    (v : List Nat) (hext : ChunkExt c cur) (hnone : aget c k = none)
    (hv : GoodChunk v) : ChunkExt c (aset cur k v) := by
  constructor
  · intro k' v' h
    have hne : k' ≠ k := by
      intro he
      rw [he, hnone] at h
      cases h
    rw [aget_aset_ne _ _ _ _ hne]
    exact hext.1 k' v' h
  · intro k' v' hn hs
    rcases aget_aset_cases cur k k' v v' hs with ⟨-, hv'⟩ | hs'
    · rwa [hv']
    · exact hext.2 k' v' hn hs'

theorem chunkExt_foldl_aset {c : List (Int × List Nat)}
    (rec : List (Int × List Nat)) (cur : List (Int × List Nat))
    (hext : ChunkExt c cur)
    (hent : ∀ p ∈ rec, aget c p.1 = none ∧ GoodChunk p.2) :
    ChunkExt c (rec.foldl (fun m p => aset m p.1 p.2) cur) := by
  induction rec generalizing cur with
  | nil => exact hext
  | cons q t ih =>
    have hq := hent q (by simp)
    exact ih _ (chunkExt_aset_over _ _ hext hq.1 hq.2)
      (fun p hp => hent p (by simp [hp]))

theorem chunkExt_foldl_guarded {c : List (Int × List Nat)}
    (rec : List (Int × List Nat)) (cur : List (Int × List Nat))
    (hext : ChunkExt c cur)
    (hent : ∀ p ∈ rec, aget c p.1 = none ∧ GoodChunk p.2) :
    ChunkExt c (rec.foldl
      (fun m p => if ahas m p.1 then m else aset m p.1 p.2) cur) := by
  induction rec generalizing cur with
  | nil => exact hext
  | cons q t ih =>
    have hq := hent q (by simp)
    by_cases hh : ahas cur q.1 = true
    · simp only [List.foldl_cons, hh, if_true]
      exact ih _ hext (fun p hp => hent p (by simp [hp]))
    · simp only [List.foldl_cons, hh, if_false, Bool.false_eq_true]
      exact ih _ (chunkExt_aset_over _ _ hext hq.1 hq.2)
        (fun p hp => hent p (by simp [hp]))

/-- Entries recovered against the current map are absent from the base
map as well (by monotonicity). -/
theorem entries_none_of_ext {c cur : List (Int × List Nat)}
    (hext : ChunkExt c cur) {k : Int} (h : aget cur k = none) :
    aget c k = none := by
  cases hc : aget c k with
  | none => rfl
  | some v =>
    have := hext.1 k v hc
    rw [this] at h
    cases h

theorem chunkExt_foldl_of_step {ι : Type}
    (body : List (Int × List Nat) → ι → List (Int × List Nat))
    (hstep : ∀ cur g, ChunkExt cur (body cur g)) (l : List ι)
    (cur : List (Int × List Nat)) : ChunkExt cur (l.foldl body cur) := by
  induction l generalizing cur with
  | nil => exact chunkExt_refl _
  | cons g t ih => exact chunkExt_trans (hstep cur g) (ih (body cur g))

theorem chunkExt_applyRecovered (cur entries : List (Int × List Nat))
    (hent : ∀ p ∈ entries, aget cur p.1 = none ∧ GoodChunk p.2) :
    ChunkExt cur (applyRecovered cur entries) :=
  chunkExt_foldl_aset entries cur (chunkExt_refl _) hent

theorem chunkExt_mainPass (sess : Session) :
    ChunkExt sess.chunks (mainPass sess) := by
  unfold mainPass
  apply chunkExt_foldl_of_step
  intro cur g
  exact chunkExt_applyRecovered cur _
    (fun p hp => recoverChunks_entries cur sess.parity _ _ _ p hp)

theorem chunkExt_overlapPass (sess : Session)
    (cur : List (Int × List Nat)) : ChunkExt cur (overlapPass sess cur) := by
  unfold overlapPass
  apply chunkExt_foldl_of_step
  intro cur g
  exact chunkExt_foldl_guarded _ cur (chunkExt_refl _)
    (fun p hp => recoverChunks_entries cur sess.parity _ _ _ p hp)

theorem chunkExt_aggressivePass (parity : List (String × List Nat))
    (cur : List (Int × List Nat)) :
    ChunkExt cur (aggressivePass parity cur) := by
  unfold aggressivePass
  apply chunkExt_foldl_of_step
  intro cur p
  dsimp only
  split
  · next hvalid =>
    split
    · next hone =>
      split
      · next htrim =>
        apply chunkExt_aset_over _ _ (chunkExt_refl _) _
          (goodChunk_trimZeros _ htrim)
        have hmem : (intRange (parseSequencia p.1).inicio
            (parseSequencia p.1).fim).filter (fun i => !ahas cur i) ≠ [] := by
          intro hnil
          rw [hnil] at hone
          simp at hone
        have hin := headD_mem _ (0 : Int) hmem
        have := (List.mem_filter.mp hin).2
        rw [← ahas_false_iff]
        simpa using this
      · exact chunkExt_refl _
    · exact chunkExt_refl _
  · exact chunkExt_refl _

/-- C9: every chunk that FEC recovery inserts into a session's chunk map
— by the single-loss XOR path, the double or triple solve, or the
aggressive fallback — is nonempty with a nonzero last byte, because
recovered data is stored only after stripping trailing zero bytes and
only when the stripped length is positive. Consequently a missing chunk
whose true content is empty or ends in `0x00` is never reconstructed
byte-for-byte. -/
theorem c9_recovered_chunks_good (sess : Session) (k : Int) (v : List Nat)
    (hnew : aget sess.chunks k = none)
    (hpost : aget (recoveryPhase sess).chunks k = some v) :
    v ≠ [] ∧ v.getLast? ≠ some 0 := by
  have hext : ChunkExt sess.chunks (recoveryPhase sess).chunks := by
    unfold recoveryPhase
    split
    · dsimp only
      refine chunkExt_trans (chunkExt_mainPass sess)
        (chunkExt_trans
          (b := if sess.fec.overlap = true then
            overlapPass sess (mainPass sess) else mainPass sess) ?_ ?_)
      · split
        · exact chunkExt_overlapPass _ _
        · exact chunkExt_refl _
      · split
        · split
          · exact chunkExt_aggressivePass _ _
          · exact chunkExt_refl _
        · split
          · exact chunkExt_aggressivePass _ _
          · exact chunkExt_refl _
    · exact chunkExt_refl _
  exact hext.2 k v hnew hpost

/-- Witness for C9: a concrete BASIC_2 session missing chunk 1 with its
primary parity available; recovery inserts chunk 1 as `[9]`, which is
nonempty with nonzero last byte. -/
theorem c9_recovered_chunks_good_witness :
    aget (recoveryPhase ⟨2, "hh", "F", BASIC_2, [(2, [7])],
        [("1-2-0", xorBytes [[9], [7]] CHUNK_SIZE)], 75000, []⟩).chunks 1 =
      some [9] ∧
    ([9] : List Nat) ≠ [] ∧ ([9] : List Nat).getLast? ≠ some 0 := by
  refine ⟨by decide, c9_recovered_chunks_good
    ⟨2, "hh", "F", BASIC_2, [(2, [7])],
      [("1-2-0", xorBytes [[9], [7]] CHUNK_SIZE)], 75000, []⟩ 1 [9]
    (by decide) (by decide)⟩

/-! ## C1: hash gate on delivery -/

/-- C1: when, after the dispatch of a structured frame and the recovery
passes, the session reaches `|chunks| == total`, the handler removes the
session from the map (cancelling its timer) and returns a reconstructed
message if and only if the (abstracted) base-64 MD5 of the chunks
concatenated in ascending `seq` order equals the `expected_hash` recorded
from the START packet; on a mismatch nothing is delivered. Hence every
delivered message satisfies `MD5(concatenation) = expected_hash`. -/
theorem c1_hash_gate (md5 : List Nat → String)
    (gz : List Nat → Option (List Nat)) (st st1 : RxState)
    (raw sid : String) (sess : Session)
    (hdisp : dispatchPacket st raw = .fin st1 sid)
    (hget : aget st1.sessions sid = some sess)
    (hcomp : (((recoveryPhase sess).chunks.length : Int) =
      (recoveryPhase sess).total)) :
    (handleReceivedPacket md5 gz st raw).1.sessions = adel st1.sessions sid ∧
    ((handleReceivedPacket md5 gz st raw).2 ≠ none ↔
      md5 (((sortByKey (recoveryPhase sess).chunks).map Prod.snd).flatten) =
        (recoveryPhase sess).expectedHash) := by
  rw [handleReceivedPacket, hdisp]
  dsimp only
  unfold finalizePhase
  rw [hget]
  dsimp only
  rw [if_pos hcomp]
  by_cases hmd : md5 (((sortByKey (recoveryPhase sess).chunks).map
      Prod.snd).flatten) = (recoveryPhase sess).expectedHash
  · rw [if_pos hmd]
    exact ⟨rfl, by simp [hmd]⟩
  · rw [if_neg hmd]
    exact ⟨rfl, by simp [hmd]⟩

/-- Witness for C1 at a concrete zero-total START frame: the session is
removed and the delivery happens exactly because `md5c [] = "H1"` matches
the START's hash field. -/
theorem c1_hash_gate_witness :
    (handleReceivedPacket md5c gzc ⟨[], "X"⟩ "S:w1::H1:0:FNONE").1.sessions =
      adel [("w1", ⟨0, "H1", "FNONE", FEC_NONE, [], [], 60000, ["S:w1:"]⟩)]
        "w1" ∧
    ((handleReceivedPacket md5c gzc ⟨[], "X"⟩ "S:w1::H1:0:FNONE").2 ≠ none ↔
      md5c (((sortByKey (recoveryPhase
          ⟨0, "H1", "FNONE", FEC_NONE, [], [], 60000, ["S:w1:"]⟩).chunks).map
            Prod.snd).flatten) =
        (recoveryPhase
          ⟨0, "H1", "FNONE", FEC_NONE, [], [], 60000, ["S:w1:"]⟩).expectedHash)
    :=
  c1_hash_gate md5c gzc ⟨[], "X"⟩
    ⟨[("w1", ⟨0, "H1", "FNONE", FEC_NONE, [], [], 60000, ["S:w1:"]⟩)], "X"⟩
    "S:w1::H1:0:FNONE" "w1"
    ⟨0, "H1", "FNONE", FEC_NONE, [], [], 60000, ["S:w1:"]⟩
    (by decide) (by decide) (by decide)

/-! ## C2: overlapping group-plan determinism -/

/-- The fold of the phase-2 loop ignores indices whose guard
`i + 2 ≤ total` fails. -/
theorem overlapLoop_const (total : Nat) (l : List Nat) (st : Nat × List FECGroup)
    (hfail : ∀ i ∈ l, ¬ (i + 2 ≤ total)) :
    l.foldl (fun (st : Nat × List FECGroup) i =>
      if i + 2 ≤ total then
        let acc :=
          if (mainGroupKeys total).contains (i, i + 2) then st.2
          else st.2 ++ [⟨i, i + 2, "O" ++ decStr st.1⟩]
        (st.1 + 1, acc)
      else st) st = st := by
  induction l generalizing st with
  | nil => rfl
  | cons i t ih =>
    have hi := hfail i (by simp)
    simp only [List.foldl_cons, hi, if_false]
    exact ih st (fun j hj => hfail j (by simp [hj]))

/-- Over a run of guard-true indices starting at `i0 ≥ 2` with counter
`i0 - 2`, the loop appends exactly the claim's `filterMap` with
`oIndex = i - 2`. -/
theorem overlapLoop_run (total : Nat) (n : Nat) :
    ∀ (i0 : Nat) (acc : List FECGroup), 2 ≤ i0 →
    (∀ i ∈ List.range' i0 n, i + 2 ≤ total) →
    (List.range' i0 n).foldl (fun (st : Nat × List FECGroup) i =>
      if i + 2 ≤ total then
        let acc :=
          if (mainGroupKeys total).contains (i, i + 2) then st.2
          else st.2 ++ [⟨i, i + 2, "O" ++ decStr st.1⟩]
        (st.1 + 1, acc)
      else st) (i0 - 2, acc) =
      (i0 - 2 + n, acc ++ (List.range' i0 n).filterMap (fun i =>
        if (mainGroupKeys total).contains (i, i + 2) then none
        else some ⟨i, i + 2, "O" ++ decStr (i - 2)⟩)) := by
  induction n with
  | zero => intro i0 acc _ _; simp
  | succ m ih =>
    intro i0 acc h2 hall
    rw [List.range'_succ]
    have hg : i0 + 2 ≤ total := hall i0 (by rw [List.range'_succ]; simp)
    simp only [List.foldl_cons, List.filterMap_cons, hg, if_true]
    have hc1 : i0 - 2 + 1 = i0 + 1 - 2 := by omega
    by_cases hmain : (mainGroupKeys total).contains (i0, i0 + 2) = true
    · simp only [hmain, if_true]
      have ihh := ih (i0 + 1) acc (by omega)
        (fun i hi => hall i (by rw [List.range'_succ]; simp [hi]))
      rw [hc1, ihh]
      simp only [Prod.mk.injEq]
      exact ⟨by omega, by simp⟩
    · simp only [hmain, if_false, Bool.false_eq_true]
      have ihh := ih (i0 + 1)
        (acc ++ [(⟨i0, i0 + 2, "O" ++ decStr (i0 - 2)⟩ : FECGroup)]) (by omega)
        (fun i hi => hall i (by rw [List.range'_succ]; simp [hi]))
      rw [hc1, ihh]
      simp only [Prod.mk.injEq]
      exact ⟨by omega, by simp⟩

/-- C2: for every `total ≥ 1` the overlapping group plan equals the
claim's description — all main groups (`start = 1, 4, 7, …`,
`end = min(start+2, total)`, type `0`) in ascending start, then the
overlapping candidates `(i, i+2)` for `i = 2, 3, …` while `i + 2 ≤ total`,
emitted with type `O{i-2}` (the unconditionally incremented `oIndex`)
exactly when `(start, end)` is not a main-group key — and the sender's
plan (`generateFECGroups`) is computed by the same function the receiver
re-enumerates (`generateOverlappingGroups`) for both overlap schemes. -/
theorem c2_overlapping_plan (total : Nat) (_h1 : 1 ≤ total) :
    generateOverlappingGroups total = claimOverlappingPlan total ∧
    generateFECGroups total OVERLAPPING_3 = generateOverlappingGroups total ∧
    generateFECGroups total STRONG_OVERLAPPING_3 =
      generateOverlappingGroups total := by
  refine ⟨?_, by simp [generateFECGroups, OVERLAPPING_3],
    by simp [generateFECGroups, STRONG_OVERLAPPING_3]⟩
  match total with
  | 1 => decide
  | 2 => decide
  | (n + 3) =>
    unfold generateOverlappingGroups claimOverlappingPlan
      overlappingGroupsLoop
    congr 1
    have hsplit : List.range' 2 (n + 3 - 1) =
        List.range' 2 n ++ List.range' (2 + n) 2 := by
      have := List.range'_append 2 n 2 1
      simp only [Nat.one_mul] at this
      rw [this]
      congr 1
      omega
    rw [hsplit, List.foldl_append]
    have hrun := overlapLoop_run (n + 3) n 2 [] (by omega)
      (fun i hi => by
        rw [List.mem_range'_1] at hi
        omega)
    simp only [show (2 : Nat) - 2 = 0 from rfl] at hrun
    rw [hrun, overlapLoop_const (n + 3) _ _
      (fun i hi => by
        rw [List.mem_range'_1] at hi
        omega)]
    simp only [List.nil_append]
    rw [show n + 3 - 3 = n from rfl]

/-- Witness for C2 at `total = 7` (where the skipped candidate `i = 4`
makes `oIndex` jump: groups `O0`, `O1`, `O3`). -/
theorem c2_overlapping_plan_witness :
    generateOverlappingGroups 7 = claimOverlappingPlan 7 ∧
    generateFECGroups 7 OVERLAPPING_3 = generateOverlappingGroups 7 ∧
    generateFECGroups 7 STRONG_OVERLAPPING_3 = generateOverlappingGroups 7 :=
  c2_overlapping_plan 7 (by decide)

/-! ## C3 infrastructure: decimal printing and parsing -/

theorem decDigitsF_mono (n : Nat) : ∀ f g : Nat, n < f → n < g →
    decDigitsF f n = decDigitsF g n := by
  induction n using Nat.strong_induction_on with
  | _ n ih =>
    intro f g hf hg
    match f, g with
    | f' + 1, g' + 1 =>
      unfold decDigitsF
      by_cases h10 : n < 10
      · simp [h10]
      · simp only [h10, if_false]
        have hdiv : n / 10 < n := Nat.div_lt_self (by omega) (by omega)
        rw [ih (n / 10) hdiv f' g' (by omega) (by omega)]

theorem decDigitsF_succ (f n : Nat) : decDigitsF (f + 1) n =
    if n < 10 then [digitChar n]
    else decDigitsF f (n / 10) ++ [digitChar (n % 10)] := by
  rw [decDigitsF]

theorem decDigits_eq (n : Nat) : decDigits n =
    if n < 10 then [digitChar n]
    else decDigits (n / 10) ++ [digitChar (n % 10)] := by
  by_cases h10 : n < 10
  · unfold decDigits decDigitsF
    simp [h10]
  · have hdiv : n / 10 < n := Nat.div_lt_self (by omega) (by omega)
    unfold decDigits
    rw [decDigitsF_succ]
    simp only [h10, if_false]
    rw [decDigitsF_mono (n / 10) n (n / 10 + 1) hdiv (by omega)]

theorem mem_decDigits (n : Nat) : ∀ c ∈ decDigits n,
    ∃ d, d < 10 ∧ c = digitChar d := by
  induction n using Nat.strong_induction_on with
  | _ n ih =>
    intro c hc
    rw [decDigits_eq] at hc
    by_cases h10 : n < 10
    · simp only [h10, if_true, List.mem_singleton] at hc
      exact ⟨n, h10, hc⟩
    · simp only [h10, if_false, List.mem_append, List.mem_singleton] at hc
      rcases hc with hc | hc
      · exact ih (n / 10) (Nat.div_lt_self (by omega) (by omega)) c hc
      · exact ⟨n % 10, Nat.mod_lt _ (by omega), hc⟩

theorem digitChar_toNat (d : Nat) (h : d < 10) :
    (digitChar d).toNat = 48 + d := by
  interval_cases d <;> decide

theorem digitChar_isDigit (d : Nat) (h : d < 10) :
    isDigitChar (digitChar d) = true := by
  interval_cases d <;> decide

theorem digitChar_props (d : Nat) (h : d < 10) :
    digitChar d ≠ ':' ∧ digitChar d ≠ '-' ∧ digitChar d ≠ '+' ∧
    isJsSpace (digitChar d) = false := by
  interval_cases d <;> decide

theorem decDigits_ne_nil (n : Nat) : decDigits n ≠ [] := by
  rw [decDigits_eq]
  split <;> simp

theorem decDigits_no_colon (n : Nat) : ∀ c ∈ decDigits n, c ≠ ':' := by
  intro c hc
  obtain ⟨d, hd, rfl⟩ := mem_decDigits n c hc
  exact (digitChar_props d hd).1

theorem dropWhile_false {α : Type} (p : α → Bool) (l : List α)
    (h : ∀ c ∈ l, p c = false) : l.dropWhile p = l := by
  cases l with
  | nil => rfl
  | cons c t => rw [List.dropWhile_cons, h c (by simp)]; simp

theorem takeWhile_true {α : Type} (p : α → Bool) (l : List α)
    (h : ∀ c ∈ l, p c = true) : l.takeWhile p = l := by
  induction l with
  | nil => rfl
  | cons c t ih =>
    rw [List.takeWhile_cons, h c (by simp)]
    simp only [if_true]
    rw [ih (fun x hx => h x (by simp [hx]))]

theorem digitsVal_append (acc : Nat) (l1 l2 : List Char) :
    digitsVal acc (l1 ++ l2) = digitsVal (digitsVal acc l1) l2 := by
  induction l1 generalizing acc with
  | nil => rfl
  | cons c t ih => exact ih (acc * 10 + (c.toNat - 48))

theorem digitsVal_decDigits (n : Nat) : ∀ acc : Nat,
    digitsVal acc (decDigits n) = acc * 10 ^ (decDigits n).length + n := by
  induction n using Nat.strong_induction_on with
  | _ n ih =>
    intro acc
    rw [decDigits_eq]
    by_cases h10 : n < 10
    · simp only [h10, if_true, List.length_singleton]
      rw [show digitsVal acc [digitChar n] =
        acc * 10 + ((digitChar n).toNat - 48) from rfl]
      rw [digitChar_toNat n h10]
      omega
    · simp only [h10, if_false, digitsVal_append, List.length_append,
        List.length_singleton]
      have hdiv : n / 10 < n := Nat.div_lt_self (by omega) (by omega)
      rw [ih (n / 10) hdiv acc]
      rw [show digitsVal (acc * 10 ^ (decDigits (n / 10)).length + n / 10)
            [digitChar (n % 10)] =
          (acc * 10 ^ (decDigits (n / 10)).length + n / 10) * 10 +
            ((digitChar (n % 10)).toNat - 48) from rfl]
      rw [digitChar_toNat (n % 10) (Nat.mod_lt _ (by omega))]
      have hpow : acc * 10 ^ ((decDigits (n / 10)).length + 1) =
          acc * 10 ^ (decDigits (n / 10)).length * 10 := by ring
      rw [hpow]
      omega

/-- `parseInt` inverts the decimal printer. -/
theorem parseIntM_decStr (n : Nat) : parseIntM (decStr n) = some (n : Int) := by
  have hdigs := mem_decDigits n
  have hdata : (decStr n).data = decDigits n := rfl
  unfold parseIntM
  rw [hdata]
  dsimp only
  rw [dropWhile_false _ _ (fun c hc => by
    obtain ⟨d, hd, rfl⟩ := hdigs c hc
    exact (digitChar_props d hd).2.2.2)]
  have hsign : (match decDigits n with
      | '-' :: rest => ((true : Bool), rest)
      | '+' :: rest => ((false : Bool), rest)
      | _ => ((false : Bool), decDigits n)) = (false, decDigits n) := by
    cases hD : decDigits n with
    | nil => rfl
    | cons c t =>
      have hc : c ∈ decDigits n := by rw [hD]; simp
      obtain ⟨d, hd, rfl⟩ := hdigs c hc
      interval_cases d <;> rfl
  rw [hsign]
  simp only
  rw [takeWhile_true _ _ (fun c hc => by
    obtain ⟨d, hd, rfl⟩ := hdigs c hc
    exact digitChar_isDigit d hd)]
  have hne : (decDigits n).isEmpty = false := by
    cases hD : decDigits n with
    | nil => exact absurd hD (decDigits_ne_nil n)
    | cons c t => rfl
  rw [hne]
  simp only [Bool.false_eq_true, if_false]
  rw [show digitsVal 0 (decDigits n) = n by
    rw [digitsVal_decDigits n 0]; omega]

theorem decStr_injective (a b : Nat) (h : decStr a = decStr b) : a = b := by
  have := congrArg parseIntM h
  rw [parseIntM_decStr, parseIntM_decStr] at this
  simpa using this

/-! ## Lemmas: strings and `split` -/

theorem data_append (s t : String) : (s ++ t).data = s.data ++ t.data := rfl

theorem mk_data (s : String) : String.mk s.data = s := rfl

theorem string_data_inj {s t : String} (h : s.data = t.data) : s = t := by
  cases s; cases t; exact congrArg String.mk h

theorem sappend_assoc (a b c : String) : a ++ b ++ c = a ++ (b ++ c) :=
  string_data_inj (by simp [data_append])

theorem splitCharAux_no_sep (sep : Char) (l : List Char)
    (h : ∀ c ∈ l, c ≠ sep) : splitCharAux sep l = (l, []) := by
  induction l with
  | nil => rfl
  | cons c t ih =>
    simp only [splitCharAux]
    rw [ih (fun x hx => h x (by simp [hx]))]
    rw [if_neg (h c (by simp))]

theorem splitCharAux_append (sep : Char) (l1 l2 : List Char)
    (h : ∀ c ∈ l1, c ≠ sep) :
    splitCharAux sep (l1 ++ sep :: l2) =
      (l1, (splitCharAux sep l2).1 :: (splitCharAux sep l2).2) := by
  induction l1 with
  | nil => simp [splitCharAux]
  | cons c t ih =>
    simp only [List.cons_append, splitCharAux, List.append_eq]
    rw [ih (fun x hx => h x (by simp [hx]))]
    rw [if_neg (h c (by simp))]

theorem splitChar_no_sep (sep : Char) (l : List Char)
    (h : ∀ c ∈ l, c ≠ sep) : splitChar sep l = [l] := by
  unfold splitChar
  rw [splitCharAux_no_sep sep l h]

theorem splitChar_append (sep : Char) (l1 l2 : List Char)
    (h : ∀ c ∈ l1, c ≠ sep) :
    splitChar sep (l1 ++ sep :: l2) = l1 :: splitChar sep l2 := by
  unfold splitChar
  rw [splitCharAux_append sep l1 l2 h]

theorem jsSplit_cons (f rest : String) (hf : colonFree f) :
    jsSplit ':' (f ++ ":" ++ rest) = f :: jsSplit ':' rest := by
  unfold jsSplit
  have hd : (f ++ ":" ++ rest).data = f.data ++ ':' :: rest.data := by
    rw [data_append, data_append]
    simp [show (":" : String).data = [':'] from rfl]
  rw [hd, splitChar_append _ _ _ hf]
  simp [mk_data]

theorem jsSplit_single (f : String) (hf : colonFree f) :
    jsSplit ':' f = [f] := by
  unfold jsSplit
  rw [splitChar_no_sep _ _ hf]
  simp [mk_data]

theorem jsSplit_D (sid a p : String) (h1 : colonFree sid)
    (h2 : colonFree a) (h3 : colonFree p) :
    jsSplit ':' ("D:" ++ sid ++ ":" ++ a ++ ":" ++ p) = ["D", sid, a, p] := by
  have e : "D:" ++ sid ++ ":" ++ a ++ ":" ++ p =
      "D" ++ ":" ++ (sid ++ ":" ++ (a ++ ":" ++ p)) :=
    string_data_inj (by simp [data_append])
  rw [e, jsSplit_cons _ _ (by decide), jsSplit_cons _ _ h1,
    jsSplit_cons _ _ h2, jsSplit_single _ h3]

theorem jsSplit_P (sid a p : String) (h1 : colonFree sid)
    (h2 : colonFree a) (h3 : colonFree p) :
    jsSplit ':' ("P:" ++ sid ++ ":" ++ a ++ ":" ++ p) = ["P", sid, a, p] := by
  have e : "P:" ++ sid ++ ":" ++ a ++ ":" ++ p =
      "P" ++ ":" ++ (sid ++ ":" ++ (a ++ ":" ++ p)) :=
    string_data_inj (by simp [data_append])
  rw [e, jsSplit_cons _ _ (by decide), jsSplit_cons _ _ h1,
    jsSplit_cons _ _ h2, jsSplit_single _ h3]

theorem jsSplit_S (sid h t f : String) (h1 : colonFree sid)
    (h2 : colonFree h) (h3 : colonFree t) (h4 : colonFree f) :
    jsSplit ':' ("S:" ++ sid ++ "::" ++ h ++ ":" ++ t ++ ":" ++ f) =
      ["S", sid, "", h, t, f] := by
  have e : "S:" ++ sid ++ "::" ++ h ++ ":" ++ t ++ ":" ++ f =
      "S" ++ ":" ++ (sid ++ ":" ++ ("" ++ ":" ++ (h ++ ":" ++ (t ++ ":" ++ f)))) :=
    string_data_inj (by simp [data_append])
  rw [e, jsSplit_cons _ _ (by decide), jsSplit_cons _ _ h1,
    jsSplit_cons _ _ (by decide), jsSplit_cons _ _ h2,
    jsSplit_cons _ _ h3, jsSplit_single _ h4]

theorem jsSplit_E (sid : String) (h1 : colonFree sid) :
    jsSplit ':' ("E:" ++ sid ++ "::") = ["E", sid, "", ""] := by
  have e : "E:" ++ sid ++ "::" =
      "E" ++ ":" ++ (sid ++ ":" ++ ("" ++ ":" ++ "")) :=
    string_data_inj (by simp [data_append])
  rw [e, jsSplit_cons _ _ (by decide), jsSplit_cons _ _ h1,
    jsSplit_cons _ _ (by decide), jsSplit_single _ (by decide)]

theorem sappend_cancel_left {a b c : String} (h : a ++ b = a ++ c) :
    b = c := by
  have hd := congrArg String.data h
  rw [data_append, data_append] at hd
  exact string_data_inj (List.append_cancel_left hd)

/-! ## Lemmas: base64 -/

theorem b64Val_b64Char : ∀ n < 64, b64Val (b64Char n) = some n := by decide

theorem b64Char_ne_pad : ∀ n < 64, b64Char n ≠ '=' := by decide

theorem b64Char_mem_alphabet : ∀ n < 64, b64Char n ∈ b64Alphabet := by decide

theorem alphabet_ne_colon : ∀ c ∈ b64Alphabet, c ≠ ':' := by decide

theorem alphabet_val_isSome : ∀ c ∈ b64Alphabet, (b64Val c).isSome = true := by
  decide

theorem alphabet_ne_pad : ∀ c ∈ b64Alphabet, c ≠ '=' := by decide

/-- Shape of `b64encode`: an alphabet-only body followed by at most two
pads, with pads only after a nonempty body. -/
theorem b64encode_shape : ∀ (l : List Nat), (∀ b ∈ l, b < 256) →
    ∃ body pads, b64encode l = body ++ List.replicate pads '=' ∧ pads ≤ 2 ∧
      (∀ c ∈ body, c ∈ b64Alphabet) ∧ (body = [] → pads = 0) := by
  suffices key : ∀ (n : Nat) (l : List Nat), l.length = n →
      (∀ b ∈ l, b < 256) →
      ∃ body pads, b64encode l = body ++ List.replicate pads '=' ∧
        pads ≤ 2 ∧ (∀ c ∈ body, c ∈ b64Alphabet) ∧ (body = [] → pads = 0) by
    exact fun l => key l.length l rfl
  intro n
  induction n using Nat.strong_induction_on with
  | _ n ih =>
    intro l hN
    rcases l with _ | ⟨a, _ | ⟨b, _ | ⟨c, rest⟩⟩⟩
    · exact fun _ => ⟨[], 0, rfl, by omega, by simp, fun _ => rfl⟩
    · intro hb
      have ha : a < 256 := hb a (by simp)
      refine ⟨[b64Char (a / 4), b64Char (a % 4 * 16)], 2, rfl, by omega,
        ?_, by simp⟩
      intro x hx
      simp only [List.mem_cons, List.not_mem_nil, or_false] at hx
      rcases hx with hx | hx
      · exact hx ▸ b64Char_mem_alphabet _ (by omega)
      · exact hx ▸ b64Char_mem_alphabet _ (by omega)
    · intro hb
      have ha : a < 256 := hb a (by simp)
      have hbb : b < 256 := hb b (by simp)
      refine ⟨[b64Char (a / 4), b64Char (a % 4 * 16 + b / 16),
        b64Char (b % 16 * 4)], 1, rfl, by omega, ?_, by simp⟩
      intro x hx
      simp only [List.mem_cons, List.not_mem_nil, or_false] at hx
      rcases hx with hx | hx | hx
      · exact hx ▸ b64Char_mem_alphabet _ (by omega)
      · exact hx ▸ b64Char_mem_alphabet _ (by omega)
      · exact hx ▸ b64Char_mem_alphabet _ (by omega)
    · intro hb
      have ha : a < 256 := hb a (by simp)
      have hbb : b < 256 := hb b (by simp)
      have hc : c < 256 := hb c (by simp)
      simp only [List.length_cons] at hN
      obtain ⟨body, pads, he, hp, hm, hnil⟩ :=
        ih rest.length (by omega) rest rfl (fun x hx => hb x (by simp [hx]))
      refine ⟨b64Char (a / 4) :: b64Char (a % 4 * 16 + b / 16) ::
        b64Char (b % 16 * 4 + c / 64) :: b64Char (c % 64) :: body, pads,
        ?_, hp, ?_, by simp⟩
      · rw [b64encode, he]
        simp
      · intro x hx
        simp only [List.mem_cons] at hx
        rcases hx with hx | hx | hx | hx | hx
        · exact hx ▸ b64Char_mem_alphabet _ (by omega)
        · exact hx ▸ b64Char_mem_alphabet _ (by omega)
        · exact hx ▸ b64Char_mem_alphabet _ (by omega)
        · exact hx ▸ b64Char_mem_alphabet _ (by omega)
        · exact hm x hx

theorem b64encode_length : ∀ (l : List Nat), (b64encode l).length % 4 = 0 := by
  suffices key : ∀ (n : Nat) (l : List Nat), l.length = n →
      (b64encode l).length % 4 = 0 by
    exact fun l => key l.length l rfl
  intro n
  induction n using Nat.strong_induction_on with
  | _ n ih =>
    intro l hN
    rcases l with _ | ⟨a, _ | ⟨b, _ | ⟨c, rest⟩⟩⟩
    · rfl
    · simp [b64encode]
    · simp [b64encode]
    · simp only [List.length_cons] at hN
      have := ih rest.length (by omega) rest rfl
      rw [b64encode]
      simp only [List.length_cons]
      omega

theorem takeWhile_replicate_append (p : Char → Bool) (n : Nat) (x : Char)
    (hx : p x = true) (rest : List Char) :
    (List.replicate n x ++ rest).takeWhile p =
      List.replicate n x ++ rest.takeWhile p := by
  induction n with
  | zero => simp
  | succ m ih => simp [List.replicate_succ, List.takeWhile_cons, hx, ih]

theorem takeWhile_false {α : Type} (p : α → Bool) (l : List α)
    (h : ∀ c ∈ l, p c = false) : l.takeWhile p = [] := by
  cases l with
  | nil => rfl
  | cons c t => simp [List.takeWhile_cons, h c (by simp)]

theorem b64FormatOk_of_shape (body : List Char) (pads : Nat)
    (hp : pads ≤ 2) (hm : ∀ c ∈ body, c ∈ b64Alphabet)
    (hnil : body = [] → pads = 0) :
    b64FormatOk (body ++ List.replicate pads '=') = true := by
  rcases body with _ | ⟨b0, bt⟩
  · rw [hnil rfl]
    decide
  · have htw : (((b0 :: bt) ++ List.replicate pads '=').reverse.takeWhile
        (· = '=')).length = pads := by
      rw [List.reverse_append, List.reverse_replicate]
      rw [takeWhile_replicate_append _ _ _ (by decide)]
      rw [takeWhile_false _ _ (fun c hc => by
        have hcb : c ∈ b0 :: bt := List.mem_reverse.mp hc
        simp [alphabet_ne_pad c (hm c hcb)])]
      simp
    unfold b64FormatOk stripPad
    dsimp only
    rw [htw]
    have hlen : ((b0 :: bt) ++ List.replicate pads '=').length - pads =
        (b0 :: bt).length := by
      simp only [List.length_append, List.length_replicate, List.length_cons]
      omega
    rw [hlen, List.take_left]
    simp only [Bool.and_eq_true, decide_eq_true_eq, List.all_eq_true]
    exact ⟨hp, fun c hc => alphabet_val_isSome c (hm c hc)⟩

theorem atobQuads_b64encode : ∀ (l : List Nat), (∀ b ∈ l, b < 256) →
    atobQuads (b64encode l) = some l := by
  suffices key : ∀ (n : Nat) (l : List Nat), l.length = n →
      (∀ b ∈ l, b < 256) → atobQuads (b64encode l) = some l by
    exact fun l => key l.length l rfl
  intro n
  induction n using Nat.strong_induction_on with
  | _ n ih =>
    intro l hN
    rcases l with _ | ⟨a, _ | ⟨b, _ | ⟨c, rest⟩⟩⟩
    · exact fun _ => rfl
    · intro hb
      have ha : a < 256 := hb a (by simp)
      rw [b64encode, atobQuads]
      rw [b64Val_b64Char (a / 4) (by omega),
        b64Val_b64Char (a % 4 * 16) (by omega)]
      simp only [Option.bind_eq_bind, Option.some_bind, and_self, if_true]
      have : a / 4 * 4 + a % 4 * 16 / 16 = a := by omega
      rw [this]
    · intro hb
      have ha : a < 256 := hb a (by simp)
      have hbb : b < 256 := hb b (by simp)
      rw [b64encode, atobQuads]
      rw [b64Val_b64Char (a / 4) (by omega),
        b64Val_b64Char (a % 4 * 16 + b / 16) (by omega)]
      simp only [Option.bind_eq_bind, Option.some_bind]
      rw [if_neg (b64Char_ne_pad (b % 16 * 4) (by omega))]
      rw [b64Val_b64Char (b % 16 * 4) (by omega)]
      simp only [Option.bind_eq_bind, Option.some_bind, if_true]
      have h1 : a / 4 * 4 + (a % 4 * 16 + b / 16) / 16 = a := by omega
      have h2 : (a % 4 * 16 + b / 16) % 16 * 16 + b % 16 * 4 / 4 = b := by
        omega
      rw [h1, h2]
    · intro hb
      have ha : a < 256 := hb a (by simp)
      have hbb : b < 256 := hb b (by simp)
      have hc : c < 256 := hb c (by simp)
      simp only [List.length_cons] at hN
      rw [b64encode, atobQuads]
      rw [b64Val_b64Char (a / 4) (by omega),
        b64Val_b64Char (a % 4 * 16 + b / 16) (by omega)]
      simp only [Option.bind_eq_bind, Option.some_bind]
      rw [if_neg (b64Char_ne_pad (b % 16 * 4 + c / 64) (by omega))]
      rw [b64Val_b64Char (b % 16 * 4 + c / 64) (by omega)]
      simp only [Option.bind_eq_bind, Option.some_bind]
      rw [if_neg (b64Char_ne_pad (c % 64) (by omega))]
      rw [b64Val_b64Char (c % 64) (by omega)]
      simp only [Option.bind_eq_bind, Option.some_bind]
      rw [ih rest.length (by omega) rest rfl (fun x hx => hb x (by simp [hx]))]
      simp only [Option.bind_eq_bind, Option.some_bind]
      have h1 : a / 4 * 4 + (a % 4 * 16 + b / 16) / 16 = a := by omega
      have h2 : (a % 4 * 16 + b / 16) % 16 * 16 + (b % 16 * 4 + c / 64) / 4 =
          b := by omega
      have h3 : (b % 16 * 4 + c / 64) % 4 * 64 + c % 64 = c := by omega
      rw [h1, h2, h3]

/-- The base64 round trip through `validateAndDecodeBase64`. -/
theorem validate_b64encode (l : List Nat) (hb : ∀ b ∈ l, b < 256) :
    validateAndDecodeBase64 (String.mk (b64encode l)) = some l := by
  unfold validateAndDecodeBase64
  rw [show (String.mk (b64encode l)).data = b64encode l from rfl]
  obtain ⟨body, pads, he, hp, hm, hnil⟩ := b64encode_shape l hb
  have hfmt : b64FormatOk (b64encode l) = true := by
    rw [he]
    exact b64FormatOk_of_shape _ _ hp hm hnil
  rw [hfmt, if_pos (by simp [b64encode_length l])]
  exact atobQuads_b64encode l hb

theorem b64encode_colonFree (l : List Nat) (hb : ∀ b ∈ l, b < 256) :
    colonFree (String.mk (b64encode l)) := by
  intro c hc
  obtain ⟨body, pads, he, hp, hm, hnil⟩ := b64encode_shape l hb
  rw [show (String.mk (b64encode l)).data = b64encode l from rfl, he] at hc
  rcases List.mem_append.mp hc with h | h
  · exact alphabet_ne_colon c (hm c h)
  · rw [List.eq_of_mem_replicate h]
    decide

/-! ## Lemmas: XOR algebra, padding and trailing-zero stripping -/

theorem listXor_nil : listXor [] = 0 := rfl

theorem listXor_cons (a : Nat) (l : List Nat) :
    listXor (a :: l) = a ^^^ listXor l := rfl

theorem listXor_append (l1 l2 : List Nat) :
    listXor (l1 ++ l2) = listXor l1 ^^^ listXor l2 := by
  induction l1 with
  | nil => simp [listXor]
  | cons a t ih =>
    rw [List.cons_append, listXor_cons, listXor_cons, ih, Nat.xor_assoc]

theorem listXor_lt_256 (l : List Nat) (h : ∀ b ∈ l, b < 256) :
    listXor l < 256 := by
  induction l with
  | nil => decide
  | cons a t ih =>
    rw [listXor_cons]
    exact Nat.xor_lt_two_pow (n := 8) (h a (by simp))
      (ih (fun x hx => h x (by simp [hx])))

theorem xor_cancel_lemma (a b x : Nat) :
    (a ^^^ (x ^^^ b)) ^^^ (a ^^^ b) = x := by
  apply Nat.eq_of_testBit_eq
  intro i
  simp only [Nat.testBit_xor]
  cases a.testBit i <;> cases b.testBit i <;> cases x.testBit i <;> rfl

theorem listXor_erase_mid (A B : List Nat) (x : Nat) :
    listXor (A ++ x :: B) ^^^ listXor (A ++ B) = x := by
  rw [listXor_append, listXor_append, listXor_cons]
  exact xor_cancel_lemma (listXor A) (listXor B) x

theorem getD_replicate_zero (size jj : Nat) :
    (List.replicate size (0 : Nat)).getD jj 0 = 0 := by
  rcases Nat.lt_or_ge jj size with h | h
  · rw [List.getD_eq_getElem _ _ (by simpa using h)]
    simp
  · rw [List.getD_eq_default _ _ (by simpa using h)]

theorem getD_zipWith_xor (a b : List Nat) (jj : Nat)
    (h1 : jj < a.length) (h2 : jj < b.length) :
    (List.zipWith (· ^^^ ·) a b).getD jj 0 = a.getD jj 0 ^^^ b.getD jj 0 := by
  rw [List.getD_eq_getElem _ _ (by simp [List.length_zipWith]; omega),
    List.getD_eq_getElem _ _ h1, List.getD_eq_getElem _ _ h2]
  simp

theorem padTo_length (c : List Nat) (size : Nat) (h : c.length ≤ size) :
    (padTo c size).length = size := by
  unfold padTo
  rw [List.take_of_length_le h]
  simp only [List.length_append, List.length_replicate]
  omega

theorem padTo_getD (c : List Nat) (size jj : Nat) (h : c.length ≤ size) :
    (padTo c size).getD jj 0 = c.getD jj 0 := by
  unfold padTo
  rw [List.take_of_length_le h]
  by_cases hj : jj < c.length
  · rw [List.getD_append _ _ _ _ hj]
  · rw [List.getD_append_right _ _ _ _ (by omega)]
    rw [show c.getD jj 0 = 0 from List.getD_eq_default _ _ (by omega)]
    exact getD_replicate_zero _ _

theorem xorBytes_foldl_spec (size : Nat) :
    ∀ (cs : List (List Nat)) (init : List Nat),
      (∀ c ∈ cs, c.length ≤ size) → init.length = size →
      ((cs.foldl (fun result c => List.zipWith (· ^^^ ·) result (padTo c size))
          init).length = size ∧
       ∀ jj, jj < size →
        (cs.foldl (fun result c => List.zipWith (· ^^^ ·) result (padTo c size))
            init).getD jj 0 =
          init.getD jj 0 ^^^ listXor (cs.map (fun c => c.getD jj 0))) := by
  intro cs
  induction cs with
  | nil =>
    intro init _ hinit
    exact ⟨hinit, fun jj hj => by simp [listXor]⟩
  | cons c t ih =>
    intro init hcs hinit
    simp only [List.foldl_cons]
    have hcl : c.length ≤ size := hcs c (by simp)
    have hlen : (List.zipWith (· ^^^ ·) init (padTo c size)).length = size := by
      rw [List.length_zipWith, padTo_length c size hcl, hinit]
      omega
    obtain ⟨ih1, ih2⟩ := ih (List.zipWith (· ^^^ ·) init (padTo c size))
      (fun x hx => hcs x (by simp [hx])) hlen
    refine ⟨ih1, fun jj hj => ?_⟩
    rw [ih2 jj hj]
    rw [getD_zipWith_xor _ _ _ (by omega) (by rw [padTo_length c size hcl]; omega)]
    rw [padTo_getD c size jj hcl]
    rw [List.map_cons, listXor_cons, Nat.xor_assoc]

theorem xorBytes_length (cs : List (List Nat)) (size : Nat)
    (h : ∀ c ∈ cs, c.length ≤ size) : (xorBytes cs size).length = size :=
  (xorBytes_foldl_spec size cs (List.replicate size 0) h (by simp)).1

theorem xorBytes_getD (cs : List (List Nat)) (size : Nat)
    (h : ∀ c ∈ cs, c.length ≤ size) (jj : Nat) (hj : jj < size) :
    (xorBytes cs size).getD jj 0 = listXor (cs.map (fun c => c.getD jj 0)) := by
  have := (xorBytes_foldl_spec size cs (List.replicate size 0) h (by simp)).2 jj hj
  rw [xorBytes] at *
  rw [this, getD_replicate_zero, Nat.zero_xor]

theorem xorUnder_length (size : Nat) (acc d : List Nat) :
    (xorUnder size acc d).length = acc.length := by
  simp [xorUnder]

theorem xorUnder_getD (size : Nat) (acc d : List Nat) (jj : Nat)
    (hj : jj < acc.length) (hsz : jj < size) :
    (xorUnder size acc d).getD jj 0 = acc.getD jj 0 ^^^ d.getD jj 0 := by
  unfold xorUnder
  rw [List.getD_eq_getElem _ _ (by simpa using hj), List.getD_eq_getElem _ _ hj]
  rw [List.getElem_mapIdx]
  simp [hsz]

theorem xorUnder_foldl_spec (size : Nat) (ps : List (Int × List Nat)) :
    ∀ init : List Nat, init.length = size →
    ((ps.foldl (fun acc pc => xorUnder size acc pc.2) init).length = size ∧
     ∀ jj, jj < size →
      (ps.foldl (fun acc pc => xorUnder size acc pc.2) init).getD jj 0 =
        init.getD jj 0 ^^^ listXor (ps.map (fun pc => pc.2.getD jj 0))) := by
  induction ps with
  | nil =>
    intro init hinit
    exact ⟨hinit, fun jj hj => by simp [listXor]⟩
  | cons p t ih =>
    intro init hinit
    simp only [List.foldl_cons]
    have hlen : (xorUnder size init p.2).length = size := by
      rw [xorUnder_length, hinit]
    obtain ⟨ih1, ih2⟩ := ih (xorUnder size init p.2) hlen
    refine ⟨ih1, fun jj hj => ?_⟩
    rw [ih2 jj hj, xorUnder_getD size init p.2 jj (by omega) hj]
    rw [List.map_cons, listXor_cons, Nat.xor_assoc]

theorem list_ext_getD (l1 l2 : List Nat) (size : Nat)
    (h1 : l1.length = size) (h2 : l2.length = size)
    (h : ∀ jj, jj < size → l1.getD jj 0 = l2.getD jj 0) : l1 = l2 := by
  apply List.ext_getElem (by omega)
  intro i hi1 hi2
  have := h i (by omega)
  rwa [List.getD_eq_getElem _ _ hi1, List.getD_eq_getElem _ _ hi2] at this

theorem dropWhile_replicate_append (p : Nat → Bool) (n : Nat) (x : Nat)
    (hx : p x = true) (rest : List Nat) :
    (List.replicate n x ++ rest).dropWhile p = rest.dropWhile p := by
  induction n with
  | zero => simp
  | succ m ih => simp [List.replicate_succ, List.dropWhile_cons, hx, ih]

theorem trimZeros_padTo (c : List Nat) (size : Nat) (hlen : c.length ≤ size)
    (b : Nat) (hb : c.getLast? = some b) (hbz : b ≠ 0) :
    trimZeros (padTo c size) = c := by
  unfold trimZeros padTo
  rw [List.take_of_length_le hlen]
  rw [List.reverse_append, List.reverse_replicate]
  rw [dropWhile_replicate_append _ _ _ (by decide)]
  obtain ⟨t, ht⟩ : ∃ t, c.reverse = b :: t := by
    have hh : c.reverse.head? = some b := by rw [List.head?_reverse, hb]
    cases hcr : c.reverse with
    | nil => rw [hcr] at hh; cases hh
    | cons y t =>
      rw [hcr] at hh
      simp only [List.head?_cons, Option.some.injEq] at hh
      exact ⟨t, by rw [hh]⟩
  rw [ht, List.dropWhile_cons]
  rw [show (b == 0) = false from by simpa using hbz]
  rw [if_neg (by simp)]
  rw [← ht, List.reverse_reverse]

/-! ## Lemmas: parity keys (`createParityKey` / `parseSequencia`) -/

theorem decStr_data (n : Nat) : (decStr n).data = decDigits n := rfl

theorem intStr_of_nonneg (i : Int) (h : 0 ≤ i) : intStr i = decStr i.toNat := by
  unfold intStr
  rw [if_neg (by omega)]

theorem decDigits_no_dash (n : Nat) : ∀ c ∈ decDigits n, c ≠ '-' := by
  intro c hc
  obtain ⟨d, hd, rfl⟩ := mem_decDigits n c hc
  exact (digitChar_props d hd).2.1

theorem decStr_colonFree (n : Nat) : colonFree (decStr n) := by
  intro c hc
  rw [decStr_data] at hc
  exact decDigits_no_colon n c hc

theorem intStr_colonFree (i : Int) : colonFree (intStr i) := by
  intro c hc
  unfold intStr at hc
  split at hc
  · rw [data_append] at hc
    rcases List.mem_append.mp hc with h | h
    · rw [show ("-" : String).data = ['-'] from rfl] at h
      rw [List.mem_singleton.mp h]
      decide
    · exact decStr_colonFree _ c h
  · exact decStr_colonFree _ c hc

theorem createParityKey_data (s e : Int) (t : String) :
    (createParityKey s e t).data =
      (intStr s).data ++ '-' :: ((intStr e).data ++ '-' :: t.data) := by
  unfold createParityKey
  simp [data_append, show ("-" : String).data = ['-'] from rfl]

theorem createParityKey_colonFree (s e : Int) (t : String) (ht : colonFree t) :
    colonFree (createParityKey s e t) := by
  intro c hc
  rw [createParityKey_data] at hc
  rcases List.mem_append.mp hc with h | h
  · exact intStr_colonFree s c h
  · rcases List.mem_cons.mp h with h | h
    · rw [h]; decide
    · rcases List.mem_append.mp h with h | h
      · exact intStr_colonFree e c h
      · rcases List.mem_cons.mp h with h | h
        · rw [h]; decide
        · exact ht c h

theorem jsSplit_dash_key (s e : Int) (t : String) (hs : 0 ≤ s) (he : 0 ≤ e)
    (ht : ∀ c ∈ t.data, c ≠ '-') :
    jsSplit '-' (createParityKey s e t) = [decStr s.toNat, decStr e.toNat, t] := by
  unfold createParityKey
  rw [intStr_of_nonneg s hs, intStr_of_nonneg e he]
  unfold jsSplit
  have hd : (decStr s.toNat ++ "-" ++ decStr e.toNat ++ "-" ++ t).data =
      decDigits s.toNat ++ '-' :: (decDigits e.toNat ++ '-' :: t.data) := by
    simp [data_append, decStr_data, show ("-" : String).data = ['-'] from rfl]
  rw [hd, splitChar_append _ _ _ (decDigits_no_dash s.toNat)]
  rw [splitChar_append _ _ _ (decDigits_no_dash e.toNat)]
  rw [splitChar_no_sep _ _ ht]
  simp only [List.map_cons, List.map_nil, mk_data]
  rfl

theorem parseSequencia_key (s e : Int) (t : String) (hs : 0 < s) (hse : s ≤ e)
    (ht : ∀ c ∈ t.data, c ≠ '-') (htne : t ≠ "") :
    parseSequencia (createParityKey s e t) = ⟨s, e, t, true⟩ := by
  unfold parseSequencia
  rw [jsSplit_dash_key s e t (by omega) (by omega) ht]
  dsimp only
  rw [if_neg (by simp)]
  simp only [List.getD_cons_zero, List.getD_cons_succ]
  rw [parseIntM_decStr, parseIntM_decStr]
  dsimp only
  unfold jsOrStr
  rw [if_neg htne]
  rw [Int.toNat_of_nonneg (by omega), Int.toNat_of_nonneg (by omega)]
  simp [hs, hse]

theorem normalizeSequencia_key (s e : Int) (t : String) (hs : 0 < s)
    (hse : s ≤ e) (ht : ∀ c ∈ t.data, c ≠ '-') (htne : t ≠ "") :
    normalizeSequencia (createParityKey s e t) = createParityKey s e t := by
  unfold normalizeSequencia
  rw [parseSequencia_key s e t hs hse ht htne]
  rfl

theorem createParityKey_inj (s e s' e' : Int) (t t' : String)
    (hs : 0 < s) (hse : s ≤ e) (ht : ∀ c ∈ t.data, c ≠ '-') (htne : t ≠ "")
    (hs' : 0 < s') (hse' : s' ≤ e') (ht' : ∀ c ∈ t'.data, c ≠ '-')
    (htne' : t' ≠ "")
    (h : createParityKey s e t = createParityKey s' e' t') :
    s = s' ∧ e = e' ∧ t = t' := by
  have hp := congrArg parseSequencia h
  rw [parseSequencia_key s e t hs hse ht htne,
    parseSequencia_key s' e' t' hs' hse' ht' htne'] at hp
  injection hp with h1 h2 h3 h4
  exact ⟨h1, h2, h3⟩

/-! ## Lemmas: integer ranges -/

theorem intRange_eq (a b : Int) : intRange a b =
    (List.range (b + 1 - a).toNat).map (fun k => a + Int.ofNat k) := rfl

theorem intRange_nil (a b : Int) (h : b < a) : intRange a b = [] := by
  rw [intRange_eq]
  rw [show (b + 1 - a).toNat = 0 from by omega]
  rfl

theorem intRange_cons (a b : Int) (h : a ≤ b) :
    intRange a b = a :: intRange (a + 1) b := by
  rw [intRange_eq, intRange_eq]
  rw [show (b + 1 - a).toNat = (b + 1 - (a + 1)).toNat + 1 from by omega]
  rw [List.range_succ_eq_map]
  rw [List.map_cons, List.map_map]
  congr 1
  · simp
  · apply List.map_congr_left
    intro k _
    simp only [Function.comp_apply, Int.ofNat_eq_coe]
    push_cast
    omega

theorem mem_intRange (x a b : Int) : x ∈ intRange a b ↔ a ≤ x ∧ x ≤ b := by
  rw [intRange_eq]
  simp only [List.mem_map, List.mem_range, Int.ofNat_eq_coe]
  constructor
  · rintro ⟨k, hk, rfl⟩
    omega
  · rintro ⟨h1, h2⟩
    exact ⟨(x - a).toNat, by omega, by omega⟩

theorem intRange_append (b : Int) : ∀ (n : Nat) (a c : Int),
    (c + 1 - a).toNat = n → a ≤ c + 1 → c ≤ b →
    intRange a c ++ intRange (c + 1) b = intRange a b := by
  intro n
  induction n with
  | zero =>
    intro a c hn h1 h2
    rw [intRange_nil a c (by omega), show a = c + 1 from by omega]
    simp
  | succ m ih =>
    intro a c hn h1 h2
    rw [intRange_cons a c (by omega), intRange_cons a b (by omega)]
    rw [List.cons_append]
    rw [ih (a + 1) c (by omega) (by omega) h2]

theorem intRange_length (a b : Int) :
    (intRange a b).length = (b + 1 - a).toNat := by
  rw [intRange_eq]
  simp

/-! ## Lemmas: generic list utilities for the run analysis -/

theorem filterMap_aget_all_some (chunks : List (Int × List Nat))
    (f : Int → List Nat) (A : List Int)
    (hA : ∀ i ∈ A, aget chunks i = some (f i)) :
    A.filterMap (fun i => (aget chunks i).map (fun d => (i, d))) =
      A.map (fun i => (i, f i)) := by
  induction A with
  | nil => rfl
  | cons a t ih =>
    rw [List.filterMap_cons, hA a (by simp)]
    rw [show ((some (f a)).map (fun d => (a, d))) = some (a, f a) from rfl]
    dsimp only
    rw [ih (fun i hi => hA i (by simp [hi]))]
    rw [List.map_cons]

theorem filter_eq_nil_of_false {α : Type} (p : α → Bool) (l : List α)
    (h : ∀ x ∈ l, p x = false) : l.filter p = [] := by
  induction l with
  | nil => rfl
  | cons a t ih =>
    rw [List.filter_cons, h a (by simp)]
    simp only [Bool.false_eq_true, if_false]
    exact ih (fun x hx => h x (by simp [hx]))

theorem map_getD_range {α : Type} (d : α) (l : List α) :
    (List.range l.length).map (fun i => l.getD i d) = l := by
  induction l with
  | nil => rfl
  | cons a t ih =>
    rw [List.length_cons, List.range_succ_eq_map]
    rw [List.map_cons, List.map_map, List.getD_cons_zero]
    congr 1

/-! ## Lemmas: `chunkBytes` -/

theorem chunkBytesF_flatten (s : Nat) : ∀ (fuel : Nat) (data : List Nat),
    data.length ≤ fuel → (chunkBytesF fuel data (s + 1)).flatten = data := by
  intro fuel
  induction fuel with
  | zero =>
    intro data h
    cases data with
    | nil => rfl
    | cons d ds => simp at h
  | succ f ih =>
    intro data h
    cases data with
    | nil => rfl
    | cons d ds =>
      rw [chunkBytesF]
      rw [List.flatten_cons]
      rw [ih (ds.drop s) (by
        rw [List.length_drop]
        simp only [List.length_cons] at h
        omega)]
      rw [List.take_succ_cons, List.cons_append, List.take_append_drop]

theorem chunkBytes_flatten (data : List Nat) :
    (chunkBytes data CHUNK_SIZE).flatten = data := by
  unfold chunkBytes CHUNK_SIZE
  exact chunkBytesF_flatten 74 data.length data le_rfl

theorem chunkBytesF_mem (s : Nat) : ∀ (fuel : Nat) (data : List Nat),
    ∀ c ∈ chunkBytesF fuel data (s + 1),
      c.length ≤ s + 1 ∧ c ≠ [] ∧ ∀ b ∈ c, b ∈ data := by
  intro fuel
  induction fuel with
  | zero =>
    intro data c hc
    cases data with
    | nil => cases hc
    | cons d ds => cases hc
  | succ f ih =>
    intro data c hc
    cases data with
    | nil => cases hc
    | cons d ds =>
      rw [chunkBytesF] at hc
      rcases List.mem_cons.mp hc with hc | hc
      · subst hc
        refine ⟨List.length_take_le _ _, by simp [List.take_succ_cons], ?_⟩
        intro b hb
        exact List.mem_of_mem_take hb
      · obtain ⟨h1, h2, h3⟩ := ih (ds.drop s) c hc
        exact ⟨h1, h2, fun b hb =>
          List.mem_cons_of_mem _ (List.drop_subset _ _ (h3 b hb))⟩

theorem chunkBytes_props (data : List Nat) :
    ∀ c ∈ chunkBytes data CHUNK_SIZE,
      c.length ≤ CHUNK_SIZE ∧ c ≠ [] ∧ ∀ b ∈ c, b ∈ data := by
  unfold chunkBytes CHUNK_SIZE
  exact chunkBytesF_mem 74 data.length data

theorem drop_take_eq_map_getD {α : Type} (d : α) (l : List α) (a n : Nat)
    (h : a + n ≤ l.length) :
    (l.drop a).take n = (List.range n).map (fun k => l.getD (a + k) d) := by
  apply List.ext_getElem
  · simp only [List.length_take, List.length_drop, List.length_map,
      List.length_range]
    omega
  · intro i hi1 hi2
    simp only [List.length_take, List.length_drop] at hi1
    rw [List.getElem_take, List.getElem_drop]
    rw [List.getElem_map, List.getElem_range]
    rw [List.getD_eq_getElem _ _ (by omega)]

/-! ## Lemmas: association-list permutations and `sortByKey` -/

theorem aget_none_of_not_mem_keys (l : List (Int × List Nat)) (k : Int)
    (h : k ∉ l.map Prod.fst) : aget l k = none := by
  cases hg : aget l k with
  | none => rfl
  | some v => exact absurd (aget_some_key_mem hg) h

theorem aget_middle_ne (pre post : List (Int × List Nat))
    (p : Int × List Nat) (k : Int) (hk : k ≠ p.1) :
    aget (pre ++ post) k = aget (pre ++ p :: post) k := by
  induction pre with
  | nil =>
    rw [List.nil_append, List.nil_append, aget_cons,
      if_neg (by simp; exact fun hh => hk hh.symm)]
  | cons q t ih =>
    rw [List.cons_append, List.cons_append, aget_cons, aget_cons, ih]

theorem perm_of_nodup_aget_eq : ∀ (l l' : List (Int × List Nat)),
    (l.map Prod.fst).Nodup → (l'.map Prod.fst).Nodup →
    (∀ k, aget l k = aget l' k) → l.Perm l' := by
  intro l
  induction l with
  | nil =>
    intro l' _ _ h
    cases l' with
    | nil => exact List.Perm.refl _
    | cons p t =>
      exfalso
      have hh := (h p.1).symm
      rw [aget_cons, if_pos (by simp)] at hh
      cases hh
  | cons p t ih =>
    intro l' hn hn' h
    have hp : aget l' p.1 = some p.2 := by
      rw [← h p.1, aget_cons, if_pos (by simp)]
    have hpmem : p ∈ l' := aget_mem_of_some hp
    obtain ⟨pre, post, rfl⟩ := List.append_of_mem hpmem
    have hperm' : List.Perm (pre ++ p :: post) (p :: (pre ++ post)) :=
      List.perm_middle
    have hkeys : (p.1 :: (pre ++ post).map Prod.fst).Nodup := by
      have hmp := (hperm'.map Prod.fst).nodup_iff.mp hn'
      simpa using hmp
    have hn'' : ((pre ++ post).map Prod.fst).Nodup :=
      (List.nodup_cons.mp hkeys).2
    have hnp : p.1 ∉ (pre ++ post).map Prod.fst :=
      (List.nodup_cons.mp hkeys).1
    simp only [List.map_cons, List.nodup_cons] at hn
    refine (List.Perm.cons p ?_).trans hperm'.symm
    apply ih (pre ++ post) hn.2 hn''
    intro k
    by_cases hk : k = p.1
    · subst hk
      rw [aget_none_of_not_mem_keys t _ hn.1,
        aget_none_of_not_mem_keys _ _ hnp]
    · rw [aget_middle_ne pre post p k hk, ← h k, aget_cons,
        if_neg (by simp; exact fun hh => hk hh.symm)]

theorem mem_insFirst (p q : Int × List Nat) :
    ∀ l, q ∈ insFirst p l ↔ q = p ∨ q ∈ l := by
  intro l
  induction l with
  | nil => simp [insFirst]
  | cons r t ih =>
    rw [insFirst]
    split
    · simp
    · simp only [List.mem_cons, ih]
      tauto

theorem insFirst_perm (p : Int × List Nat) :
    ∀ l, (insFirst p l).Perm (p :: l) := by
  intro l
  induction l with
  | nil => exact List.Perm.refl _
  | cons r t ih =>
    rw [insFirst]
    split
    · exact List.Perm.refl _
    · exact (ih.cons r).trans (List.Perm.swap p r t)

theorem sortByKey_perm (l : List (Int × List Nat)) : (sortByKey l).Perm l := by
  induction l with
  | nil => exact List.Perm.refl _
  | cons p t ih =>
    unfold sortByKey at *
    rw [List.foldr_cons]
    exact (insFirst_perm p _).trans (ih.cons p)

theorem insFirst_pairwise (p : Int × List Nat) :
    ∀ l, l.Pairwise (fun a b => a.1 ≤ b.1) →
      (insFirst p l).Pairwise (fun a b => a.1 ≤ b.1) := by
  intro l
  induction l with
  | nil => simp [insFirst]
  | cons r t ih =>
    intro h
    rw [List.pairwise_cons] at h
    rw [insFirst]
    split
    · rename_i hle
      rw [List.pairwise_cons]
      refine ⟨?_, List.pairwise_cons.mpr h⟩
      intro x hx
      rcases List.mem_cons.mp hx with hx | hx
      · rw [hx]; exact hle
      · exact le_trans hle (h.1 x hx)
    · rename_i hgt
      rw [List.pairwise_cons]
      refine ⟨?_, ih h.2⟩
      intro x hx
      rcases (mem_insFirst p x t).mp hx with hx | hx
      · rw [hx]; omega
      · exact h.1 x hx

theorem sortByKey_pairwise (l : List (Int × List Nat)) :
    (sortByKey l).Pairwise (fun a b => a.1 ≤ b.1) := by
  induction l with
  | nil => simp [sortByKey]
  | cons p t ih =>
    unfold sortByKey at *
    rw [List.foldr_cons]
    exact insFirst_pairwise p _ ih

theorem sortByKey_eq_of_perm (l C : List (Int × List Nat))
    (hperm : l.Perm C) (hC : C.Pairwise (fun a b => a.1 < b.1))
    (hnodup : (l.map Prod.fst).Nodup) : sortByKey l = C := by
  have h1 : (sortByKey l).Perm C := (sortByKey_perm l).trans hperm
  have hkeys : ((sortByKey l).map Prod.fst).Nodup :=
    (((sortByKey_perm l).map Prod.fst).nodup_iff).mpr hnodup
  have hlt : (sortByKey l).Pairwise (fun a b => a.1 < b.1) := by
    have hne : (sortByKey l).Pairwise (fun a b => a.1 ≠ b.1) :=
      List.pairwise_map.mp hkeys
    exact ((sortByKey_pairwise l).and hne).imp
      (fun h => lt_of_le_of_ne h.1 h.2)
  haveI : IsAntisymm (Int × List Nat) (fun a b => a.1 < b.1) :=
    ⟨fun a b hab hba => absurd hba (by omega)⟩
  exact List.eq_of_perm_of_sorted h1 hlt hC

/-! ## Lemmas: generic fold invariants -/

theorem foldl_fixed {α β : Type} (step : α → β → α) (init : α) :
    ∀ l : List β, (∀ x ∈ l, step init x = init) → l.foldl step init = init := by
  intro l
  induction l with
  | nil => intro _; rfl
  | cons x t ih =>
    intro h
    rw [List.foldl_cons, h x (by simp)]
    exact ih (fun y hy => h y (by simp [hy]))

theorem foldl_inv {α β : Type} (P : α → Prop) (step : α → β → α) :
    ∀ (l : List β) (init : α), P init →
      (∀ acc x, x ∈ l → P acc → P (step acc x)) → P (l.foldl step init) := by
  intro l
  induction l with
  | nil => intro init h _; exact h
  | cons x t ih =>
    intro init h hstep
    rw [List.foldl_cons]
    exact ih _ (hstep init x (by simp) h)
      (fun acc y hy => hstep acc y (by simp [hy]))

/-! ## Lemmas: `recoverChunks` -/

theorem recoverChunks_nil_of_no_primary (chunks : List (Int × List Nat))
    (parity : List (String × List Nat)) (groupStart : Int) (groupSize : Nat)
    (scheme : FECScheme)
    (h : ahas parity
      (createParityKey groupStart (groupStart + groupSize - 1) "0") = false) :
    recoverChunks chunks parity groupStart groupSize scheme = [] := by
  unfold recoverChunks
  split
  · rfl
  · dsimp only
    rw [if_neg (fun hc => by rw [h] at hc; exact absurd hc.2 (by simp))]
    rw [if_neg (fun hc => by rw [h] at hc; exact absurd hc.2.1 (by simp))]
    rw [if_neg (fun hc => by rw [h] at hc; exact absurd hc.2.2.1 (by simp))]

theorem recoverChunks_nil_of_no_missing (chunks : List (Int × List Nat))
    (parity : List (String × List Nat)) (groupStart : Int) (groupSize : Nat)
    (scheme : FECScheme)
    (h : (intRange groupStart (groupStart + groupSize - 1)).filter
      (fun i => !ahas chunks i) = []) :
    recoverChunks chunks parity groupStart groupSize scheme = [] := by
  unfold recoverChunks
  split
  · rfl
  · dsimp only
    rw [h]
    rw [if_neg (fun hc => by simp at hc)]
    rw [if_neg (fun hc => by simp at hc)]
    rw [if_neg (fun hc => by simp at hc)]

theorem recoverChunks_single (chunks : List (Int × List Nat))
    (parity : List (String × List Nat)) (groupStart : Int) (groupSize : Nat)
    (scheme : FECScheme) (hpc : ¬ scheme.parityCount = 0)
    (A B : List Int) (f : Int → List Nat) (m : Int) (pb : List Nat)
    (hsplit : intRange groupStart (groupStart + groupSize - 1) = A ++ m :: B)
    (hA : ∀ i ∈ A, aget chunks i = some (f i))
    (hB : ∀ i ∈ B, aget chunks i = some (f i))
    (hm : aget chunks m = none)
    (hpar : aget parity
      (createParityKey groupStart (groupStart + groupSize - 1) "0") = some pb) :
    recoverChunks chunks parity groupStart groupSize scheme =
      recoverSingle m pb
        (A.map (fun i => (i, f i)) ++ B.map (fun i => (i, f i))) := by
  unfold recoverChunks
  rw [if_neg hpc]
  dsimp only
  rw [hsplit]
  have hmiss : (A ++ m :: B).filter (fun i => !ahas chunks i) = [m] := by
    rw [List.filter_append, List.filter_cons]
    rw [filter_eq_nil_of_false _ A (fun i hi => by
      simp [ahas, hA i hi])]
    rw [show (!ahas chunks m) = true from by simp [ahas, hm]]
    rw [if_pos rfl]
    rw [filter_eq_nil_of_false _ B (fun i hi => by
      simp [ahas, hB i hi])]
    rfl
  rw [hmiss]
  have hpres : (A ++ m :: B).filterMap
      (fun i => (aget chunks i).map (fun d => (i, d))) =
      A.map (fun i => (i, f i)) ++ B.map (fun i => (i, f i)) := by
    rw [List.filterMap_append, List.filterMap_cons, hm]
    rw [filterMap_aget_all_some chunks f A hA,
      filterMap_aget_all_some chunks f B hB]
    rfl
  rw [hpres]
  rw [if_pos ⟨rfl, by rw [ahas, hpar]; rfl⟩]
  rw [hpar]
  rfl

theorem recoverSingle_eq (m : Int) (pb : List Nat)
    (ps : List (Int × List Nat)) (c : List Nat)
    (hlen : pb.length = CHUNK_SIZE)
    (hbyte : ∀ jj, jj < CHUNK_SIZE →
      pb.getD jj 0 ^^^ listXor (ps.map (fun pc => pc.2.getD jj 0)) =
        c.getD jj 0)
    (hclen : c.length ≤ CHUNK_SIZE) (b : Nat) (hlast : c.getLast? = some b)
    (hbz : b ≠ 0) :
    recoverSingle m pb ps = [(m, c)] := by
  unfold recoverSingle
  obtain ⟨hrl, hrb⟩ := xorUnder_foldl_spec CHUNK_SIZE ps pb hlen
  have hrec : ps.foldl (fun acc pc => xorUnder CHUNK_SIZE acc pc.2) pb =
      padTo c CHUNK_SIZE := by
    apply list_ext_getD _ _ CHUNK_SIZE hrl (padTo_length c CHUNK_SIZE hclen)
    intro jj hj
    rw [hrb jj hj, padTo_getD c CHUNK_SIZE jj hclen]
    exact hbyte jj hj
  rw [hrec]
  dsimp only
  rw [trimZeros_padTo c CHUNK_SIZE hclen b hlast hbz]
  rw [if_pos (by
    cases c with
    | nil => cases hlast
    | cons x t => simp)]

theorem parity_bytes_solve (A B : List Int) (m : Int) (f : Int → List Nat)
    (hflen : ∀ i ∈ A ++ m :: B, (f i).length ≤ CHUNK_SIZE)
    (jj : Nat) (hj : jj < CHUNK_SIZE) :
    (xorBytes ((A ++ m :: B).map f) CHUNK_SIZE).getD jj 0 ^^^
      listXor ((A.map (fun i => (i, f i)) ++ B.map (fun i => (i, f i))).map
        (fun pc => pc.2.getD jj 0)) = (f m).getD jj 0 := by
  rw [xorBytes_getD _ _ (fun c hc => by
      obtain ⟨i, hi, rfl⟩ := List.mem_map.mp hc
      exact hflen i hi) jj hj]
  simp only [List.map_append, List.map_cons, List.map_map]
  exact listXor_erase_mid (A.map ((fun (c : List Nat) => c.getD jj 0) ∘ f))
    (B.map ((fun (c : List Nat) => c.getD jj 0) ∘ f)) ((f m).getD jj 0)

/-- One group of the standard pass recovers nothing: every in-range index
other than `seqj` is present, and whenever the group covers `seqj` or is
the cut-off last group, its (unclamped) primary key is absent. -/
theorem recoverChunks_noop_master (chunks : List (Int × List Nat))
    (parity : List (String × List Nat)) (s : Int) (gs : Nat)
    (scheme : FECScheme) (total seqj : Int)
    (hchunks : ∀ i : Int, 1 ≤ i → i ≤ total → i ≠ seqj →
      ∃ v, aget chunks i = some v)
    (hs : 1 ≤ s) (hgs : 0 < gs)
    (hkey : ((s ≤ seqj ∧ seqj ≤ s + gs - 1) ∨ total < s + (gs : Int) - 1) →
      ahas parity (createParityKey s (s + gs - 1) "0") = false) :
    recoverChunks chunks parity s gs scheme = [] := by
  by_cases hc : (s ≤ seqj ∧ seqj ≤ s + gs - 1) ∨ total < s + (gs : Int) - 1
  · exact recoverChunks_nil_of_no_primary _ _ _ _ _ (hkey hc)
  · have hcov : ¬(s ≤ seqj ∧ seqj ≤ s + gs - 1) := fun h => hc (Or.inl h)
    have hbig : ¬(total < s + (gs : Int) - 1) := fun h => hc (Or.inr h)
    apply recoverChunks_nil_of_no_missing
    apply filter_eq_nil_of_false
    intro i hi
    rw [mem_intRange] at hi
    obtain ⟨v, hv⟩ := hchunks i (by omega) (by omega) (by
      intro hiq
      subst hiq
      exact hcov ⟨hi.1, hi.2⟩)
    simp [ahas, hv]

theorem ceilDivI_bounds (a : Int) (b : Nat) (hb : 0 < b) :
    a ≤ ceilDivI a b * b ∧ (ceilDivI a b - 1) * b < a := by
  unfold ceilDivI
  rw [if_neg (by omega)]
  rw [Int.fdiv_eq_ediv (a + (b : Int) - 1) (by omega : (0 : Int) ≤ (b : Int))]
  have h0 := Int.ediv_add_emod (a + b - 1) b
  have h1 := Int.emod_nonneg (a + b - 1) (by omega : (b : Int) ≠ 0)
  have h2 := Int.emod_lt_of_pos (a + b - 1) (by omega : (0 : Int) < (b : Int))
  constructor
  · nlinarith [h0, h1, h2]
  · nlinarith [h0, h1, h2]

theorem foldl_congr_mem {α β : Type} (l : List β) (f g : α → β → α)
    (init : α) (h : ∀ acc x, x ∈ l → f acc x = g acc x) :
    l.foldl f init = l.foldl g init := by
  induction l generalizing init with
  | nil => rfl
  | cons x t ih =>
    rw [List.foldl_cons, List.foldl_cons, h init x (by simp)]
    exact ih _ (fun acc y hy => h acc y (by simp [hy]))

theorem jsStartsWith_O (x : String) : jsStartsWith ("O" ++ x) "O" = true := by
  unfold jsStartsWith
  rw [data_append]
  rw [show ("O" : String).data = ['O'] from rfl]
  simp [List.isPrefixOf]

/-- Members of the overlapping-groups loop output. -/
theorem overlappingGroupsLoop_mem (T : Nat) :
    ∀ g ∈ overlappingGroupsLoop T,
      2 ≤ g.start ∧ g.stop = g.start + 2 ∧ g.stop ≤ T ∧
        jsStartsWith g.type "O" = true := by
  unfold overlappingGroupsLoop
  have key := foldl_inv
    (fun (st : Nat × List FECGroup) => ∀ g ∈ st.2,
      2 ≤ g.start ∧ g.stop = g.start + 2 ∧ g.stop ≤ T ∧
        jsStartsWith g.type "O" = true)
    (fun (st : Nat × List FECGroup) i =>
      if i + 2 ≤ T then
        ((st.1 + 1 : Nat),
          if (mainGroupKeys T).contains (i, i + 2) then st.2
          else st.2 ++ [⟨i, i + 2, "O" ++ decStr st.1⟩])
      else st)
    (List.range' 2 (T - 1)) (0, []) (by simp)
    (fun acc x hx hacc => by
      have hx2 : 2 ≤ x := by
        have := List.mem_range'.mp hx
        omega
      dsimp only
      split
      · rename_i hxT
        split
        · exact hacc
        · intro g hg
          rcases List.mem_append.mp hg with hg | hg
          · exact hacc g hg
          · rw [List.mem_singleton.mp hg]
            exact ⟨hx2, rfl, hxT, jsStartsWith_O _⟩
      · exact hacc)
  exact key

/-- Members of the main-groups list. -/
theorem mainGroups_mem (T : Nat) :
    ∀ g ∈ mainGroups T, ∃ k, g = ⟨3 * k + 1, min (3 * k + 3) T, "0"⟩ := by
  intro g hg
  obtain ⟨k, _, rfl⟩ := List.mem_map.mp hg
  exact ⟨k, rfl⟩

/-- The standard pass is a no-op when no stored primary key can serve the
group that misses `seqj` (or an out-of-range group). -/
theorem mainPass_noop (sess : Session) (seqj : Int)
    (hchunks : ∀ i : Int, 1 ≤ i → i ≤ sess.total → i ≠ seqj →
      ∃ v, aget sess.chunks i = some v)
    (hgs : 0 < sess.fec.groupSize)
    (hkey : ∀ s : Int, 1 ≤ s →
      ((s ≤ seqj ∧ seqj ≤ s + sess.fec.groupSize - 1) ∨
        sess.total < s + (sess.fec.groupSize : Int) - 1) →
      ahas sess.parity
        (createParityKey s (s + sess.fec.groupSize - 1) "0") = false) :
    mainPass sess = sess.chunks := by
  unfold mainPass
  apply foldl_fixed
  intro g hg
  rw [mem_intRange] at hg
  have hs1 : (1 : Int) ≤ (g - 1) * sess.fec.groupSize + 1 := by
    have := mul_nonneg (show (0 : Int) ≤ g - 1 by omega)
      (show (0 : Int) ≤ sess.fec.groupSize by omega)
    omega
  dsimp only
  rw [recoverChunks_noop_master sess.chunks sess.parity _ _ _ sess.total seqj
    hchunks hs1 hgs (hkey _ hs1)]
  rfl

/-- The overlapping pass is a no-op when no stored primary key of width-3
shape covers `seqj`. -/
theorem overlapPass_noop (sess : Session) (chunks0 : List (Int × List Nat))
    (seqj : Int)
    (hchunks : ∀ i : Int, 1 ≤ i → i ≤ sess.total → i ≠ seqj →
      ∃ v, aget chunks0 i = some v)
    (htot : 0 ≤ sess.total)
    (hkey : ∀ s : Int, 0 < s → s ≤ seqj → seqj ≤ s + 2 →
      ahas sess.parity (createParityKey s (s + 2) "0") = false) :
    overlapPass sess chunks0 = chunks0 := by
  unfold overlapPass
  apply foldl_fixed
  intro g hg
  have hg' := List.mem_filter.mp hg
  have hloop : g ∈ overlappingGroupsLoop sess.total.toNat := by
    unfold generateOverlappingGroups at hg'
    rcases List.mem_append.mp hg'.1 with h | h
    · exfalso
      obtain ⟨k, rfl⟩ := mainGroups_mem _ g h
      have hw := hg'.2
      dsimp only at hw
      exact absurd hw (by decide)
    · exact h
  obtain ⟨h2s, hstop, hle, _⟩ := overlappingGroupsLoop_mem _ g hloop
  have hgs3 : g.stop - g.start + 1 = 3 := by omega
  rw [hgs3]
  rw [recoverChunks_noop_master chunks0 sess.parity _ _ _ sess.total seqj
    hchunks (by omega) (by omega) ?_]
  · rfl
  · intro hcase
    have hstopT : (g.stop : Int) ≤ sess.total := by omega
    rcases hcase with hcov | hbig
    · have he : ((g.start : Int) + (3 : Nat) - 1) = (g.start : Int) + 2 := by
        omega
      rw [he] at hcov ⊢
      exact hkey _ (by omega) hcov.1 hcov.2
    · exfalso
      omega

/-- The aggressive pass is a no-op over a parity map whose `0`-typed keys
never cover `seqj`. -/
theorem aggressivePass_noop (parity : List (String × List Nat))
    (chunks0 : List (Int × List Nat)) (total seqj : Int)
    (hchunks : ∀ i : Int, 1 ≤ i → i ≤ total → i ≠ seqj →
      ∃ v, aget chunks0 i = some v)
    (hpar : ∀ kv ∈ parity, ∃ (s' e' : Int) (t : String),
      kv.1 = createParityKey s' e' t ∧ 0 < s' ∧ s' ≤ e' ∧ e' ≤ total ∧
      (∀ c ∈ t.data, c ≠ '-') ∧ t ≠ "" ∧
      (t = "0" → ¬(s' ≤ seqj ∧ seqj ≤ e'))) :
    aggressivePass parity chunks0 = chunks0 := by
  unfold aggressivePass
  apply foldl_fixed
  intro kv hkv
  obtain ⟨s', e', t, hkey, hs', hse', hle, htd, htne, htag⟩ := hpar kv hkv
  rw [hkey, parseSequencia_key s' e' t hs' hse' htd htne]
  dsimp only
  rw [if_pos rfl]
  by_cases ht0 : t = "0"
  · subst ht0
    have hnocov := htag rfl
    have hmiss : (intRange s' e').filter (fun i => !ahas chunks0 i) = [] := by
      apply filter_eq_nil_of_false
      intro i hi
      rw [mem_intRange] at hi
      obtain ⟨v, hv⟩ := hchunks i (by omega) (by omega)
        (fun hiq => hnocov (hiq ▸ ⟨hi.1, hi.2⟩))
      simp [ahas, hv]
    rw [hmiss]
    rw [if_neg (by simp)]
  · rw [if_neg (fun hc => ht0 hc.2)]

theorem intRange_nodup (a b : Int) : (intRange a b).Nodup := by
  rw [intRange_eq]
  exact List.Nodup.map (fun x y h => by
    simp only [Int.ofNat_eq_coe] at h
    omega) (List.nodup_range _)

/-- The standard pass when the full group `[q*gs+1, q*gs+gs]` misses exactly
`seqj` and holds its primary parity: exactly that chunk is recovered. -/
theorem mainPass_trigger (sess : Session) (seqj q : Int) (c : List Nat)
    (A B : List Int) (f : Int → List Nat) (pb : List Nat)
    (hgs : 0 < sess.fec.groupSize)
    (hq : 0 ≤ q)
    (hcov1 : q * sess.fec.groupSize + 1 ≤ seqj)
    (hcov2 : seqj ≤ q * sess.fec.groupSize + sess.fec.groupSize)
    (hfull : q * sess.fec.groupSize + (sess.fec.groupSize : Int) ≤ sess.total)
    (hchunks : ∀ i : Int, 1 ≤ i → i ≤ sess.total → i ≠ seqj →
      aget sess.chunks i = some (f i))
    (hnone : aget sess.chunks seqj = none)
    (hsplit : intRange (q * sess.fec.groupSize + 1)
        (q * sess.fec.groupSize + sess.fec.groupSize) = A ++ seqj :: B)
    (hpc : ¬ sess.fec.parityCount = 0)
    (hpar_yes : aget sess.parity
      (createParityKey (q * sess.fec.groupSize + 1)
        (q * sess.fec.groupSize + sess.fec.groupSize) "0") = some pb)
    (hkey_not : ∀ s : Int, 1 ≤ s → ¬ s = q * sess.fec.groupSize + 1 →
      ((s ≤ seqj ∧ seqj ≤ s + sess.fec.groupSize - 1) ∨
        sess.total < s + (sess.fec.groupSize : Int) - 1) →
      ahas sess.parity
        (createParityKey s (s + sess.fec.groupSize - 1) "0") = false)
    (hsolved : recoverSingle seqj pb
      (A.map (fun i => (i, f i)) ++ B.map (fun i => (i, f i))) =
        [(seqj, c)]) :
    mainPass sess = aset sess.chunks seqj c := by
  have hqgs : (0 : Int) ≤ q * sess.fec.groupSize :=
    mul_nonneg hq (by omega)
  have hbounds := ceilDivI_bounds sess.total sess.fec.groupSize hgs
  have hqN : q + 1 ≤ ceilDivI sess.total sess.fec.groupSize := by
    by_contra hq2
    push_neg at hq2
    have hmul : ceilDivI sess.total sess.fec.groupSize *
        (sess.fec.groupSize : Int) ≤ q * sess.fec.groupSize :=
      mul_le_mul_of_nonneg_right (by omega) (by omega)
    linarith [hbounds.1]
  -- membership bounds of the split pieces
  have hnd : (A ++ seqj :: B).Nodup := hsplit ▸ intRange_nodup _ _
  have hndp := List.nodup_append.mp hnd
  have hjA : seqj ∉ A := fun h => (hndp.2.2 h) (by simp)
  have hjB : seqj ∉ B := by
    have := hndp.2.1
    rw [List.nodup_cons] at this
    exact this.1
  have hmemA : ∀ i ∈ A, aget sess.chunks i = some (f i) := by
    intro i hi
    have hmem : i ∈ intRange (q * sess.fec.groupSize + 1)
        (q * sess.fec.groupSize + sess.fec.groupSize) := by
      rw [hsplit]
      exact List.mem_append.mpr (Or.inl hi)
    rw [mem_intRange] at hmem
    exact hchunks i (by omega) (by omega)
      (fun hiq => hjA (hiq ▸ hi))
  have hmemB : ∀ i ∈ B, aget sess.chunks i = some (f i) := by
    intro i hi
    have hmem : i ∈ intRange (q * sess.fec.groupSize + 1)
        (q * sess.fec.groupSize + sess.fec.groupSize) := by
      rw [hsplit]
      exact List.mem_append.mpr (Or.inr (by simp [hi]))
    rw [mem_intRange] at hmem
    exact hchunks i (by omega) (by omega)
      (fun hiq => hjB (hiq ▸ hi))
  unfold mainPass
  rw [← intRange_append (ceilDivI sess.total sess.fec.groupSize)
    (q + 1 - 1).toNat 1 q rfl (by omega) (by omega)]
  rw [intRange_cons (q + 1) _ (by omega)]
  rw [List.foldl_append, List.foldl_cons]
  rw [foldl_fixed _ sess.chunks (intRange 1 q) (fun g hg => by
    rw [mem_intRange] at hg
    have hs1 : (1 : Int) ≤ (g - 1) * sess.fec.groupSize + 1 := by
      have := mul_nonneg (show (0 : Int) ≤ g - 1 by omega)
        (show (0 : Int) ≤ sess.fec.groupSize by omega)
      omega
    have hmul : g * (sess.fec.groupSize : Int) ≤ q * sess.fec.groupSize :=
      mul_le_mul_of_nonneg_right (by omega) (by omega)
    have hrw : (g - 1) * (sess.fec.groupSize : Int) + 1 +
        sess.fec.groupSize - 1 = g * sess.fec.groupSize := by ring
    dsimp only
    rw [recoverChunks_noop_master sess.chunks sess.parity _ _ _ sess.total
      seqj (fun i h1 h2 h3 => ⟨f i, hchunks i h1 h2 h3⟩) hs1 hgs
      (fun hcase => by
        exfalso
        rcases hcase with ⟨hc1, hc2⟩ | hbig
        · rw [hrw] at hc2
          linarith
        · rw [hrw] at hbig
          linarith)]
    rfl)]
  dsimp only
  have hsrw : ((q + 1 : Int) - 1) * sess.fec.groupSize + 1 =
      q * sess.fec.groupSize + 1 := by ring
  rw [hsrw]
  have hsplit' : intRange (q * sess.fec.groupSize + 1)
      (q * sess.fec.groupSize + 1 + sess.fec.groupSize - 1) =
      A ++ seqj :: B := by
    rw [show q * (sess.fec.groupSize : Int) + 1 + sess.fec.groupSize - 1 =
      q * sess.fec.groupSize + sess.fec.groupSize from by ring]
    exact hsplit
  rw [recoverChunks_single sess.chunks sess.parity
    (q * sess.fec.groupSize + 1) sess.fec.groupSize sess.fec hpc A B f seqj
    pb hsplit' hmemA hmemB hnone (by
      rw [show q * (sess.fec.groupSize : Int) + 1 + sess.fec.groupSize - 1 =
        q * sess.fec.groupSize + sess.fec.groupSize from by ring]
      exact hpar_yes)]
  rw [hsolved]
  rw [show applyRecovered sess.chunks [(seqj, c)] =
    aset sess.chunks seqj c from rfl]
  apply foldl_fixed
  intro g hg
  rw [mem_intRange] at hg
  have hs1 : (1 : Int) ≤ (g - 1) * sess.fec.groupSize + 1 := by
    have := mul_nonneg (show (0 : Int) ≤ g - 1 by omega)
      (show (0 : Int) ≤ sess.fec.groupSize by omega)
    omega
  have hmul : (q + 1) * (sess.fec.groupSize : Int) ≤
      (g - 1) * sess.fec.groupSize :=
    mul_le_mul_of_nonneg_right (by omega) (by omega)
  rw [recoverChunks_noop_master (aset sess.chunks seqj c) sess.parity _ _ _
    sess.total 0 (fun i h1 h2 _ => by
      by_cases hiq : i = seqj
      · subst hiq
        exact ⟨c, aget_aset_self _ _ _⟩
      · rw [aget_aset_ne _ _ _ _ hiq]
        exact ⟨f i, hchunks i h1 h2 hiq⟩) hs1 hgs
    (fun hcase => by
      rcases hcase with ⟨hc1, hc2⟩ | hbig
      · exfalso
        omega
      · apply hkey_not _ hs1 (fun he => by
          have h2 : (g - 1) * (sess.fec.groupSize : Int) =
              q * sess.fec.groupSize := by linarith
          have h3 : (q + 1) * (sess.fec.groupSize : Int) =
              q * sess.fec.groupSize + sess.fec.groupSize := by ring
          have h4 : (0 : Int) < sess.fec.groupSize := by omega
          linarith) (Or.inr hbig))]
  rfl

theorem agg_fold_eq (A B : List Int) (m : Int) (f : Int → List Nat)
    (chunks : List (Int × List Nat)) (pb : List Nat)
    (hA : ∀ i ∈ A, aget chunks i = some (f i))
    (hB : ∀ i ∈ B, aget chunks i = some (f i))
    (hm : aget chunks m = none) :
    (A ++ m :: B).foldl (fun acc i =>
        match aget chunks i with
        | some d => xorUnder CHUNK_SIZE acc d
        | none => acc) pb =
      (A.map (fun i => (i, f i)) ++ B.map (fun i => (i, f i))).foldl
        (fun acc pc => xorUnder CHUNK_SIZE acc pc.2) pb := by
  have hseg : ∀ (L : List Int) (init : List Nat),
      (∀ i ∈ L, aget chunks i = some (f i)) →
      L.foldl (fun acc i =>
        match aget chunks i with
        | some d => xorUnder CHUNK_SIZE acc d
        | none => acc) init =
      (L.map (fun i => (i, f i))).foldl
        (fun acc pc => xorUnder CHUNK_SIZE acc pc.2) init := by
    intro L init hL
    rw [List.foldl_map]
    exact foldl_congr_mem L _ _ init (fun acc i hi => by rw [hL i hi])
  rw [List.foldl_append, List.foldl_cons, hm]
  rw [List.foldl_append]
  rw [hseg A pb hA]
  rw [hseg B _ hB]

/-- The aggressive pass over `P0 ++ [primary key of the cut-off group]`:
the inert prefix leaves the chunk map alone and the final entry recovers
exactly `seqj`. -/
theorem aggressivePass_trigger (P0 : List (String × List Nat))
    (pb : List Nat) (chunks0 : List (Int × List Nat)) (total seqj sstar : Int)
    (c : List Nat) (A B : List Int) (f : Int → List Nat)
    (hchunks : ∀ i : Int, 1 ≤ i → i ≤ total → i ≠ seqj →
      aget chunks0 i = some (f i))
    (hnone : aget chunks0 seqj = none)
    (hP0 : ∀ kv ∈ P0, ∃ (s' e' : Int) (t : String),
      kv.1 = createParityKey s' e' t ∧ 0 < s' ∧ s' ≤ e' ∧ e' ≤ total ∧
      (∀ ch ∈ t.data, ch ≠ '-') ∧ t ≠ "" ∧
      (t = "0" → ¬(s' ≤ seqj ∧ seqj ≤ e')))
    (hss : 0 < sstar) (hcov1 : sstar ≤ seqj) (hcov2 : seqj ≤ total)
    (hsplit : intRange sstar total = A ++ seqj :: B)
    (hpb_len : pb.length = CHUNK_SIZE)
    (hbyte : ∀ jj, jj < CHUNK_SIZE →
      pb.getD jj 0 ^^^ listXor
        ((A.map (fun i => (i, f i)) ++ B.map (fun i => (i, f i))).map
          (fun pc => pc.2.getD jj 0)) = c.getD jj 0)
    (hclen : c.length ≤ CHUNK_SIZE) (b : Nat) (hlast : c.getLast? = some b)
    (hbz : b ≠ 0) :
    aggressivePass (P0 ++ [(createParityKey sstar total "0", pb)]) chunks0 =
      aset chunks0 seqj c := by
  have hnd : (A ++ seqj :: B).Nodup := hsplit ▸ intRange_nodup _ _
  have hndp := List.nodup_append.mp hnd
  have hjA : seqj ∉ A := fun h => (hndp.2.2 h) (by simp)
  have hjB : seqj ∉ B := by
    have := hndp.2.1
    rw [List.nodup_cons] at this
    exact this.1
  have hmemA : ∀ i ∈ A, aget chunks0 i = some (f i) := by
    intro i hi
    have hmem : i ∈ intRange sstar total := by
      rw [hsplit]
      exact List.mem_append.mpr (Or.inl hi)
    rw [mem_intRange] at hmem
    exact hchunks i (by omega) (by omega) (fun hiq => hjA (hiq ▸ hi))
  have hmemB : ∀ i ∈ B, aget chunks0 i = some (f i) := by
    intro i hi
    have hmem : i ∈ intRange sstar total := by
      rw [hsplit]
      exact List.mem_append.mpr (Or.inr (by simp [hi]))
    rw [mem_intRange] at hmem
    exact hchunks i (by omega) (by omega) (fun hiq => hjB (hiq ▸ hi))
  unfold aggressivePass
  rw [List.foldl_append]
  have hpre := aggressivePass_noop P0 chunks0 total seqj
    (fun i h1 h2 h3 => ⟨f i, hchunks i h1 h2 h3⟩) hP0
  unfold aggressivePass at hpre
  rw [hpre]
  rw [List.foldl_cons, List.foldl_nil]
  dsimp only
  rw [parseSequencia_key sstar total "0" hss (by omega) (by decide)
    (by decide)]
  dsimp only
  rw [if_pos rfl]
  have hmiss : (intRange sstar total).filter (fun i => !ahas chunks0 i) =
      [seqj] := by
    rw [hsplit, List.filter_append, List.filter_cons]
    rw [filter_eq_nil_of_false _ A (fun i hi => by simp [ahas, hmemA i hi])]
    rw [show (!ahas chunks0 seqj) = true from by simp [ahas, hnone]]
    rw [if_pos rfl]
    rw [filter_eq_nil_of_false _ B (fun i hi => by simp [ahas, hmemB i hi])]
    rfl
  rw [hmiss]
  rw [if_pos ⟨rfl, rfl⟩]
  rw [hsplit]
  rw [agg_fold_eq A B seqj f chunks0 pb hmemA hmemB hnone]
  obtain ⟨hrl, hrb⟩ := xorUnder_foldl_spec CHUNK_SIZE
    (A.map (fun i => (i, f i)) ++ B.map (fun i => (i, f i))) pb hpb_len
  have hrec : (A.map (fun i => (i, f i)) ++
      B.map (fun i => (i, f i))).foldl
      (fun acc pc => xorUnder CHUNK_SIZE acc pc.2) pb =
      padTo c CHUNK_SIZE := by
    apply list_ext_getD _ _ CHUNK_SIZE hrl (padTo_length c CHUNK_SIZE hclen)
    intro jj hj
    rw [hrb jj hj, padTo_getD c CHUNK_SIZE jj hclen]
    exact hbyte jj hj
  rw [hrec]
  rw [trimZeros_padTo c CHUNK_SIZE hclen b hlast hbz]
  rw [if_pos (by
    cases c with
    | nil => cases hlast
    | cons x t => simp)]
  rfl

/-- Key-absence from the parity-map shape invariant. -/
theorem hkey_of_hpar (parity : List (String × List Nat)) (total seqj : Int)
    (hpar : ∀ kv ∈ parity, ∃ (s' e' : Int) (t : String),
      kv.1 = createParityKey s' e' t ∧ 0 < s' ∧ s' ≤ e' ∧ e' ≤ total ∧
      (∀ ch ∈ t.data, ch ≠ '-') ∧ t ≠ "" ∧
      (t = "0" → ¬(s' ≤ seqj ∧ seqj ≤ e')))
    (s e : Int) (hs : 0 < s) (hse : s ≤ e)
    (hviol : (s ≤ seqj ∧ seqj ≤ e) ∨ total < e) :
    ahas parity (createParityKey s e "0") = false := by
  cases hh : ahas parity (createParityKey s e "0") with
  | false => rfl
  | true =>
    exfalso
    obtain ⟨pb, hpb⟩ := (ahas_iff _ _).mp hh
    obtain ⟨s', e', t, hk, hs', hse', hle, htd, htne, htag⟩ :=
      hpar _ (aget_mem_of_some hpb)
    simp only at hk
    obtain ⟨h1, h2, h3⟩ := createParityKey_inj s e s' e' "0" t hs hse
      (by decide) (by decide) hs' hse' htd htne hk
    subst h1
    subst h2
    rcases hviol with hcov | hbig
    · exact htag h3.symm hcov
    · omega

/-- The complete recovery phase is a no-op on a session whose parity map
holds no primary key covering the missing `seqj`. -/
theorem recoveryPhase_noop_state (sess : Session) (seqj : Int)
    (hgs : 0 < sess.fec.groupSize)
    (htot : 0 ≤ sess.total)
    (hchunks : ∀ i : Int, 1 ≤ i → i ≤ sess.total → i ≠ seqj →
      ∃ v, aget sess.chunks i = some v)
    (hpar : ∀ kv ∈ sess.parity, ∃ (s' e' : Int) (t : String),
      kv.1 = createParityKey s' e' t ∧ 0 < s' ∧ s' ≤ e' ∧ e' ≤ sess.total ∧
      (∀ ch ∈ t.data, ch ≠ '-') ∧ t ≠ "" ∧
      (t = "0" → ¬(s' ≤ seqj ∧ seqj ≤ e'))) :
    recoveryPhase sess = sess := by
  unfold recoveryPhase
  rw [if_pos hgs]
  dsimp only
  rw [mainPass_noop sess seqj hchunks hgs (fun sq hsq hcase =>
    hkey_of_hpar sess.parity sess.total seqj hpar sq
      (sq + sess.fec.groupSize - 1) (by omega) (by omega) hcase)]
  by_cases hov : sess.fec.overlap = true
  · rw [if_pos hov]
    rw [overlapPass_noop sess sess.chunks seqj hchunks htot
      (fun sq h0 h1 h2 => hkey_of_hpar sess.parity sess.total seqj hpar sq
        (sq + 2) h0 (by omega) (Or.inl ⟨h1, h2⟩))]
    split
    · rw [aggressivePass_noop sess.parity sess.chunks sess.total seqj
        hchunks hpar]
    · rfl
  · rw [if_neg hov]
    split
    · rw [aggressivePass_noop sess.parity sess.chunks sess.total seqj
        hchunks hpar]
    · rfl

/-- The recovery phase when the full group `[q*gs+1, (q+1)*gs]` misses
exactly `seqj` and its primary parity has just been stored. -/
theorem recoveryPhase_full (sess : Session) (seqj q : Int) (c : List Nat)
    (A B : List Int) (f : Int → List Nat) (pb : List Nat)
    (hgs : 0 < sess.fec.groupSize)
    (hq : 0 ≤ q)
    (hcov1 : q * sess.fec.groupSize + 1 ≤ seqj)
    (hcov2 : seqj ≤ q * sess.fec.groupSize + sess.fec.groupSize)
    (hfull : q * sess.fec.groupSize + (sess.fec.groupSize : Int) ≤ sess.total)
    (hchunks : ∀ i : Int, 1 ≤ i → i ≤ sess.total → i ≠ seqj →
      aget sess.chunks i = some (f i))
    (hnone : aget sess.chunks seqj = none)
    (hsplit : intRange (q * sess.fec.groupSize + 1)
        (q * sess.fec.groupSize + sess.fec.groupSize) = A ++ seqj :: B)
    (hpc : ¬ sess.fec.parityCount = 0)
    (hpar_yes : aget sess.parity
      (createParityKey (q * sess.fec.groupSize + 1)
        (q * sess.fec.groupSize + sess.fec.groupSize) "0") = some pb)
    (hkey_not : ∀ s : Int, 1 ≤ s → ¬ s = q * sess.fec.groupSize + 1 →
      ((s ≤ seqj ∧ seqj ≤ s + sess.fec.groupSize - 1) ∨
        sess.total < s + (sess.fec.groupSize : Int) - 1) →
      ahas sess.parity
        (createParityKey s (s + sess.fec.groupSize - 1) "0") = false)
    (hsolved : recoverSingle seqj pb
      (A.map (fun i => (i, f i)) ++ B.map (fun i => (i, f i))) =
        [(seqj, c)])
    (hlen : (sess.chunks.length : Int) = sess.total - 1) :
    recoveryPhase sess = {sess with chunks := aset sess.chunks seqj c} := by
  have hqgs : (0 : Int) ≤ q * sess.fec.groupSize :=
    mul_nonneg hq (by omega)
  have htot : 0 ≤ sess.total := by omega
  have hcomplete : ∀ i : Int, 1 ≤ i → i ≤ sess.total → i ≠ 0 →
      ∃ v, aget (aset sess.chunks seqj c) i = some v := by
    intro i h1 h2 _
    by_cases hiq : i = seqj
    · subst hiq
      exact ⟨c, aget_aset_self _ _ _⟩
    · rw [aget_aset_ne _ _ _ _ hiq]
      exact ⟨f i, hchunks i h1 h2 hiq⟩
  have hlenc : ((aset sess.chunks seqj c).length : Int) = sess.total := by
    have h1 : (aset sess.chunks seqj c).length = sess.chunks.length + 1 := by
      rw [length_aset,
        show ahas sess.chunks seqj = false from by simp [ahas, hnone]]
      simp
    rw [h1]
    push_cast
    omega
  unfold recoveryPhase
  rw [if_pos hgs]
  dsimp only
  rw [mainPass_trigger sess seqj q c A B f pb hgs hq hcov1 hcov2 hfull
    hchunks hnone hsplit hpc hpar_yes hkey_not hsolved]
  by_cases hov : sess.fec.overlap = true
  · rw [if_pos hov]
    rw [overlapPass_noop sess (aset sess.chunks seqj c) 0 hcomplete htot
      (fun sq h0 h1 _ => absurd h1 (by omega))]
    split
    · rename_i hguard
      exfalso
      linarith [hguard.1, hlenc]
    · rfl
  · rw [if_neg hov]
    split
    · rename_i hguard
      exfalso
      linarith [hguard.1, hlenc]
    · rfl

/-- The recovery phase when the missing chunk sits in the cut-off last
group: the standard and overlapping passes are inert, and the aggressive
fallback recovers it from the clamped primary key. -/
theorem recoveryPhase_partial (sess : Session) (seqj sstar : Int)
    (c : List Nat) (A B : List Int) (f : Int → List Nat) (pb : List Nat)
    (P0 : List (String × List Nat))
    (hgs : 0 < sess.fec.groupSize)
    (hss : 0 < sstar) (hcov1 : sstar ≤ seqj) (hcov2 : seqj ≤ sess.total)
    (hcut : sess.total < sstar + (sess.fec.groupSize : Int) - 1)
    (hparity : sess.parity =
      P0 ++ [(createParityKey sstar sess.total "0", pb)])
    (hP0 : ∀ kv ∈ P0, ∃ (s' e' : Int) (t : String),
      kv.1 = createParityKey s' e' t ∧ 0 < s' ∧ s' ≤ e' ∧ e' ≤ sess.total ∧
      (∀ ch ∈ t.data, ch ≠ '-') ∧ t ≠ "" ∧
      (t = "0" → ¬(s' ≤ seqj ∧ seqj ≤ e')))
    (hchunks : ∀ i : Int, 1 ≤ i → i ≤ sess.total → i ≠ seqj →
      aget sess.chunks i = some (f i))
    (hnone : aget sess.chunks seqj = none)
    (hsplit : intRange sstar sess.total = A ++ seqj :: B)
    (hov3 : sess.fec.overlap = true → sess.fec.groupSize = 3)
    (hlen : (sess.chunks.length : Int) = sess.total - 1)
    (hpb_len : pb.length = CHUNK_SIZE)
    (hbyte : ∀ jj, jj < CHUNK_SIZE →
      pb.getD jj 0 ^^^ listXor
        ((A.map (fun i => (i, f i)) ++ B.map (fun i => (i, f i))).map
          (fun pc => pc.2.getD jj 0)) = c.getD jj 0)
    (hclen : c.length ≤ CHUNK_SIZE) (b : Nat) (hlast : c.getLast? = some b)
    (hbz : b ≠ 0) :
    recoveryPhase sess = {sess with chunks := aset sess.chunks seqj c} := by
  have htot : 0 ≤ sess.total := by omega
  have hchunksE : ∀ i : Int, 1 ≤ i → i ≤ sess.total → i ≠ seqj →
      ∃ v, aget sess.chunks i = some v :=
    fun i h1 h2 h3 => ⟨f i, hchunks i h1 h2 h3⟩
  have hkeyM : ∀ sq : Int, 1 ≤ sq →
      ((sq ≤ seqj ∧ seqj ≤ sq + sess.fec.groupSize - 1) ∨
        sess.total < sq + (sess.fec.groupSize : Int) - 1) →
      ahas sess.parity
        (createParityKey sq (sq + sess.fec.groupSize - 1) "0") = false := by
    intro sq hsq hcase
    cases hh : ahas sess.parity
        (createParityKey sq (sq + sess.fec.groupSize - 1) "0") with
    | false => rfl
    | true =>
      exfalso
      obtain ⟨pb', hpb'⟩ := (ahas_iff _ _).mp hh
      have hmem := aget_mem_of_some hpb'
      rw [hparity] at hmem
      rcases List.mem_append.mp hmem with hmem | hmem
      · obtain ⟨s', e', t, hk, hs', hse', hle, htd, htne, htag⟩ :=
          hP0 _ hmem
        simp only at hk
        obtain ⟨h1, h2, h3⟩ := createParityKey_inj sq
          (sq + sess.fec.groupSize - 1) s' e' "0" t (by omega) (by omega)
          (by decide) (by decide) hs' hse' htd htne hk
        subst h1
        subst h2
        rcases hcase with hcov | hbig
        · exact htag h3.symm hcov
        · omega
      · have hk : createParityKey sq (sq + sess.fec.groupSize - 1) "0" =
            createParityKey sstar sess.total "0" :=
          congrArg Prod.fst (List.mem_singleton.mp hmem)
        obtain ⟨h1, h2, _⟩ := createParityKey_inj sq
          (sq + sess.fec.groupSize - 1) sstar sess.total "0" "0" (by omega)
          (by omega) (by decide) (by decide) hss (by omega) (by decide)
          (by decide) hk
        omega
  have hkeyO : sess.fec.overlap = true → ∀ sq : Int, 0 < sq → sq ≤ seqj →
      seqj ≤ sq + 2 →
      ahas sess.parity (createParityKey sq (sq + 2) "0") = false := by
    intro hov sq h0 h1 h2
    have hg3 := hov3 hov
    cases hh : ahas sess.parity (createParityKey sq (sq + 2) "0") with
    | false => rfl
    | true =>
      exfalso
      obtain ⟨pb', hpb'⟩ := (ahas_iff _ _).mp hh
      have hmem := aget_mem_of_some hpb'
      rw [hparity] at hmem
      rcases List.mem_append.mp hmem with hmem | hmem
      · obtain ⟨s', e', t, hk, hs', hse', hle, htd, htne, htag⟩ :=
          hP0 _ hmem
        simp only at hk
        obtain ⟨g1, g2, g3⟩ := createParityKey_inj sq (sq + 2) s' e' "0" t
          h0 (by omega) (by decide) (by decide) hs' hse' htd htne hk
        subst g1
        subst g2
        exact htag g3.symm ⟨h1, h2⟩
      · have hk : createParityKey sq (sq + 2) "0" =
            createParityKey sstar sess.total "0" :=
          congrArg Prod.fst (List.mem_singleton.mp hmem)
        obtain ⟨g1, g2, _⟩ := createParityKey_inj sq (sq + 2) sstar
          sess.total "0" "0" h0 (by omega) (by decide) (by decide) hss
          (by omega) (by decide) (by decide) hk
        omega
  unfold recoveryPhase
  rw [if_pos hgs]
  dsimp only
  rw [mainPass_noop sess seqj hchunksE hgs hkeyM]
  by_cases hov : sess.fec.overlap = true
  · rw [if_pos hov]
    rw [overlapPass_noop sess sess.chunks seqj hchunksE htot (hkeyO hov)]
    split
    · rw [hparity]
      rw [aggressivePass_trigger P0 pb sess.chunks sess.total seqj sstar c
        A B f hchunks hnone hP0 hss hcov1 hcov2 hsplit hpb_len hbyte hclen
        b hlast hbz]
    · rename_i hguard
      exfalso
      exact hguard ⟨by omega, by rw [hparity]; simp⟩
  · rw [if_neg hov]
    split
    · rw [hparity]
      rw [aggressivePass_trigger P0 pb sess.chunks sess.total seqj sstar c
        A B f hchunks hnone hP0 hss hcov1 hcov2 hsplit hpb_len hbyte hclen
        b hlast hbz]
    · rename_i hguard
      exfalso
      exact hguard ⟨by omega, by rw [hparity]; simp⟩

/-! ## Lemmas: receiver steps for the round-trip run -/

theorem runFrames_append (md5 : List Nat → String)
    (gz : List Nat → Option (List Nat)) (fs1 fs2 : List String) :
    ∀ st : RxState, runFrames md5 gz st (fs1 ++ fs2) =
      ((runFrames md5 gz (runFrames md5 gz st fs1).1 fs2).1,
       (runFrames md5 gz st fs1).2 ++
         (runFrames md5 gz (runFrames md5 gz st fs1).1 fs2).2) := by
  induction fs1 with
  | nil => intro st; rfl
  | cons x t ih =>
    intro st
    rw [List.cons_append]
    rw [runFrames, runFrames]
    rw [ih (handleReceivedPacket md5 gz st x).1]
    rfl

/-- With an empty parity map, the recovery phase changes nothing. -/
theorem recoveryPhase_noop_empty_parity (sess : Session)
    (hpar : sess.parity = []) : recoveryPhase sess = sess := by
  unfold recoveryPhase
  split
  · dsimp only
    rw [show mainPass sess = sess.chunks from by
      unfold mainPass
      apply foldl_fixed
      intro g _
      dsimp only
      rw [recoverChunks_nil_of_no_primary _ _ _ _ _ (by rw [hpar]; rfl)]
      rfl]
    rw [show (if sess.fec.overlap = true then overlapPass sess sess.chunks
        else sess.chunks) = sess.chunks from by
      split
      · unfold overlapPass
        apply foldl_fixed
        intro g _
        rw [recoverChunks_nil_of_no_primary _ _ _ _ _ (by rw [hpar]; rfl)]
        rfl
      · rfl]
    rw [if_neg (fun hc => hc.2 hpar)]
  · rfl

theorem jsJoin_single (sep x : String) : jsJoin sep [x] = x := by
  unfold jsJoin
  rfl

/-- Processing one fresh DATA frame for an open empty-parity session. -/
theorem step_D (md5 : List Nat → String)
    (gz : List Nat → Option (List Nat)) (proto sid : String)
    (sess : Session) (i : Nat) (c : List Nat)
    (hsid : colonFree sid)
    (hbytes : ∀ b ∈ c, b < 256)
    (hfresh : sess.seen.contains
      ("D" ++ ":" ++ sid ++ ":" ++ decStr (i + 1)) = false)
    (hnone : aget sess.chunks ((i : Int) + 1) = none)
    (hpar : sess.parity = [])
    (hlt : ¬ ((sess.chunks.length : Int) + 1 = sess.total)) :
    handleReceivedPacket md5 gz ⟨[(sid, sess)], proto⟩
      ("D:" ++ sid ++ ":" ++ decStr (i + 1) ++ ":" ++
        String.mk (b64encode c)) =
      (⟨[(sid, {sess with
          chunks := sess.chunks ++ [((i : Int) + 1, c)],
          seen := sess.seen ++
            ["D" ++ ":" ++ sid ++ ":" ++ decStr (i + 1)]})], proto⟩,
        none) := by
  have hparse := jsSplit_D sid (decStr (i + 1)) (String.mk (b64encode c))
    hsid (decStr_colonFree _) (b64encode_colonFree c hbytes)
  unfold handleReceivedPacket
  rw [dispatchPacket_eq_D _ _ (by rw [hparse]; simp) (by rw [hparse]; rfl)]
  rw [hparse]
  unfold dispatchD
  rw [if_neg (by simp)]
  dsimp only
  simp only [List.getD_cons_zero, List.getD_cons_succ]
  rw [List.drop_succ_cons, List.drop_succ_cons, List.drop_succ_cons,
    List.drop_zero]
  rw [jsJoin_single]
  rw [parseIntM_decStr]
  rw [show aget [(sid, sess)] sid = some sess from by
    rw [aget_cons]
    simp]
  dsimp only
  rw [if_neg (by rw [hfresh]; simp)]
  rw [validate_b64encode c hbytes]
  have hc1 : ((i + 1 : Nat) : Int) = (i : Int) + 1 := by push_cast; ring
  rw [hc1]
  dsimp only
  rw [aset_of_aget_none _ _ _ hnone]
  rw [show sadd sess.seen ("D" ++ ":" ++ sid ++ ":" ++ decStr (i + 1)) =
      sess.seen ++ ["D" ++ ":" ++ sid ++ ":" ++ decStr (i + 1)] from by
    unfold sadd
    rw [hfresh]
    simp]
  rw [show aset [(sid, sess)] sid
      {sess with
        chunks := sess.chunks ++ [((i : Int) + 1, c)],
        seen := sess.seen ++
          ["D" ++ ":" ++ sid ++ ":" ++ decStr (i + 1)]} =
      [(sid, {sess with
        chunks := sess.chunks ++ [((i : Int) + 1, c)],
        seen := sess.seen ++
          ["D" ++ ":" ++ sid ++ ":" ++ decStr (i + 1)]})] from by
    simp [aset]]
  exact finalizePhase_noop md5 gz _ sid
    {sess with
      chunks := sess.chunks ++ [((i : Int) + 1, c)],
      seen := sess.seen ++ ["D" ++ ":" ++ sid ++ ":" ++ decStr (i + 1)]}
    (by rw [aget_cons]; simp)
    (recoveryPhase_noop_empty_parity _ hpar)
    (by
      simp only [List.length_append, List.length_cons, List.length_nil]
      push_cast
      simpa using hlt)

theorem sappend_empty (s : String) : s ++ "" = s :=
  string_data_inj (by simp [data_append, show ("" : String).data = [] from rfl])

/-- Processing a well-formed START frame on an idle receiver. -/
theorem step_S (md5 : List Nat → String)
    (gz : List Nat → Option (List Nat)) (proto sid h fl : String) (T : Nat)
    (hsid : colonFree sid) (hh : colonFree h) (hfl : colonFree fl)
    (hne : ¬ h = "") (hT : ¬ ((0 : Int) = (T : Int))) :
    handleReceivedPacket md5 gz ⟨[], proto⟩
      ("S:" ++ sid ++ "::" ++ h ++ ":" ++ decStr T ++ ":" ++ fl) =
      (⟨[(sid, ⟨(T : Int), h, fl, resolveFecScheme fl, [], [],
          calculateTimeout T proto, ["S" ++ ":" ++ sid ++ ":"]⟩)], proto⟩,
        none) := by
  have hparse := jsSplit_S sid h (decStr T) fl hsid hh (decStr_colonFree _)
    hfl
  unfold handleReceivedPacket
  rw [dispatchPacket_eq_S _ _ (by rw [hparse]; simp) (by rw [hparse]; rfl)]
  rw [hparse]
  rw [dispatchS_fin _ _ _ _ (T : Int) (by simp)
    (by simp only [List.getD_cons_zero, List.getD_cons_succ]
        exact parseIntM_decStr T)
    (by simp only [List.getD_cons_zero, List.getD_cons_succ]
        exact hne)]
  simp only [List.getD_cons_zero, List.getD_cons_succ]
  rw [sappend_empty]
  rw [show adel ([] : List (String × Session)) sid = [] from rfl]
  rw [show aset ([] : List (String × Session)) sid
      ⟨(T : Int), h, fl, resolveFecScheme fl, [], [],
        calculateTimeout (T : Int) proto, ["S" ++ ":" ++ sid ++ ":"]⟩ =
      [(sid, ⟨(T : Int), h, fl, resolveFecScheme fl, [], [],
        calculateTimeout (T : Int) proto,
        ["S" ++ ":" ++ sid ++ ":"]⟩)] from rfl]
  exact finalizePhase_noop md5 gz _ sid
    ⟨(T : Int), h, fl, resolveFecScheme fl, [], [],
      calculateTimeout (T : Int) proto, ["S" ++ ":" ++ sid ++ ":"]⟩
    (by rw [aget_cons]; simp)
    (recoveryPhase_noop_empty_parity _ rfl)
    (by simpa using hT)

/-- Processing a fresh PARITY frame for an open session: the payload is
stored and the after-packet phase takes over. -/
theorem step_P_dispatch (md5 : List Nat → String)
    (gz : List Nat → Option (List Nat)) (proto sid key : String)
    (sess : Session) (pbytes : List Nat)
    (hsid : colonFree sid) (hkeycf : colonFree key)
    (hbytes : ∀ b ∈ pbytes, b < 256)
    (hfresh : sess.seen.contains ("P" ++ ":" ++ sid ++ ":" ++ key) = false)
    (hpnone : aget sess.parity key = none)
    (hnorm : normalizeSequencia key = key) :
    handleReceivedPacket md5 gz ⟨[(sid, sess)], proto⟩
      ("P:" ++ sid ++ ":" ++ key ++ ":" ++ String.mk (b64encode pbytes)) =
      finalizePhase md5 gz
        ⟨[(sid, {sess with
          parity := sess.parity ++ [(key, pbytes)],
          seen := sess.seen ++ ["P" ++ ":" ++ sid ++ ":" ++ key]})],
          proto⟩ sid := by
  have hparse := jsSplit_P sid key (String.mk (b64encode pbytes)) hsid
    hkeycf (b64encode_colonFree pbytes hbytes)
  unfold handleReceivedPacket
  rw [dispatchPacket_eq_P _ _ (by rw [hparse]; simp) (by rw [hparse]; rfl)]
  rw [hparse]
  unfold dispatchP
  rw [if_neg (by simp)]
  dsimp only
  simp only [List.getD_cons_zero, List.getD_cons_succ]
  rw [show aget [(sid, sess)] sid = some sess from by
    rw [aget_cons]
    simp]
  dsimp only
  rw [if_neg (by rw [hfresh]; simp)]
  rw [validate_b64encode pbytes hbytes]
  dsimp only
  rw [hnorm]
  rw [aset_of_aget_none _ _ _ hpnone]
  rw [show sadd sess.seen ("P" ++ ":" ++ sid ++ ":" ++ key) =
      sess.seen ++ ["P" ++ ":" ++ sid ++ ":" ++ key] from by
    unfold sadd
    rw [hfresh]
    simp]
  rw [show aset [(sid, sess)] sid
      {sess with
        parity := sess.parity ++ [(key, pbytes)],
        seen := sess.seen ++ ["P" ++ ":" ++ sid ++ ":" ++ key]} =
      [(sid, {sess with
        parity := sess.parity ++ [(key, pbytes)],
        seen := sess.seen ++ ["P" ++ ":" ++ sid ++ ":" ++ key]})] from by
    simp [aset]]

/-- The after-packet phase on a now-complete session: the session is
deleted and the hash gate decides the delivery. -/
theorem finalizePhase_complete (md5 : List Nat → String)
    (gz : List Nat → Option (List Nat)) (proto sid : String)
    (sess sess1 : Session)
    (hrec : recoveryPhase sess = sess1)
    (hcomp : (sess1.chunks.length : Int) = sess1.total) :
    finalizePhase md5 gz ⟨[(sid, sess)], proto⟩ sid =
      (⟨[], proto⟩,
        if md5 (((sortByKey sess1.chunks).map Prod.snd).flatten) =
            sess1.expectedHash then
          some (.bytes (if jsIncludes sess1.flags "C" then
            match gz (((sortByKey sess1.chunks).map Prod.snd).flatten) with
            | some d => d
            | none => ((sortByKey sess1.chunks).map Prod.snd).flatten
          else ((sortByKey sess1.chunks).map Prod.snd).flatten))
        else none) := by
  unfold finalizePhase
  rw [show aget [(sid, sess)] sid = some sess from by
    rw [aget_cons]
    simp]
  dsimp only
  rw [hrec]
  rw [if_pos hcomp]
  rw [show adel [(sid, sess)] sid = [] from by simp [adel]]
  split <;> rfl

/-- Any P frame addressed to an unknown session is dropped. -/
theorem step_dead_P (md5 : List Nat → String)
    (gz : List Nat → Option (List Nat)) (proto sid key pay : String)
    (hsid : colonFree sid) (hkeycf : colonFree key) (hpay : colonFree pay) :
    handleReceivedPacket md5 gz ⟨[], proto⟩
      ("P:" ++ sid ++ ":" ++ key ++ ":" ++ pay) = (⟨[], proto⟩, none) := by
  have hparse := jsSplit_P sid key pay hsid hkeycf hpay
  unfold handleReceivedPacket
  rw [dispatchPacket_eq_P _ _ (by rw [hparse]; simp) (by rw [hparse]; rfl)]
  rw [hparse]
  unfold dispatchP
  rw [if_neg (by simp)]
  dsimp only
  rw [aget_nil]

/-- An E frame addressed to an unknown session is dropped. -/
theorem step_dead_E (md5 : List Nat → String)
    (gz : List Nat → Option (List Nat)) (proto sid : String)
    (hsid : colonFree sid) :
    handleReceivedPacket md5 gz ⟨[], proto⟩
      ("E:" ++ sid ++ "::") = (⟨[], proto⟩, none) := by
  have hparse := jsSplit_E sid hsid
  unfold handleReceivedPacket
  rw [dispatchPacket_eq_E _ _ (by rw [hparse]; simp) (by rw [hparse]; rfl)]
  rw [hparse]
  unfold dispatchE
  rw [aget_nil]

/-! ## Lemmas: sender characterisation -/

/-- `sendLargeData` without compression, for a scheme whose wire flag is
nonempty (every shipped scheme): the exact frame list. -/
theorem sendLargeDataPackets_eq (md5 : List Nat → String)
    (gzipFn : List Nat → List Nat) (sid : String) (message : List Nat)
    (scheme : FECScheme) (flag : String)
    (hflag : fecFlagOf scheme = flag) (hne : (flag == "") = false)
    (hgs : 0 < scheme.groupSize) :
    sendLargeDataPackets md5 gzipFn sid message false scheme =
      ["S:" ++ sid ++ "::" ++ md5 message ++ ":" ++
        decStr (chunkBytes message CHUNK_SIZE).length ++ ":" ++ flag] ++
      (List.range (chunkBytes message CHUNK_SIZE).length).map (fun i =>
        "D:" ++ sid ++ ":" ++ decStr (i + 1) ++ ":" ++
          String.mk (b64encode ((chunkBytes message CHUNK_SIZE).getD i []))) ++
      (generateFECGroups (chunkBytes message CHUNK_SIZE).length
        scheme).filterMap
          (mkParityPacket sid (chunkBytes message CHUNK_SIZE) scheme) ++
      ["E:" ++ sid ++ "::"] := by
  unfold sendLargeDataPackets
  rw [if_neg (by simp)]
  dsimp only
  rw [hflag]
  rw [show (if false = true then "C" else "") = ("" : String) from rfl]
  rw [show (["", flag].filter (fun s => !(s == ""))) = [flag] from by
    rw [List.filter_cons, List.filter_cons, List.filter_nil]
    rw [show (!(("" : String) == "")) = false from by decide, hne]
    rfl]
  rw [jsJoin_single]
  rw [if_pos (by
    intro hh
    rw [hh] at hne
    simp at hne)]
  rw [if_pos hgs]

/-- A `"0"`-typed group emits its primary parity packet. -/
theorem mkParityPacket_zero (sid : String) (chunks : List (List Nat))
    (scheme : FECScheme) (st en : Nat) (hpc : scheme.parityCount ≠ 0) :
    mkParityPacket sid chunks scheme ⟨st, en, "0"⟩ =
      some ("P:" ++ sid ++ ":" ++ createParityKey st en "0" ++ ":" ++
        String.mk (b64encode (xorBytes
          ((chunks.drop (st - 1)).take (en - (st - 1))) CHUNK_SIZE))) := by
  unfold mkParityPacket
  dsimp only
  rw [show jsStartsWith "0" "O" = false from by decide]
  simp only [Bool.false_eq_true, if_false]
  rw [show jsOrNat scheme.parityCount 1 = scheme.parityCount from by
    unfold jsOrNat
    rw [if_neg hpc]]
  rw [show ((parseIntM "0").getD 0).toNat = 0 from by decide]
  rw [if_pos (by
    unfold generateParityData
    rw [if_neg (by simpa using hpc)]
    simp)]
  congr 2
  unfold generateParityData
  rw [if_neg (by simpa using hpc)]
  rfl

/-- An `"O·"`-typed group emits the primary parity of its slice. -/
theorem mkParityPacket_O (sid : String) (chunks : List (List Nat))
    (scheme : FECScheme) (st en : Nat) (ot : String)
    (hot : jsStartsWith ot "O" = true) :
    mkParityPacket sid chunks scheme ⟨st, en, ot⟩ =
      some ("P:" ++ sid ++ ":" ++ createParityKey st en ot ++ ":" ++
        String.mk (b64encode (xorBytes
          ((chunks.drop (st - 1)).take (en - (st - 1))) CHUNK_SIZE))) := by
  unfold mkParityPacket
  dsimp only
  rw [hot]
  simp only [if_true]
  rw [if_pos (by
    unfold generateParityData
    rw [if_neg (by intro h; simp at h)]
    simp)]
  congr 3

theorem aget_append_left {α β : Type} [BEq α] [LawfulBEq α] (l1 l2 : List (α × β))
    (k : α) (v : β) (h : aget l1 k = some v) :
    aget (l1 ++ l2) k = some v := by
  induction l1 with
  | nil => cases h
  | cons p t ih =>
    rw [aget_cons] at h
    rw [List.cons_append, aget_cons]
    cases hp : p.1 == k with
    | true =>
      rw [hp] at h
      simpa using h
    | false =>
      rw [hp] at h
      simp only [Bool.false_eq_true, if_false] at h ⊢
      exact ih h

theorem aget_append_right {α β : Type} [BEq α] [LawfulBEq α] (l1 l2 : List (α × β))
    (k : α) (h : aget l1 k = none) :
    aget (l1 ++ l2) k = aget l2 k := by
  induction l1 with
  | nil => rfl
  | cons p t ih =>
    rw [aget_cons] at h
    rw [List.cons_append, aget_cons]
    cases hp : p.1 == k with
    | true =>
      rw [hp] at h
      simp at h
    | false =>
      rw [hp] at h
      simp only [Bool.false_eq_true, if_false] at h ⊢
      exact ih h

theorem aget_map_succ_some (g : Nat → List Nat) :
    ∀ (L : List Nat) (i : Nat), i ∈ L → L.Nodup →
    aget (L.map (fun (x : Nat) => ((x : Int) + 1, g x))) ((i : Int) + 1) =
      some (g i) := by
  intro L
  induction L with
  | nil => intro i hi; cases hi
  | cons x t ih =>
    intro i hi hnd
    rw [List.map_cons, aget_cons]
    rcases List.mem_cons.mp hi with hi | hi
    · subst hi
      rw [if_pos (by simp)]
    · rw [List.nodup_cons] at hnd
      rw [if_neg (by
        simp only [beq_iff_eq]
        intro hh
        have : x = i := by omega
        exact hnd.1 (this ▸ hi))]
      exact ih i hi hnd.2

theorem aget_map_succ_none (g : Nat → List Nat) (k : Int) :
    ∀ L : List Nat, (∀ i ∈ L, ¬ ((i : Int) + 1 = k)) →
    aget (L.map (fun (x : Nat) => ((x : Int) + 1, g x))) k = none := by
  intro L
  induction L with
  | nil => intro _; rfl
  | cons x t ih =>
    intro h
    rw [List.map_cons, aget_cons]
    rw [if_neg (by
      simp only [beq_iff_eq]
      exact h x (by simp))]
    exact ih (fun i hi => h i (by simp [hi]))

theorem aget_map_key_some (f : Int → List Nat) :
    ∀ (L : List Int) (k : Int), k ∈ L → L.Nodup →
    aget (L.map (fun i => (i, f i))) k = some (f k) := by
  intro L
  induction L with
  | nil => intro k hk; cases hk
  | cons x t ih =>
    intro k hk hnd
    rw [List.map_cons, aget_cons]
    rcases List.mem_cons.mp hk with hk | hk
    · subst hk
      rw [if_pos (by simp)]
    · rw [List.nodup_cons] at hnd
      rw [if_neg (by
        simp only [beq_iff_eq]
        intro hh
        exact hnd.1 (hh ▸ hk))]
      exact ih k hk hnd.2

theorem aget_map_key_none (f : Int → List Nat) :
    ∀ (L : List Int) (k : Int), k ∉ L →
    aget (L.map (fun i => (i, f i))) k = none := by
  intro L
  induction L with
  | nil => intro k _; rfl
  | cons x t ih =>
    intro k hk
    rw [List.map_cons, aget_cons]
    rw [if_neg (by
      simp only [beq_iff_eq]
      intro hh
      exact hk (by simp [hh]))]
    exact ih k (fun hh => hk (by simp [hh]))

theorem contains_append (l1 l2 : List String) (x : String) :
    (l1 ++ l2).contains x = (l1.contains x || l2.contains x) := by
  induction l1 with
  | nil => simp
  | cons a t ih => simp [ih, Bool.or_assoc]

theorem ne_of_head? (a b : String) (h : a.data.head? ≠ b.data.head?) :
    a ≠ b := fun hh => h (by rw [hh])

theorem dId_inj (sid : String) (a b : Nat)
    (h : "D" ++ ":" ++ sid ++ ":" ++ decStr (a + 1) =
      "D" ++ ":" ++ sid ++ ":" ++ decStr (b + 1)) : a = b := by
  have := decStr_injective _ _ (sappend_cancel_left h)
  omega

theorem pId_inj (sid : String) (k1 k2 : String)
    (h : "P" ++ ":" ++ sid ++ ":" ++ k1 = "P" ++ ":" ++ sid ++ ":" ++ k2) :
    k1 = k2 :=
  sappend_cancel_left h

/-- Running a block of fresh DATA frames over an open empty-parity
session: every frame is absorbed silently. -/
theorem run_D_segment (md5 : List Nat → String)
    (gz : List Nat → Option (List Nat)) (proto sid : String)
    (chunksW : List (List Nat))
    (hsid : colonFree sid)
    (hb : ∀ i, ∀ b ∈ chunksW.getD i [], b < 256) :
    ∀ (n ii : Nat) (sess : Session),
    (∀ k, ii ≤ k → k < ii + n → sess.seen.contains
      ("D" ++ ":" ++ sid ++ ":" ++ decStr (k + 1)) = false) →
    (∀ k, ii ≤ k → k < ii + n → aget sess.chunks ((k : Int) + 1) = none) →
    sess.parity = [] →
    ((sess.chunks.length : Int) + n < sess.total) →
    runFrames md5 gz ⟨[(sid, sess)], proto⟩
      ((List.range' ii n).map (fun i =>
        "D:" ++ sid ++ ":" ++ decStr (i + 1) ++ ":" ++
          String.mk (b64encode (chunksW.getD i [])))) =
      (⟨[(sid, {sess with
          chunks := sess.chunks ++ (List.range' ii n).map
            (fun (x : Nat) => ((x : Int) + 1, chunksW.getD x [])),
          seen := sess.seen ++ (List.range' ii n).map
            (fun k => "D" ++ ":" ++ sid ++ ":" ++ decStr (k + 1))})],
        proto⟩,
       (List.range' ii n).map (fun _ => (none : Option Out))) := by
  intro n
  induction n with
  | zero =>
    intro ii sess _ _ _ _
    simp [runFrames]
  | succ m ih =>
    intro ii sess hfresh hnone hpar hcnt
    rw [List.range'_succ, List.map_cons, List.map_cons, List.map_cons]
    rw [runFrames]
    rw [step_D md5 gz proto sid sess ii (chunksW.getD ii []) hsid (hb ii)
      (hfresh ii le_rfl (by omega)) (hnone ii le_rfl (by omega)) hpar
      (by push_cast; omega)]
    dsimp only
    rw [ih (ii + 1)
      {sess with
        chunks := sess.chunks ++ [((ii : Int) + 1, chunksW.getD ii [])],
        seen := sess.seen ++ ["D" ++ ":" ++ sid ++ ":" ++ decStr (ii + 1)]}
      (by
        intro k hk1 hk2
        dsimp only
        rw [contains_append]
        rw [hfresh k (by omega) (by omega)]
        have hne : ("D" ++ ":" ++ sid ++ ":" ++ decStr (k + 1)) ≠
            ("D" ++ ":" ++ sid ++ ":" ++ decStr (ii + 1)) := fun hh =>
          (by omega : ¬ k = ii) (dId_inj sid k ii hh)
        simp only [List.contains_cons, List.contains_nil, Bool.or_false,
          Bool.false_or, beq_eq_false_iff_ne, ne_eq]
        exact hne)
      (by
        intro k hk1 hk2
        dsimp only
        rw [aget_append_right _ _ _ (hnone k (by omega) (by omega))]
        rw [aget_cons]
        rw [if_neg (by
          simp only [beq_iff_eq]
          intro hh
          omega)]
        rfl)
      hpar
      (by
        dsimp only
        simp only [List.length_append, List.length_cons, List.length_nil]
        push_cast
        push_cast at hcnt
        omega)]
    simp only [Prod.mk.injEq, RxState.mk.injEq, List.cons.injEq,
      Session.mk.injEq, and_true, true_and]
    refine ⟨⟨?_, ?_⟩, rfl⟩
    · dsimp only
      rw [List.append_assoc]
      rfl
    · dsimp only
      rw [List.append_assoc]
      rfl

/-- Running frames against an idle receiver that drops each of them. -/
theorem run_dead_segment (md5 : List Nat → String)
    (gz : List Nat → Option (List Nat)) (proto : String) :
    ∀ fs : List String,
    (∀ f ∈ fs, handleReceivedPacket md5 gz ⟨[], proto⟩ f =
      (⟨[], proto⟩, none)) →
    runFrames md5 gz ⟨[], proto⟩ fs =
      (⟨[], proto⟩, fs.map (fun _ => (none : Option Out))) := by
  intro fs
  induction fs with
  | nil => intro _; rfl
  | cons f t ih =>
    intro h
    rw [runFrames]
    rw [h f (by simp)]
    dsimp only
    rw [ih (fun g hg => h g (by simp [hg]))]
    rfl

/-- Running a block of inert PARITY frames (none of whose primary keys
covers the missing `seqj`): the payloads are stored and nothing else
changes. -/
theorem run_P_inert_segment (md5 : List Nat → String)
    (gz : List Nat → Option (List Nat)) (proto sid : String) (seqj : Int)
    (hsid : colonFree sid) :
    ∀ (Ps : List (String × List Nat)) (sess : Session),
    (∀ kv ∈ Ps, ∃ (s' e' : Int) (t : String),
      kv.1 = createParityKey s' e' t ∧ 0 < s' ∧ s' ≤ e' ∧ e' ≤ sess.total ∧
      (∀ ch ∈ t.data, ch ≠ '-') ∧ t ≠ "" ∧
      (t = "0" → ¬(s' ≤ seqj ∧ seqj ≤ e'))) →
    (∀ kv ∈ Ps, colonFree kv.1) →
    (∀ kv ∈ Ps, normalizeSequencia kv.1 = kv.1) →
    (∀ kv ∈ Ps, ∀ b ∈ kv.2, b < 256) →
    (Ps.map Prod.fst).Nodup →
    (∀ kv ∈ Ps, sess.seen.contains
      ("P" ++ ":" ++ sid ++ ":" ++ kv.1) = false) →
    (∀ kv ∈ Ps, aget sess.parity kv.1 = none) →
    (0 < sess.fec.groupSize) →
    (0 ≤ sess.total) →
    (∀ i : Int, 1 ≤ i → i ≤ sess.total → i ≠ seqj →
      ∃ v, aget sess.chunks i = some v) →
    ((sess.chunks.length : Int) = sess.total - 1) →
    (∀ kv ∈ sess.parity, ∃ (s' e' : Int) (t : String),
      kv.1 = createParityKey s' e' t ∧ 0 < s' ∧ s' ≤ e' ∧ e' ≤ sess.total ∧
      (∀ ch ∈ t.data, ch ≠ '-') ∧ t ≠ "" ∧
      (t = "0" → ¬(s' ≤ seqj ∧ seqj ≤ e'))) →
    runFrames md5 gz ⟨[(sid, sess)], proto⟩
      (Ps.map (fun kv => "P:" ++ sid ++ ":" ++ kv.1 ++ ":" ++
        String.mk (b64encode kv.2))) =
      (⟨[(sid, {sess with
          parity := sess.parity ++ Ps,
          seen := sess.seen ++ Ps.map
            (fun kv => "P" ++ ":" ++ sid ++ ":" ++ kv.1)})], proto⟩,
       Ps.map (fun _ => (none : Option Out))) := by
  intro Ps
  induction Ps with
  | nil =>
    intro sess _ _ _ _ _ _ _ _ _ _ _ _
    simp [runFrames]
  | cons kv rest ih =>
    intro sess hshape hcf hnorm hbytes hnd hseen hfres hgs htot hchunks
      hlen hpar
    rw [List.map_cons, List.map_cons, List.map_cons]
    rw [runFrames]
    rw [show ("P:" ++ sid ++ ":" ++ kv.1 ++ ":" ++
        String.mk (b64encode kv.2)) = ("P:" ++ sid ++ ":" ++ kv.1 ++ ":" ++
        String.mk (b64encode kv.2)) from rfl]
    rw [step_P_dispatch md5 gz proto sid kv.1 sess kv.2 hsid
      (hcf kv (by simp)) (hbytes kv (by simp)) (hseen kv (by simp))
      (hfres kv (by simp)) (hnorm kv (by simp))]
    have hpar2 : ∀ kv' ∈ sess.parity ++ [(kv.1, kv.2)],
        ∃ (s' e' : Int) (t : String),
        kv'.1 = createParityKey s' e' t ∧ 0 < s' ∧ s' ≤ e' ∧
        e' ≤ sess.total ∧ (∀ ch ∈ t.data, ch ≠ '-') ∧ t ≠ "" ∧
        (t = "0" → ¬(s' ≤ seqj ∧ seqj ≤ e')) := by
      intro kv' hkv'
      rcases List.mem_append.mp hkv' with h | h
      · exact hpar kv' h
      · rw [List.mem_singleton.mp h]
        exact hshape kv (by simp)
    rw [finalizePhase_noop md5 gz _ sid
      {sess with
        parity := sess.parity ++ [(kv.1, kv.2)],
        seen := sess.seen ++ ["P" ++ ":" ++ sid ++ ":" ++ kv.1]}
      (by rw [aget_cons]; simp)
      (recoveryPhase_noop_state _ seqj hgs htot hchunks hpar2)
      (by dsimp only; omega)]
    dsimp only
    rw [ih
      {sess with
        parity := sess.parity ++ [(kv.1, kv.2)],
        seen := sess.seen ++ ["P" ++ ":" ++ sid ++ ":" ++ kv.1]}
      (fun kv' h => hshape kv' (by simp [h]))
      (fun kv' h => hcf kv' (by simp [h]))
      (fun kv' h => hnorm kv' (by simp [h]))
      (fun kv' h => hbytes kv' (by simp [h]))
      (by
        rw [List.map_cons, List.nodup_cons] at hnd
        exact hnd.2)
      (by
        intro kv' h
        dsimp only
        rw [contains_append]
        rw [hseen kv' (by simp [h])]
        have hne : ("P" ++ ":" ++ sid ++ ":" ++ kv'.1) ≠
            ("P" ++ ":" ++ sid ++ ":" ++ kv.1) := by
          intro hh
          have hkeq := pId_inj sid kv'.1 kv.1 hh
          rw [List.map_cons, List.nodup_cons] at hnd
          exact hnd.1 (hkeq ▸ (List.mem_map.mpr ⟨kv', h, rfl⟩))
        simp only [List.contains_cons, List.contains_nil, Bool.or_false,
          Bool.false_or, beq_eq_false_iff_ne, ne_eq]
        exact hne)
      (by
        intro kv' h
        dsimp only
        rw [aget_append_right _ _ _ (hfres kv' (by simp [h]))]
        rw [aget_cons]
        rw [if_neg (by
          simp only [beq_iff_eq]
          intro hh
          rw [List.map_cons, List.nodup_cons] at hnd
          exact hnd.1 (hh ▸ (List.mem_map.mpr ⟨kv', h, rfl⟩)))]
        rfl)
      hgs htot hchunks (by dsimp only; exact hlen) hpar2]
    rw [List.append_assoc, List.append_assoc]
    rfl

theorem flatten_map_singleton {α β : Type} (l : List α) (g : α → β) :
    (l.map (fun x => [g x])).flatten = l.map g := by
  induction l with
  | nil => rfl
  | cons x t ih => simp [ih]

theorem filterMap_eq_map_of_some {α β : Type} (f : α → Option β)
    (g : α → β) (l : List α) (h : ∀ x ∈ l, f x = some (g x)) :
    l.filterMap f = l.map g := by
  induction l with
  | nil => rfl
  | cons x t ih =>
    rw [List.filterMap_cons, h x (by simp)]
    rw [ih (fun y hy => h y (by simp [hy]))]
    rfl

theorem aget_map_none_generic {γ : Type} (L : List γ) (κ : γ → String)
    (v : γ → List Nat) (k : String) (h : ∀ g ∈ L, ¬ κ g = k) :
    aget (L.map (fun g => (κ g, v g))) k = none := by
  induction L with
  | nil => rfl
  | cons x t ih =>
    rw [List.map_cons, aget_cons]
    rw [if_neg (by
      simp only [beq_iff_eq]
      exact h x (by simp))]
    exact ih (fun g hg => h g (by simp [hg]))

/-- Non-overlapping plan of a `parityCount = 1` scheme. -/
theorem generateFECGroups_basic (total : Nat) (scheme : FECScheme)
    (hov : scheme.overlap = false) (hpc1 : scheme.parityCount = 1)
    (hgs : ¬ scheme.groupSize = 0) :
    generateFECGroups total scheme =
      (List.range ((total + scheme.groupSize - 1) / scheme.groupSize)).map
        (fun k => ⟨k * scheme.groupSize + 1,
          min (k * scheme.groupSize + scheme.groupSize) total, "0"⟩) := by
  unfold generateFECGroups
  rw [if_neg hgs]
  rw [if_neg (by rw [hov]; simp)]
  rw [hpc1]
  exact flatten_map_singleton _ _

/-- Overlapping plan: stride-3 main groups then the overlap loop. -/
theorem generateFECGroups_overlap (total : Nat) (scheme : FECScheme)
    (hov : scheme.overlap = true) (hgs3 : scheme.groupSize = 3) :
    generateFECGroups total scheme =
      (List.range ((total + scheme.groupSize - 1) / scheme.groupSize)).map
        (fun k => ⟨k * scheme.groupSize + 1,
          min (k * scheme.groupSize + scheme.groupSize) total, "0"⟩) ++
      overlappingGroupsLoop total := by
  unfold generateFECGroups generateOverlappingGroups
  rw [if_neg (by rw [hgs3]; simp)]
  rw [if_pos hov]
  congr 1
  unfold mainGroups
  rw [hgs3]
  rw [show total + 3 - 1 = total + 2 from by omega]
  apply List.map_congr_left
  intro k _
  have h1 : 3 * k + 1 = k * 3 + 1 := by ring
  rw [h1]

/-- The overlapping-loop types are `O`-prefixed decimal tags. -/
theorem overlappingGroupsLoop_type (T : Nat) :
    ∀ g ∈ overlappingGroupsLoop T, ∃ nn, g.type = "O" ++ decStr nn := by
  unfold overlappingGroupsLoop
  have key := foldl_inv
    (fun (st : Nat × List FECGroup) => ∀ g ∈ st.2,
      ∃ nn, g.type = "O" ++ decStr nn)
    (fun (st : Nat × List FECGroup) i =>
      if i + 2 ≤ T then
        ((st.1 + 1 : Nat),
          if (mainGroupKeys T).contains (i, i + 2) then st.2
          else st.2 ++ [⟨i, i + 2, "O" ++ decStr st.1⟩])
      else st)
    (List.range' 2 (T - 1)) (0, []) (by simp)
    (fun acc x hx hacc => by
      dsimp only
      split
      · split
        · exact hacc
        · intro g hg
          rcases List.mem_append.mp hg with hg | hg
          · exact hacc g hg
          · rw [List.mem_singleton.mp hg]
            exact ⟨acc.1, rfl⟩
      · exact hacc)
  exact key


/-! ## C3: the single-loss round trip -/

theorem eraseIdx_len_append {α : Type} :
    ∀ (l1 l2 : List α) (k : Nat), k = l1.length →
    (l1 ++ l2).eraseIdx k = l1 ++ l2.tail := by
  intro l1
  induction l1 with
  | nil =>
    intro l2 k hk
    subst hk
    cases l2 <;> rfl
  | cons a t ih =>
    intro l2 k hk
    subst hk
    rw [List.length_cons]
    rw [List.cons_append, List.eraseIdx_cons_succ]
    rw [ih l2 t.length rfl]
    rfl

theorem range_split (n j : Nat) (h : j < n) :
    List.range n = List.range' 0 j ++ j :: List.range' (j + 1) (n - j - 1) := by
  rw [List.range_eq_range']
  rw [show List.range' 0 n = List.range' 0 (n - j + j) from by
    rw [show n - j + j = n from by omega]]
  rw [← List.range'_append 0 j (n - j) 1]
  rw [show 0 + 1 * j = j from by omega]
  rw [show n - j = (n - j - 1) + 1 from by omega]
  rw [List.range'_succ]
  rw [show n - j - 1 + 1 - 1 = n - j - 1 from by omega]

theorem contains_map_false {α : Type} (L : List α) (g : α → String)
    (y : String) (h : ∀ x ∈ L, ¬ g x = y) : (L.map g).contains y = false := by
  induction L with
  | nil => rfl
  | cons a t ih =>
    rw [List.map_cons]
    rw [List.contains_cons, ih (fun x hx => h x (by simp [hx]))]
    rw [show (y == g a) = false from
      beq_eq_false_iff_ne.mpr (fun hh => h a (by simp) hh.symm)]
    rfl

theorem colonFree_append (a b : String) (ha : colonFree a)
    (hb : colonFree b) : colonFree (a ++ b) := by
  intro c hc
  rw [data_append] at hc
  rcases List.mem_append.mp hc with h | h
  · exact ha c h
  · exact hb c h

theorem getD_lt_256 (c : List Nat) (jj : Nat) (h : ∀ bb ∈ c, bb < 256) :
    c.getD jj 0 < 256 := by
  by_cases hj : jj < c.length
  · refine h _ ?_
    rw [List.getD_eq_getElem _ _ hj]
    exact List.getElem_mem hj
  · rw [List.getD_eq_default _ _ (by omega)]
    decide

theorem mem_xorBytes_lt (cs : List (List Nat)) (size : Nat)
    (hlen : ∀ c ∈ cs, c.length ≤ size)
    (hb : ∀ c ∈ cs, ∀ bb ∈ c, bb < 256) :
    ∀ bb ∈ xorBytes cs size, bb < 256 := by
  intro bb hbb
  obtain ⟨i, hi, rfl⟩ := List.mem_iff_getElem.mp hbb
  rw [show (xorBytes cs size)[i] = (xorBytes cs size).getD i 0 from
    (List.getD_eq_getElem _ _ hi).symm]
  have hi' : i < size := by
    rw [xorBytes_length cs size hlen] at hi
    exact hi
  rw [xorBytes_getD cs size hlen i hi']
  apply listXor_lt_256
  intro x hx
  obtain ⟨c, hc, rfl⟩ := List.mem_map.mp hx
  exact getD_lt_256 c i (hb c hc)

theorem filter_isSome_map_none {β : Type} (l : List β) :
    (l.map (fun _ => (none : Option Out))).filter (fun o => o.isSome) = [] := by
  induction l with
  | nil => rfl
  | cons a t ih => simpa using ih

theorem div_mul_facts (j gs : Nat) (h : 0 < gs) :
    j / gs * gs ≤ j ∧ j < j / gs * gs + gs := by
  refine ⟨Nat.div_mul_le_self j gs, ?_⟩
  have h1 := Nat.div_add_mod j gs
  have h2 := Nat.mod_lt j h
  rw [Nat.mul_comm] at h1
  omega

theorem ceil_div_facts (T gs : Nat) (h : 0 < gs) :
    T ≤ (T + gs - 1) / gs * gs := by
  have h1 := Nat.div_add_mod (T + gs - 1) gs
  have h2 := Nat.mod_lt (T + gs - 1) h
  rw [Nat.mul_comm] at h1
  omega

theorem q_lt_ceil (T gs j : Nat) (h : 0 < gs) (hj : j < T) :
    j / gs < (T + gs - 1) / gs := by
  rw [Nat.div_lt_iff_lt_mul h]
  have := ceil_div_facts T gs h
  omega

theorem intRange_pairwise (a b : Int) : (intRange a b).Pairwise (· < ·) := by
  rw [intRange_eq]
  exact List.Pairwise.map _
    (fun h => by simp only [Int.ofNat_eq_coe]; omega)
    (List.pairwise_lt_range _)

theorem aget_eq_none_of_forall_ne {α β : Type} [BEq α] [LawfulBEq α]
    (l : List (α × β)) (k : α) (h : ∀ kv ∈ l, ¬ kv.1 = k) :
    aget l k = none := by
  induction l with
  | nil => rfl
  | cons p t ih =>
    rw [aget_cons]
    rw [if_neg (by
      simp only [beq_iff_eq]
      exact h p (by simp))]
    exact ih (fun kv hkv => h kv (by simp [hkv]))

set_option maxHeartbeats 1600000 in
/-- The recovery phase of the session holding every chunk except `j+1`
and the primary parities `P0 ++ [group of j]`: the missing chunk is
XOR-recovered (by the standard pass for a full group, by the aggressive
fallback for the cut-off last group). -/
theorem recoveryPhase_trigger_nat (sess : Session) (cw : List (List Nat))
    (gs T q j b : Nat) (P0 : List (String × List Nat))
    (hgseq : sess.fec.groupSize = gs)
    (hov3 : sess.fec.overlap = true → sess.fec.groupSize = 3)
    (hpc : ¬ sess.fec.parityCount = 0)
    (htot : sess.total = (T : Int))
    (hgs0 : 0 < gs) (hj : j < T) (hqle : q * gs ≤ j) (hqlt : j < q * gs + gs)
    (hT : cw.length = T)
    (hcwlen : ∀ c' ∈ cw, c'.length ≤ CHUNK_SIZE)
    (hchunks : ∀ i : Int, 1 ≤ i → i ≤ (T : Int) → ¬ i = (j : Int) + 1 →
      aget sess.chunks i = some (cw.getD (i - 1).toNat []))
    (hnone : aget sess.chunks ((j : Int) + 1) = none)
    (hlen : (sess.chunks.length : Int) = (T : Int) - 1)
    (hparity : sess.parity = P0 ++ [mainPair cw gs T q])
    (hP0 : ∀ kv ∈ P0, ∃ (s' e' : Int) (t : String),
      kv.1 = createParityKey s' e' t ∧ 0 < s' ∧ s' ≤ e' ∧ e' ≤ (T : Int) ∧
      (∀ ch ∈ t.data, ch ≠ '-') ∧ t ≠ "" ∧
      (t = "0" → ¬(s' ≤ (j : Int) + 1 ∧ (j : Int) + 1 ≤ e')))
    (hP0key : ∀ kv ∈ P0, ¬ kv.1 = (mainPair cw gs T q).1)
    (hlast : (cw.getD j []).getLast? = some b) (hbz : ¬ b = 0) :
    recoveryPhase sess =
      {sess with chunks := aset sess.chunks ((j : Int) + 1) (cw.getD j [])} := by
  have hgsI : ((sess.fec.groupSize : Nat) : Int) = ((gs : Nat) : Int) := by
    rw [hgseq]
  have hclen75 : ∀ i : Nat, (cw.getD i []).length ≤ CHUNK_SIZE := by
    intro i
    by_cases hi : i < cw.length
    · rw [List.getD_eq_getElem _ _ hi]
      exact hcwlen _ (List.getElem_mem hi)
    · rw [List.getD_eq_default _ _ (by omega)]
      simp [CHUNK_SIZE]
  have hqleI : (q : Int) * (gs : Int) ≤ (j : Int) := by exact_mod_cast hqle
  have hqltI : ((j : Int)) < (q : Int) * (gs : Int) + (gs : Int) := by
    exact_mod_cast hqlt
  have hjI : ((j : Int)) < (T : Int) := by exact_mod_cast hj
  have hgs0I : (0 : Int) < (gs : Int) := by exact_mod_cast hgs0
  by_cases hfull : q * gs + gs ≤ T
  · -- the group of `j` is complete: the standard pass fires
    have hmin : min (q * gs + gs) T = q * gs + gs := Nat.min_eq_left hfull
    have hfullI : (q : Int) * (gs : Int) + (gs : Int) ≤ (T : Int) := by
      have : ((q * gs + gs : Nat) : Int) ≤ ((T : Nat) : Int) := by
        exact_mod_cast hfull
      push_cast at this
      omega
    have hsplitI : intRange ((q : Int) * (gs : Int) + 1)
        ((q : Int) * (gs : Int) + (gs : Int)) =
        intRange ((q : Int) * (gs : Int) + 1) ((j : Int)) ++
          ((j : Int) + 1) ::
            intRange ((j : Int) + 1 + 1)
              ((q : Int) * (gs : Int) + (gs : Int)) := by
      rw [← intRange_append ((q : Int) * (gs : Int) + (gs : Int))
        (((j : Int) + 1 - ((q : Int) * (gs : Int) + 1)).toNat)
        ((q : Int) * (gs : Int) + 1) ((j : Int)) rfl (by omega) (by omega)]
      rw [intRange_cons ((j : Int) + 1) _ (by omega)]
    have hsl : (cw.drop (q * gs + 1 - 1)).take
        (min (q * gs + gs) T - (q * gs + 1 - 1)) =
        ((intRange ((q : Int) * (gs : Int) + 1) ((j : Int)) ++
          ((j : Int) + 1) ::
            intRange ((j : Int) + 1 + 1)
              ((q : Int) * (gs : Int) + (gs : Int)))).map
          (fun i => cw.getD (i - 1).toNat []) := by
      rw [hmin]
      rw [show q * gs + 1 - 1 = q * gs from by omega]
      rw [show q * gs + gs - q * gs = gs from by omega]
      rw [drop_take_eq_map_getD ([] : List Nat) cw (q * gs) gs
        (by rw [hT]; omega)]
      rw [← hsplitI]
      rw [intRange_eq]
      rw [show ((q : Int) * (gs : Int) + (gs : Int) + 1 -
        ((q : Int) * (gs : Int) + 1)).toNat = gs from by omega]
      rw [List.map_map]
      apply List.map_congr_left
      intro k hk
      show cw.getD (q * gs + k) [] =
        cw.getD (((q : Int) * (gs : Int) + 1 + Int.ofNat k - 1)).toNat []
      congr 1
      simp only [Int.ofNat_eq_coe]
      omega
    refine recoveryPhase_full sess ((j : Int) + 1) (q : Int) (cw.getD j [])
      (intRange ((q : Int) * (gs : Int) + 1) ((j : Int)))
      (intRange ((j : Int) + 1 + 1) ((q : Int) * (gs : Int) + (gs : Int)))
      (fun i => cw.getD (i - 1).toNat []) (mainPair cw gs T q).2
      ?_ ?_ ?_ ?_ ?_ ?_ ?_ ?_ ?_ ?_ ?_ ?_ ?_
    · rw [hgseq]; exact hgs0
    · omega
    · rw [hgsI]; omega
    · rw [hgsI]; omega
    · rw [hgsI, htot]; omega
    · intro i h1 h2 h3
      exact hchunks i h1 (by rw [htot] at h2; exact h2) h3
    · exact hnone
    · rw [hgsI]
      exact hsplitI
    · exact hpc
    · rw [hparity, hgsI]
      rw [show ((q : Int) * (gs : Int) + 1) = (((q * gs + 1 : Nat)) : Int)
        from by push_cast; ring]
      rw [show ((q : Int) * (gs : Int) + (gs : Int)) =
        (((min (q * gs + gs) T : Nat)) : Int) from by
          rw [hmin]; push_cast; ring]
      rw [aget_append_right _ _ _ (aget_eq_none_of_forall_ne P0
        (createParityKey (((q * gs + 1 : Nat)) : Int)
          (((min (q * gs + gs) T : Nat)) : Int) "0") hP0key)]
      rw [aget_cons]
      rw [if_pos (show ((mainPair cw gs T q).1 ==
          createParityKey (((q * gs + 1 : Nat)) : Int)
            (((min (q * gs + gs) T : Nat)) : Int) "0") = true from
        beq_iff_eq.mpr rfl)]
    · -- no other stored primary key can serve the group of `j`
      intro s hs hsne hcase
      rw [hgsI] at hsne hcase ⊢
      rw [htot] at hcase
      cases hh : ahas sess.parity
          (createParityKey s (s + (gs : Int) - 1) "0") with
      | false => rfl
      | true =>
        exfalso
        obtain ⟨pb', hpb'⟩ := (ahas_iff _ _).mp hh
        have hmem := aget_mem_of_some hpb'
        rw [hparity] at hmem
        rcases List.mem_append.mp hmem with hmem | hmem
        · obtain ⟨s', e', t, hk, hs', hse', hle, htd, htne, htag⟩ :=
            hP0 _ hmem
          simp only at hk
          obtain ⟨h1, h2, h3⟩ := createParityKey_inj s
            (s + (gs : Int) - 1) s' e' "0" t (by omega) (by omega)
            (by decide) (by decide) hs' hse' htd htne hk
          subst h1
          subst h2
          rcases hcase with hcov | hbig
          · exact htag h3.symm hcov
          · omega
        · have hk : createParityKey s (s + (gs : Int) - 1) "0" =
              createParityKey (((q * gs + 1 : Nat)) : Int)
                (((min (q * gs + gs) T : Nat)) : Int) "0" :=
            congrArg Prod.fst (List.mem_singleton.mp hmem)
          obtain ⟨h1, h2, _⟩ := createParityKey_inj s
            (s + (gs : Int) - 1) (((q * gs + 1 : Nat)) : Int)
            (((min (q * gs + gs) T : Nat)) : Int) "0" "0" (by omega)
            (by omega) (by decide) (by decide) (by push_cast; omega)
            (by rw [hmin]; push_cast; omega) (by decide) (by decide) hk
          apply hsne
          rw [h1]
          push_cast
          ring
    · -- the XOR solve
      refine recoverSingle_eq ((j : Int) + 1) _ _ (cw.getD j []) ?_ ?_
        (hclen75 j) b hlast hbz
      · exact xorBytes_length _ _ (fun c' hc' => hcwlen c'
          (List.mem_of_mem_drop (List.mem_of_mem_take hc')))
      · intro jj hj75
        have h := parity_bytes_solve
          (intRange ((q : Int) * (gs : Int) + 1) ((j : Int)))
          (intRange ((j : Int) + 1 + 1)
            ((q : Int) * (gs : Int) + (gs : Int)))
          ((j : Int) + 1) (fun i => cw.getD (i - 1).toNat [])
          (fun i _ => hclen75 _) jj hj75
        dsimp only at h
        rw [show (((j : Int) + 1 - 1)).toNat = j from by omega] at h
        rw [show (mainPair cw gs T q).2 = xorBytes
            ((intRange ((q : Int) * (gs : Int) + 1) ((j : Int)) ++
              ((j : Int) + 1) ::
                intRange ((j : Int) + 1 + 1)
                  ((q : Int) * (gs : Int) + (gs : Int))).map
              (fun i => cw.getD (i - 1).toNat [])) CHUNK_SIZE from by
          rw [show (mainPair cw gs T q).2 = xorBytes
            ((cw.drop (q * gs + 1 - 1)).take
              (min (q * gs + gs) T - (q * gs + 1 - 1))) CHUNK_SIZE from rfl]
          rw [hsl]]
        exact h
    · rw [htot]
      exact hlen
  · -- the group of `j` is the cut-off last group: the fallback fires
    have hTlt : T < q * gs + gs := by omega
    have hmin : min (q * gs + gs) T = T := Nat.min_eq_right (by omega)
    have hsplitI : intRange (((q * gs + 1 : Nat)) : Int) ((T : Int)) =
        intRange (((q * gs + 1 : Nat)) : Int) ((j : Int)) ++
          ((j : Int) + 1) ::
            intRange ((j : Int) + 1 + 1) ((T : Int)) := by
      rw [← intRange_append ((T : Int))
        (((j : Int) + 1 - (((q * gs + 1 : Nat)) : Int)).toNat)
        (((q * gs + 1 : Nat)) : Int) ((j : Int)) rfl
        (by push_cast; omega) (by omega)]
      rw [intRange_cons ((j : Int) + 1) _ (by omega)]
    have hsl : (cw.drop (q * gs + 1 - 1)).take
        (min (q * gs + gs) T - (q * gs + 1 - 1)) =
        ((intRange (((q * gs + 1 : Nat)) : Int) ((j : Int)) ++
          ((j : Int) + 1) ::
            intRange ((j : Int) + 1 + 1) ((T : Int)))).map
          (fun i => cw.getD (i - 1).toNat []) := by
      rw [hmin]
      rw [show q * gs + 1 - 1 = q * gs from by omega]
      rw [drop_take_eq_map_getD ([] : List Nat) cw (q * gs) (T - q * gs)
        (by rw [hT]; omega)]
      rw [← hsplitI]
      rw [intRange_eq]
      rw [show ((T : Int) + 1 - (((q * gs + 1 : Nat)) : Int)).toNat =
        T - q * gs from by push_cast; omega]
      rw [List.map_map]
      apply List.map_congr_left
      intro k hk
      show cw.getD (q * gs + k) [] =
        cw.getD (((((q * gs + 1 : Nat)) : Int) + Int.ofNat k - 1)).toNat []
      congr 1
      simp only [Int.ofNat_eq_coe]
      push_cast
      omega
    have hkeyT : (mainPair cw gs T q) =
        (createParityKey (((q * gs + 1 : Nat)) : Int) ((T : Int)) "0",
          (mainPair cw gs T q).2) := by
      rw [show (mainPair cw gs T q) =
        (createParityKey (((q * gs + 1 : Nat)) : Int)
          (((min (q * gs + gs) T : Nat)) : Int) "0",
          (mainPair cw gs T q).2) from rfl]
      rw [hmin]
    refine recoveryPhase_partial sess ((j : Int) + 1)
      (((q * gs + 1 : Nat)) : Int) (cw.getD j [])
      (intRange (((q * gs + 1 : Nat)) : Int) ((j : Int)))
      (intRange ((j : Int) + 1 + 1) ((T : Int)))
      (fun i => cw.getD (i - 1).toNat []) (mainPair cw gs T q).2 P0
      ?_ ?_ ?_ ?_ ?_ ?_ ?_ ?_ ?_ ?_ ?_ ?_ ?_ ?_ ?_ b hlast hbz
    · rw [hgseq]; exact hgs0
    · push_cast; omega
    · push_cast; omega
    · rw [htot]; omega
    · rw [htot, hgsI]; push_cast; omega
    · rw [hparity, htot, hkeyT]
    · intro kv hkv
      obtain ⟨s', e', t, h1, h2, h3, h4, h5, h6, h7⟩ := hP0 kv hkv
      exact ⟨s', e', t, h1, h2, h3, by rw [htot]; exact h4, h5, h6, h7⟩
    · intro i h1 h2 h3
      exact hchunks i h1 (by rw [htot] at h2; exact h2) h3
    · exact hnone
    · rw [htot]
      exact hsplitI
    · exact hov3
    · rw [htot]
      exact hlen
    · exact xorBytes_length _ _ (fun c' hc' => hcwlen c'
        (List.mem_of_mem_drop (List.mem_of_mem_take hc')))
    · intro jj hj75
      have h := parity_bytes_solve
        (intRange (((q * gs + 1 : Nat)) : Int) ((j : Int)))
        (intRange ((j : Int) + 1 + 1) ((T : Int)))
        ((j : Int) + 1) (fun i => cw.getD (i - 1).toNat [])
        (fun i _ => hclen75 _) jj hj75
      dsimp only at h
      rw [show (((j : Int) + 1 - 1)).toNat = j from by omega] at h
      rw [show (mainPair cw gs T q).2 = xorBytes
          ((intRange (((q * gs + 1 : Nat)) : Int) ((j : Int)) ++
            ((j : Int) + 1) ::
              intRange ((j : Int) + 1 + 1) ((T : Int))).map
            (fun i => cw.getD (i - 1).toNat [])) CHUNK_SIZE from by
        rw [show (mainPair cw gs T q).2 = xorBytes
          ((cw.drop (q * gs + 1 - 1)).take
            (min (q * gs + gs) T - (q * gs + 1 - 1))) CHUNK_SIZE from rfl]
        rw [hsl]]
      exact h
    · exact hclen75 j

/-- `aget` facts for the chunk map accumulated by the run with DATA
packet `j` dropped. -/
theorem aget_run_chunks (cw : List (List Nat)) (T j : Nat) (hj : j < T) :
    (∀ i : Int, 1 ≤ i → i ≤ (T : Int) → ¬ i = (j : Int) + 1 →
      aget ((List.range' 0 j).map
          (fun x : Nat => ((x : Int) + 1, cw.getD x [])) ++
        (List.range' (j + 1) (T - j - 1)).map
          (fun x : Nat => ((x : Int) + 1, cw.getD x []))) i =
        some (cw.getD (i - 1).toNat [])) ∧
    (aget ((List.range' 0 j).map
        (fun x : Nat => ((x : Int) + 1, cw.getD x [])) ++
      (List.range' (j + 1) (T - j - 1)).map
        (fun x : Nat => ((x : Int) + 1, cw.getD x [])))
      ((j : Int) + 1) = none) ∧
    (∀ k : Int, ¬ (1 ≤ k ∧ k ≤ (T : Int)) →
      aget ((List.range' 0 j).map
          (fun x : Nat => ((x : Int) + 1, cw.getD x [])) ++
        (List.range' (j + 1) (T - j - 1)).map
          (fun x : Nat => ((x : Int) + 1, cw.getD x []))) k = none) := by
  refine ⟨?_, ?_, ?_⟩
  · intro i h1 h2 h3
    by_cases hij : i ≤ (j : Int)
    · obtain ⟨k, hkj, rfl⟩ : ∃ k : Nat, k < j ∧ i = (k : Int) + 1 :=
        ⟨(i - 1).toNat, by omega, by omega⟩
      rw [show (((k : Int) + 1 - 1)).toNat = k from by omega]
      exact aget_append_left _ _ _ _ (aget_map_succ_some _ _ k
        (by simp only [List.mem_range'_1]; omega) (List.nodup_range' _ _))
    · obtain ⟨k, hk1, hk2, rfl⟩ :
          ∃ k : Nat, j + 1 ≤ k ∧ k < T ∧ i = (k : Int) + 1 :=
        ⟨(i - 1).toNat, by omega, by omega, by omega⟩
      rw [show (((k : Int) + 1 - 1)).toNat = k from by omega]
      rw [aget_append_right _ _ _ (aget_map_succ_none _ _ _ (fun x hx => by
        have := List.mem_range'_1.mp hx
        intro heq
        omega))]
      exact aget_map_succ_some _ _ k
        (by simp only [List.mem_range'_1]; omega) (List.nodup_range' _ _)
  · rw [aget_append_right _ _ _ (aget_map_succ_none _ _ _ (fun x hx => by
      have := List.mem_range'_1.mp hx
      intro heq
      omega))]
    exact aget_map_succ_none _ _ _ (fun x hx => by
      have := List.mem_range'_1.mp hx
      intro heq
      omega)
  · intro k hk
    rw [aget_append_right _ _ _ (aget_map_succ_none _ _ _ (fun x hx => by
      have := List.mem_range'_1.mp hx
      intro heq
      omega))]
    exact aget_map_succ_none _ _ _ (fun x hx => by
      have := List.mem_range'_1.mp hx
      intro heq
      omega)

/-- Sorting the completed chunk map yields the canonical ascending list. -/
theorem sortByKey_run_chunks (cw : List (List Nat)) (T j : Nat)
    (hj : j < T) :
    sortByKey (((List.range' 0 j).map
        (fun x : Nat => ((x : Int) + 1, cw.getD x [])) ++
      (List.range' (j + 1) (T - j - 1)).map
        (fun x : Nat => ((x : Int) + 1, cw.getD x []))) ++
      [(((j : Int) + 1), cw.getD j [])]) =
    (intRange 1 (T : Int)).map (fun i => (i, cw.getD (i - 1).toNat [])) := by
  obtain ⟨hsome, hnone, hout⟩ := aget_run_chunks cw T j hj
  have hnodupL : ((((List.range' 0 j).map
      (fun x : Nat => ((x : Int) + 1, cw.getD x [])) ++
    (List.range' (j + 1) (T - j - 1)).map
      (fun x : Nat => ((x : Int) + 1, cw.getD x []))) ++
    [(((j : Int) + 1), cw.getD j [])]).map Prod.fst).Nodup := by
    rw [show ((((List.range' 0 j).map
        (fun x : Nat => ((x : Int) + 1, cw.getD x [])) ++
      (List.range' (j + 1) (T - j - 1)).map
        (fun x : Nat => ((x : Int) + 1, cw.getD x []))) ++
      [(((j : Int) + 1), cw.getD j [])]).map Prod.fst) =
      (((List.range' 0 j).map (fun x : Nat => ((x : Int) + 1)) ++
        (List.range' (j + 1) (T - j - 1)).map
          (fun x : Nat => ((x : Int) + 1))) ++
        [((j : Int) + 1)]) from by
      simp only [List.map_append, List.map_map, List.map_cons, List.map_nil]
      rfl]
    refine List.Nodup.append (List.Nodup.append ?_ ?_ ?_) (by simp) ?_
    · exact List.Nodup.map_on (fun x _ y _ h => by omega)
        (List.nodup_range' _ _)
    · exact List.Nodup.map_on (fun x _ y _ h => by omega)
        (List.nodup_range' _ _)
    · intro a ha hb
      obtain ⟨x, hx, rfl⟩ := List.mem_map.mp ha
      obtain ⟨y, hy, hxy⟩ := List.mem_map.mp hb
      have h1 := List.mem_range'_1.mp hx
      have h2 := List.mem_range'_1.mp hy
      omega
    · intro a ha hb
      rcases List.mem_append.mp ha with h | h <;>
        obtain ⟨x, hx, rfl⟩ := List.mem_map.mp h <;>
        [have h1 := List.mem_range'_1.mp hx;
         have h1 := List.mem_range'_1.mp hx] <;>
        [skip; skip] <;>
        · rw [List.mem_singleton] at hb
          omega
  refine sortByKey_eq_of_perm _ _ ?_ ?_ hnodupL
  · apply perm_of_nodup_aget_eq _ _ hnodupL
    · rw [List.map_map]
      exact List.Nodup.map_on (fun x _ y _ h => h)
        (intRange_nodup 1 (T : Int))
    · intro k
      by_cases h1 : 1 ≤ k ∧ k ≤ (T : Int)
      · by_cases h2 : k = (j : Int) + 1
        · subst h2
          rw [aget_append_right _ _ _ hnone]
          rw [aget_cons, if_pos (by simp)]
          rw [aget_map_key_some _ _ _ (by rw [mem_intRange]; omega)
            (intRange_nodup 1 (T : Int))]
          rw [show (((j : Int) + 1 - 1)).toNat = j from by omega]
        · rw [aget_append_left _ _ _ _ (hsome k h1.1 h1.2 h2)]
          rw [aget_map_key_some _ _ _ (by rw [mem_intRange]; omega)
            (intRange_nodup 1 (T : Int))]
      · rw [aget_append_right _ _ _ (hout k h1)]
        rw [aget_cons, if_neg (by
          simp only [beq_iff_eq]
          intro hh
          exact h1 (by omega))]
        rw [aget_map_key_none _ _ _ (by rw [mem_intRange]; omega)]
        rfl
  · exact List.Pairwise.map _ (fun a b h => h) (intRange_pairwise 1 (T : Int))

/-- Mapping the canonical sorted chunk list back to payloads returns the
chunk list itself. -/
theorem canonical_map_snd (cw : List (List Nat)) (T : Nat)
    (hT : cw.length = T) :
    ((intRange 1 (T : Int)).map
      (fun i => (i, cw.getD (i - 1).toNat []))).map Prod.snd = cw := by
  rw [List.map_map]
  rw [intRange_eq]
  rw [show ((T : Int) + 1 - 1).toNat = T from by omega]
  rw [List.map_map]
  rw [show T = cw.length from hT.symm]
  rw [show (List.range cw.length).map
      ((Prod.snd ∘ fun i => (i, cw.getD (i - 1).toNat [])) ∘
        (fun k => 1 + Int.ofNat k)) =
    (List.range cw.length).map (fun i => cw.getD i []) from by
    apply List.map_congr_left
    intro k hk
    show cw.getD ((1 + Int.ofNat k - 1)).toNat [] = cw.getD k []
    congr 1
    simp only [Int.ofNat_eq_coe]
    omega]
  exact map_getD_range [] cw

set_option maxHeartbeats 1600000 in
theorem c3_run_core (md5 : List Nat → String)
    (gz : List Nat → Option (List Nat)) (gzipFn : List Nat → List Nat)
    (proto sid flag : String) (data : List Nat) (cw : List (List Nat))
    (T gs q Ng j b : Nat) (scheme : FECScheme) (OG : List FECGroup)
    (hcw : chunkBytes data CHUNK_SIZE = cw)
    (hT : cw.length = T)
    (hgseq : scheme.groupSize = gs)
    (hqeq : j / gs = q)
    (hNgeq : (T + gs - 1) / gs = Ng)
    (hsid : colonFree sid)
    (hdb : ∀ bb ∈ data, bb < 256)
    (hhne : ¬ md5 data = "") (hhcf : colonFree (md5 data))
    (hflag : fecFlagOf scheme = flag) (hflne : (flag == "") = false)
    (hflcf : colonFree flag)
    (hres : resolveFecScheme flag = scheme)
    (hgs0 : 0 < gs)
    (hpc : ¬ scheme.parityCount = 0)
    (hov3 : scheme.overlap = true → gs = 3)
    (hplan : generateFECGroups T scheme =
      (List.range Ng).map (fun k =>
        ⟨k * gs + 1, min (k * gs + gs) T, "0"⟩) ++ OG)
    (hOG : ∀ g ∈ OG, 2 ≤ g.start ∧ g.stop = g.start + 2 ∧ g.stop ≤ T ∧
      jsStartsWith g.type "O" = true ∧ colonFree g.type)
    (hj : j < T)
    (hlast : (cw.getD j []).getLast? = some b) (hbz : ¬ b = 0)
    (hgzC : jsIncludes flag "C" = true → gz data = none) :
    (runFrames md5 gz ⟨[], proto⟩
      ((sendLargeDataPackets md5 gzipFn sid data false scheme).eraseIdx
        (1 + j))).2.filter (fun o => o.isSome) = [some (Out.bytes data)] := by
  -- arithmetic groundwork
  obtain ⟨hqle, hqlt⟩ : q * gs ≤ j ∧ j < q * gs + gs := by
    rw [← hqeq]
    exact div_mul_facts j gs hgs0
  have hqNg : q < Ng := by
    rw [← hqeq, ← hNgeq]
    exact q_lt_ceil T gs j hgs0 hj
  have hTpos : 0 < T := by omega
  -- chunk facts
  have hprops : ∀ c ∈ cw, c.length ≤ CHUNK_SIZE ∧ c ≠ [] ∧
      ∀ bb ∈ c, bb ∈ data := by
    rw [← hcw]
    exact chunkBytes_props data
  have hclen75 : ∀ i : Nat, (cw.getD i []).length ≤ CHUNK_SIZE := by
    intro i
    by_cases hi : i < cw.length
    · rw [List.getD_eq_getElem _ _ hi]
      exact (hprops _ (List.getElem_mem hi)).1
    · rw [List.getD_eq_default _ _ (by omega)]
      simp [CHUNK_SIZE]
  have hcb : ∀ i : Nat, ∀ bb ∈ cw.getD i [], bb < 256 := by
    intro i bb hbb
    by_cases hi : i < cw.length
    · rw [List.getD_eq_getElem _ _ hi] at hbb
      exact hdb bb ((hprops _ (List.getElem_mem hi)).2.2 bb hbb)
    · rw [List.getD_eq_default _ _ (by omega)] at hbb
      cases hbb
  -- the frames on the wire after dropping DATA packet j
  have hframes : (sendLargeDataPackets md5 gzipFn sid data
      false scheme).eraseIdx (1 + j) =
      ("S:" ++ sid ++ "::" ++ md5 data ++ ":" ++ decStr T ++ ":" ++ flag) ::
        ((List.range' 0 j).map (dFrame sid cw) ++
          ((List.range' (j + 1) (T - j - 1)).map (dFrame sid cw) ++
            (((List.range' 0 q).map (mainPair cw gs T)).map (pFrame sid) ++
              (pFrame sid (mainPair cw gs T q) ::
                (((List.range' (q + 1) (Ng - q - 1)).map
                    (mainPair cw gs T)).map (pFrame sid) ++
                  (OG.map (parityFrame sid cw) ++
                    ["E:" ++ sid ++ "::"])))))) := by
    rw [sendLargeDataPackets_eq md5 gzipFn sid data scheme flag hflag hflne
      (by rw [hgseq]; exact hgs0)]
    rw [hcw, hT]
    rw [hplan]
    rw [filterMap_eq_map_of_some (mkParityPacket sid cw scheme)
      (parityFrame sid cw) _ (by
        intro g hg
        rcases List.mem_append.mp hg with hg | hg
        · obtain ⟨k, _, rfl⟩ := List.mem_map.mp hg
          exact mkParityPacket_zero sid cw scheme _ _ hpc
        · exact mkParityPacket_O sid cw scheme g.start g.stop g.type
            (hOG g hg).2.2.2.1)]
    rw [range_split T j hj, range_split Ng q hqNg]
    simp only [List.map_append, List.map_cons, List.map_map,
      List.append_assoc, List.cons_append, List.singleton_append,
      List.nil_append]
    rw [show 1 + j = j + 1 from Nat.add_comm 1 j]
    rw [List.eraseIdx_cons_succ]
    rw [eraseIdx_len_append]
    · rw [List.tail_cons]
      rfl
    · simp
  -- receiver-side shared facts
  obtain ⟨hsome, hnoneJ, hout⟩ := aget_run_chunks cw T j hj
  have hlenAB : (((List.range' 0 j).map
      (fun x : Nat => ((x : Int) + 1, cw.getD x [])) ++
    (List.range' (j + 1) (T - j - 1)).map
      (fun x : Nat => ((x : Int) + 1, cw.getD x []))).length : Int) =
      (T : Int) - 1 := by
    simp only [List.length_append, List.length_map, List.length_range']
    omega
  have hXBb : ∀ a n : Nat,
      ∀ bb ∈ xorBytes ((cw.drop a).take n) CHUNK_SIZE, bb < 256 :=
    fun a n => mem_xorBytes_lt _ _
      (fun c' hc' => (hprops c'
        (List.mem_of_mem_drop (List.mem_of_mem_take hc'))).1)
      (fun c' hc' bb hbb => hdb bb ((hprops c'
        (List.mem_of_mem_drop (List.mem_of_mem_take hc'))).2.2 bb hbb))
  have hPreMin : ∀ k, k < q → min (k * gs + gs) T = k * gs + gs ∧
      k * gs + gs ≤ j := by
    intro k hk
    have h1 : (k + 1) * gs ≤ q * gs :=
      Nat.mul_le_mul_right gs (by omega)
    have h2 : k * gs + gs ≤ j := by
      have h3 : (k + 1) * gs = k * gs + gs := by ring
      omega
    exact ⟨Nat.min_eq_left (by omega), h2⟩
  have hkeyNe : ∀ k1 k2 : Nat, k1 < q → k2 ≤ q → ¬ k1 = k2 →
      ¬ (mainPair cw gs T k1).1 = (mainPair cw gs T k2).1 := by
    intro k1 k2 hk1 hk2 hne heq
    obtain ⟨hmin1, hle1⟩ := hPreMin k1 hk1
    obtain ⟨h1, _, _⟩ := createParityKey_inj
      ((k1 * gs + 1 : Nat) : Int) ((min (k1 * gs + gs) T : Nat) : Int)
      ((k2 * gs + 1 : Nat) : Int) ((min (k2 * gs + gs) T : Nat) : Int)
      "0" "0" (by exact_mod_cast Nat.succ_pos (k1 * gs))
      (by rw [hmin1]; push_cast; omega) (by decide) (by decide)
      (by exact_mod_cast Nat.succ_pos (k2 * gs))
      (by
        have h4 : (k2 + 1) * gs ≤ (q + 1) * gs :=
          Nat.mul_le_mul_right gs (by omega)
        have h5 : (k2 + 1) * gs = k2 * gs + gs := by ring
        have h6 : (q + 1) * gs = q * gs + gs := by ring
        have h7 : k2 * gs + 1 ≤ min (k2 * gs + gs) T := by
          rcases le_or_lt (k2 * gs + gs) T with hc | hc
          · rw [Nat.min_eq_left hc]
            omega
          · rw [Nat.min_eq_right (by omega)]
            omega
        push_cast
        push_cast at h7
        omega)
      (by decide) (by decide) heq
    have h8 : k1 * gs + 1 = k2 * gs + 1 := by exact_mod_cast h1
    exact hne (Nat.eq_of_mul_eq_mul_right hgs0 (by omega))
  have hPreShape : ∀ kv ∈ (List.range' 0 q).map (mainPair cw gs T),
      ∃ (s' e' : Int) (t : String), kv.1 = createParityKey s' e' t ∧
      0 < s' ∧ s' ≤ e' ∧ e' ≤ (T : Int) ∧ (∀ ch ∈ t.data, ch ≠ '-') ∧
      t ≠ "" ∧ (t = "0" → ¬(s' ≤ (j : Int) + 1 ∧ (j : Int) + 1 ≤ e')) := by
    intro kv hkv
    obtain ⟨k, hk, rfl⟩ := List.mem_map.mp hkv
    have hkq : k < q := by
      have := List.mem_range'_1.mp hk
      omega
    obtain ⟨hmin, hle⟩ := hPreMin k hkq
    refine ⟨((k * gs + 1 : Nat) : Int), ((min (k * gs + gs) T : Nat) : Int),
      "0", rfl, by push_cast; omega, by rw [hmin]; push_cast; omega,
      by rw [hmin]; push_cast; omega, by decide, by decide, ?_⟩
    intro _ hcov
    have := hcov.2
    rw [hmin] at this
    push_cast at this
    omega
  have hPreKeyNe : ∀ kv ∈ (List.range' 0 q).map (mainPair cw gs T),
      ¬ kv.1 = (mainPair cw gs T q).1 := by
    intro kv hkv
    obtain ⟨k, hk, rfl⟩ := List.mem_map.mp hkv
    have hkq : k < q := by
      have := List.mem_range'_1.mp hk
      omega
    exact hkeyNe k q hkq (le_refl q) (by omega)
  have hPreCFx : ∀ kv ∈ (List.range' 0 q).map (mainPair cw gs T),
      colonFree kv.1 := by
    intro kv hkv
    obtain ⟨k, _, rfl⟩ := List.mem_map.mp hkv
    exact createParityKey_colonFree _ _ _ (by decide)
  have hPreNormx : ∀ kv ∈ (List.range' 0 q).map (mainPair cw gs T),
      normalizeSequencia kv.1 = kv.1 := by
    intro kv hkv
    obtain ⟨k, hk, rfl⟩ := List.mem_map.mp hkv
    have hkq : k < q := by
      have := List.mem_range'_1.mp hk
      omega
    obtain ⟨hmin, hle⟩ := hPreMin k hkq
    exact normalizeSequencia_key _ _ _ (by push_cast; omega)
      (by rw [hmin]; push_cast; omega) (by decide) (by decide)
  have hPreBytesx : ∀ kv ∈ (List.range' 0 q).map (mainPair cw gs T),
      ∀ bb ∈ kv.2, bb < 256 := by
    intro kv hkv
    obtain ⟨k, _, rfl⟩ := List.mem_map.mp hkv
    exact hXBb _ _
  have hPreNd : (((List.range' 0 q).map (mainPair cw gs T)).map
      Prod.fst).Nodup := by
    rw [List.map_map]
    refine List.Nodup.map_on ?_ (List.nodup_range' _ _)
    intro x hx y hy hxy
    have hxq : x < q := by
      have := List.mem_range'_1.mp hx
      omega
    have hyq : y < q := by
      have := List.mem_range'_1.mp hy
      omega
    by_contra hne
    exact hkeyNe x y hxq (by omega) hne hxy
  -- seen-set head separations
  have hSDfresh : ∀ k : Nat, (["S" ++ ":" ++ sid ++ ":"]).contains
      ("D" ++ ":" ++ sid ++ ":" ++ decStr (k + 1)) = false := by
    intro k
    simp only [List.contains_cons, List.contains_nil, Bool.or_false]
    rw [beq_eq_false_iff_ne]
    refine ne_of_head? _ _ ?_
    rw [show ("D" ++ ":" ++ sid ++ ":" ++ decStr (k + 1)).data.head? =
      some 'D' from rfl]
    rw [show ("S" ++ ":" ++ sid ++ ":").data.head? = some 'S' from rfl]
    decide
  have hSPfresh : ∀ key : String, (["S" ++ ":" ++ sid ++ ":"]).contains
      ("P" ++ ":" ++ sid ++ ":" ++ key) = false := by
    intro key
    simp only [List.contains_cons, List.contains_nil, Bool.or_false]
    rw [beq_eq_false_iff_ne]
    refine ne_of_head? _ _ ?_
    rw [show ("P" ++ ":" ++ sid ++ ":" ++ key).data.head? =
      some 'P' from rfl]
    rw [show ("S" ++ ":" ++ sid ++ ":").data.head? = some 'S' from rfl]
    decide
  have hDPne : ∀ (x : Nat) (key : String),
      ¬ ("D" ++ ":" ++ sid ++ ":" ++ decStr (x + 1)) =
        ("P" ++ ":" ++ sid ++ ":" ++ key) := by
    intro x key
    refine ne_of_head? _ _ ?_
    rw [show ("D" ++ ":" ++ sid ++ ":" ++ decStr (x + 1)).data.head? =
      some 'D' from rfl]
    rw [show ("P" ++ ":" ++ sid ++ ":" ++ key).data.head? =
      some 'P' from rfl]
    decide
  have hPseenFresh : ∀ key : String,
      ((["S" ++ ":" ++ sid ++ ":"] ++ (List.range' 0 j).map
          (fun k => "D" ++ ":" ++ sid ++ ":" ++ decStr (k + 1))) ++
        (List.range' (j + 1) (T - j - 1)).map
          (fun k => "D" ++ ":" ++ sid ++ ":" ++ decStr (k + 1))).contains
        ("P" ++ ":" ++ sid ++ ":" ++ key) = false := by
    intro key
    rw [contains_append, contains_append]
    rw [hSPfresh key]
    rw [contains_map_false _ _ _ (fun x _ => hDPne x key)]
    rw [contains_map_false _ _ _ (fun x _ => hDPne x key)]
    rfl
  -- the START step
  have hS : handleReceivedPacket md5 gz ⟨[], proto⟩
      ("S:" ++ sid ++ "::" ++ md5 data ++ ":" ++ decStr T ++ ":" ++ flag) =
      (⟨[(sid, ⟨(T : Int), md5 data, flag, scheme, [], [],
        calculateTimeout (T : Int) proto, ["S" ++ ":" ++ sid ++ ":"]⟩)],
        proto⟩, none) := by
    rw [← hres]
    exact step_S md5 gz proto sid (md5 data) flag T hsid hhcf hflcf hhne
      (by omega)
  -- the DATA block before the dropped packet
  have hD1 : runFrames md5 gz
      ⟨[(sid, ⟨(T : Int), md5 data, flag, scheme, [], [],
        calculateTimeout (T : Int) proto,
        ["S" ++ ":" ++ sid ++ ":"]⟩)], proto⟩
      ((List.range' 0 j).map (dFrame sid cw)) =
      (⟨[(sid, ⟨(T : Int), md5 data, flag, scheme,
        (List.range' 0 j).map (fun x : Nat => ((x : Int) + 1, cw.getD x [])),
        [], calculateTimeout (T : Int) proto,
        ["S" ++ ":" ++ sid ++ ":"] ++ (List.range' 0 j).map
          (fun k => "D" ++ ":" ++ sid ++ ":" ++ decStr (k + 1))⟩)], proto⟩,
       (List.range' 0 j).map (fun _ => (none : Option Out))) :=
    run_D_segment md5 gz proto sid cw hsid hcb j 0 _
      (fun k _ _ => hSDfresh k)
      (fun k _ _ => rfl)
      rfl
      (by simp only [List.length_nil]; omega)
  -- the DATA block after the dropped packet
  have hD2 : runFrames md5 gz
      ⟨[(sid, ⟨(T : Int), md5 data, flag, scheme,
        (List.range' 0 j).map (fun x : Nat => ((x : Int) + 1, cw.getD x [])),
        [], calculateTimeout (T : Int) proto,
        ["S" ++ ":" ++ sid ++ ":"] ++ (List.range' 0 j).map
          (fun k => "D" ++ ":" ++ sid ++ ":" ++ decStr (k + 1))⟩)], proto⟩
      ((List.range' (j + 1) (T - j - 1)).map (dFrame sid cw)) =
      (⟨[(sid, ⟨(T : Int), md5 data, flag, scheme,
        (List.range' 0 j).map
          (fun x : Nat => ((x : Int) + 1, cw.getD x [])) ++
        (List.range' (j + 1) (T - j - 1)).map
          (fun x : Nat => ((x : Int) + 1, cw.getD x [])),
        [], calculateTimeout (T : Int) proto,
        (["S" ++ ":" ++ sid ++ ":"] ++ (List.range' 0 j).map
          (fun k => "D" ++ ":" ++ sid ++ ":" ++ decStr (k + 1))) ++
        (List.range' (j + 1) (T - j - 1)).map
          (fun k => "D" ++ ":" ++ sid ++ ":" ++ decStr (k + 1))⟩)], proto⟩,
       (List.range' (j + 1) (T - j - 1)).map
         (fun _ => (none : Option Out))) :=
    run_D_segment md5 gz proto sid cw hsid hcb (T - j - 1) (j + 1) _
      (by
        intro k hk1 hk2
        rw [show (⟨(T : Int), md5 data, flag, scheme,
          (List.range' 0 j).map
            (fun x : Nat => ((x : Int) + 1, cw.getD x [])),
          [], calculateTimeout (T : Int) proto,
          ["S" ++ ":" ++ sid ++ ":"] ++ (List.range' 0 j).map
            (fun kk => "D" ++ ":" ++ sid ++ ":" ++ decStr (kk + 1))⟩ :
            Session).seen =
          ["S" ++ ":" ++ sid ++ ":"] ++ (List.range' 0 j).map
            (fun kk => "D" ++ ":" ++ sid ++ ":" ++ decStr (kk + 1))
          from rfl]
        rw [contains_append]
        rw [hSDfresh k]
        rw [contains_map_false _ _ _ (fun x hx => by
          have hxj : x < j := by
            have := List.mem_range'_1.mp hx
            omega
          intro heq
          have := dId_inj sid x k heq
          omega)]
        rfl)
      (by
        intro k hk1 hk2
        exact aget_map_succ_none _ _ _ (fun x hx => by
          have := List.mem_range'_1.mp hx
          intro heq
          omega))
      rfl
      (by
        simp only [List.length_map, List.length_range']
        omega)
  -- the inert PARITY block (groups before the dropped chunk's group)
  have hD3 : runFrames md5 gz
      ⟨[(sid, ⟨(T : Int), md5 data, flag, scheme,
        (List.range' 0 j).map
          (fun x : Nat => ((x : Int) + 1, cw.getD x [])) ++
        (List.range' (j + 1) (T - j - 1)).map
          (fun x : Nat => ((x : Int) + 1, cw.getD x [])),
        [], calculateTimeout (T : Int) proto,
        (["S" ++ ":" ++ sid ++ ":"] ++ (List.range' 0 j).map
          (fun k => "D" ++ ":" ++ sid ++ ":" ++ decStr (k + 1))) ++
        (List.range' (j + 1) (T - j - 1)).map
          (fun k => "D" ++ ":" ++ sid ++ ":" ++ decStr (k + 1))⟩)], proto⟩
      (((List.range' 0 q).map (mainPair cw gs T)).map (pFrame sid)) =
      (⟨[(sid, ⟨(T : Int), md5 data, flag, scheme,
        (List.range' 0 j).map
          (fun x : Nat => ((x : Int) + 1, cw.getD x [])) ++
        (List.range' (j + 1) (T - j - 1)).map
          (fun x : Nat => ((x : Int) + 1, cw.getD x [])),
        (List.range' 0 q).map (mainPair cw gs T),
        calculateTimeout (T : Int) proto,
        ((["S" ++ ":" ++ sid ++ ":"] ++ (List.range' 0 j).map
          (fun k => "D" ++ ":" ++ sid ++ ":" ++ decStr (k + 1))) ++
        (List.range' (j + 1) (T - j - 1)).map
          (fun k => "D" ++ ":" ++ sid ++ ":" ++ decStr (k + 1))) ++
        ((List.range' 0 q).map (mainPair cw gs T)).map
          (fun kv => "P" ++ ":" ++ sid ++ ":" ++ kv.1)⟩)], proto⟩,
       ((List.range' 0 q).map (mainPair cw gs T)).map
         (fun _ => (none : Option Out))) :=
    run_P_inert_segment md5 gz proto sid ((j : Int) + 1) hsid
      ((List.range' 0 q).map (mainPair cw gs T)) _
      hPreShape hPreCFx hPreNormx hPreBytesx hPreNd
      (fun kv _ => hPseenFresh kv.1)
      (fun kv _ => rfl)
      (lt_of_lt_of_eq hgs0 hgseq.symm)
      (Int.natCast_nonneg T)
      (fun i h1 h2 h3 => ⟨_, hsome i h1 h2 h3⟩)
      hlenAB
      (fun kv hkv => absurd hkv (List.not_mem_nil kv))
  -- the trigger PARITY frame
  have hTrigKeyCF : colonFree (mainPair cw gs T q).1 :=
    createParityKey_colonFree _ _ _ (by decide)
  have hTrigFresh : (((["S" ++ ":" ++ sid ++ ":"] ++ (List.range' 0 j).map
      (fun k => "D" ++ ":" ++ sid ++ ":" ++ decStr (k + 1))) ++
    (List.range' (j + 1) (T - j - 1)).map
      (fun k => "D" ++ ":" ++ sid ++ ":" ++ decStr (k + 1))) ++
    ((List.range' 0 q).map (mainPair cw gs T)).map
      (fun kv => "P" ++ ":" ++ sid ++ ":" ++ kv.1)).contains
      ("P" ++ ":" ++ sid ++ ":" ++ (mainPair cw gs T q).1) = false := by
    rw [contains_append]
    rw [hPseenFresh _]
    rw [contains_map_false _ _ _ (fun kv hkv => by
      intro heq
      exact hPreKeyNe kv hkv (pId_inj sid _ _ heq))]
    rfl
  have hTrigNone : aget ((List.range' 0 q).map (mainPair cw gs T))
      (mainPair cw gs T q).1 = none :=
    aget_eq_none_of_forall_ne _ _ hPreKeyNe
  have hTrigNorm : normalizeSequencia (mainPair cw gs T q).1 =
      (mainPair cw gs T q).1 :=
    normalizeSequencia_key _ _ _
      (by exact_mod_cast Nat.succ_pos (q * gs))
      (by exact_mod_cast
        (show q * gs + 1 ≤ min (q * gs + gs) T from by omega))
      (by decide) (by decide)
  have hPstep : handleReceivedPacket md5 gz
      ⟨[(sid, ⟨(T : Int), md5 data, flag, scheme,
        (List.range' 0 j).map
          (fun x : Nat => ((x : Int) + 1, cw.getD x [])) ++
        (List.range' (j + 1) (T - j - 1)).map
          (fun x : Nat => ((x : Int) + 1, cw.getD x [])),
        (List.range' 0 q).map (mainPair cw gs T),
        calculateTimeout (T : Int) proto,
        ((["S" ++ ":" ++ sid ++ ":"] ++ (List.range' 0 j).map
          (fun k => "D" ++ ":" ++ sid ++ ":" ++ decStr (k + 1))) ++
        (List.range' (j + 1) (T - j - 1)).map
          (fun k => "D" ++ ":" ++ sid ++ ":" ++ decStr (k + 1))) ++
        ((List.range' 0 q).map (mainPair cw gs T)).map
          (fun kv => "P" ++ ":" ++ sid ++ ":" ++ kv.1)⟩)], proto⟩
      (pFrame sid (mainPair cw gs T q)) =
      finalizePhase md5 gz
        ⟨[(sid, ⟨(T : Int), md5 data, flag, scheme,
          (List.range' 0 j).map
            (fun x : Nat => ((x : Int) + 1, cw.getD x [])) ++
          (List.range' (j + 1) (T - j - 1)).map
            (fun x : Nat => ((x : Int) + 1, cw.getD x [])),
          (List.range' 0 q).map (mainPair cw gs T) ++
            [mainPair cw gs T q],
          calculateTimeout (T : Int) proto,
          (((["S" ++ ":" ++ sid ++ ":"] ++ (List.range' 0 j).map
            (fun k => "D" ++ ":" ++ sid ++ ":" ++ decStr (k + 1))) ++
          (List.range' (j + 1) (T - j - 1)).map
            (fun k => "D" ++ ":" ++ sid ++ ":" ++ decStr (k + 1))) ++
          ((List.range' 0 q).map (mainPair cw gs T)).map
            (fun kv => "P" ++ ":" ++ sid ++ ":" ++ kv.1)) ++
          ["P" ++ ":" ++ sid ++ ":" ++ (mainPair cw gs T q).1]⟩)],
          proto⟩ sid :=
    step_P_dispatch md5 gz proto sid (mainPair cw gs T q).1 _
      (mainPair cw gs T q).2 hsid hTrigKeyCF (hXBb _ _) hTrigFresh
      hTrigNone hTrigNorm
  have hcomp : (((aset ((List.range' 0 j).map
      (fun x : Nat => ((x : Int) + 1, cw.getD x [])) ++
    (List.range' (j + 1) (T - j - 1)).map
      (fun x : Nat => ((x : Int) + 1, cw.getD x [])))
      ((j : Int) + 1) (cw.getD j [])).length : Int) = (T : Int)) := by
    rw [aset_of_aget_none _ _ _ hnoneJ]
    simp only [List.length_append, List.length_map, List.length_range',
      List.length_cons, List.length_nil]
    omega
  have hrec : recoveryPhase
      ⟨(T : Int), md5 data, flag, scheme,
        (List.range' 0 j).map
          (fun x : Nat => ((x : Int) + 1, cw.getD x [])) ++
        (List.range' (j + 1) (T - j - 1)).map
          (fun x : Nat => ((x : Int) + 1, cw.getD x [])),
        (List.range' 0 q).map (mainPair cw gs T) ++ [mainPair cw gs T q],
        calculateTimeout (T : Int) proto,
        (((["S" ++ ":" ++ sid ++ ":"] ++ (List.range' 0 j).map
          (fun k => "D" ++ ":" ++ sid ++ ":" ++ decStr (k + 1))) ++
        (List.range' (j + 1) (T - j - 1)).map
          (fun k => "D" ++ ":" ++ sid ++ ":" ++ decStr (k + 1))) ++
        ((List.range' 0 q).map (mainPair cw gs T)).map
          (fun kv => "P" ++ ":" ++ sid ++ ":" ++ kv.1)) ++
        ["P" ++ ":" ++ sid ++ ":" ++ (mainPair cw gs T q).1]⟩ =
      ⟨(T : Int), md5 data, flag, scheme,
        aset ((List.range' 0 j).map
          (fun x : Nat => ((x : Int) + 1, cw.getD x [])) ++
        (List.range' (j + 1) (T - j - 1)).map
          (fun x : Nat => ((x : Int) + 1, cw.getD x [])))
          ((j : Int) + 1) (cw.getD j []),
        (List.range' 0 q).map (mainPair cw gs T) ++ [mainPair cw gs T q],
        calculateTimeout (T : Int) proto,
        (((["S" ++ ":" ++ sid ++ ":"] ++ (List.range' 0 j).map
          (fun k => "D" ++ ":" ++ sid ++ ":" ++ decStr (k + 1))) ++
        (List.range' (j + 1) (T - j - 1)).map
          (fun k => "D" ++ ":" ++ sid ++ ":" ++ decStr (k + 1))) ++
        ((List.range' 0 q).map (mainPair cw gs T)).map
          (fun kv => "P" ++ ":" ++ sid ++ ":" ++ kv.1)) ++
        ["P" ++ ":" ++ sid ++ ":" ++ (mainPair cw gs T q).1]⟩ :=
    recoveryPhase_trigger_nat _ cw gs T q j b
      ((List.range' 0 q).map (mainPair cw gs T))
      hgseq (fun h => hgseq.trans (hov3 h)) hpc rfl hgs0 hj hqle hqlt hT
      (fun c' hc' => (hprops c' hc').1) hsome hnoneJ hlenAB rfl
      hPreShape hPreKeyNe hlast hbz
  have hfin : handleReceivedPacket md5 gz
      ⟨[(sid, ⟨(T : Int), md5 data, flag, scheme,
        (List.range' 0 j).map
          (fun x : Nat => ((x : Int) + 1, cw.getD x [])) ++
        (List.range' (j + 1) (T - j - 1)).map
          (fun x : Nat => ((x : Int) + 1, cw.getD x [])),
        (List.range' 0 q).map (mainPair cw gs T),
        calculateTimeout (T : Int) proto,
        ((["S" ++ ":" ++ sid ++ ":"] ++ (List.range' 0 j).map
          (fun k => "D" ++ ":" ++ sid ++ ":" ++ decStr (k + 1))) ++
        (List.range' (j + 1) (T - j - 1)).map
          (fun k => "D" ++ ":" ++ sid ++ ":" ++ decStr (k + 1))) ++
        ((List.range' 0 q).map (mainPair cw gs T)).map
          (fun kv => "P" ++ ":" ++ sid ++ ":" ++ kv.1)⟩)], proto⟩
      (pFrame sid (mainPair cw gs T q)) =
      (⟨[], proto⟩, some (Out.bytes data)) := by
    rw [hPstep]
    rw [finalizePhase_complete md5 gz proto sid _ _ hrec hcomp]
    dsimp only
    rw [aset_of_aget_none _ _ _ hnoneJ]
    rw [sortByKey_run_chunks cw T j hj]
    rw [canonical_map_snd cw T hT]
    rw [show cw.flatten = data from by
      have h := chunkBytes_flatten data
      rw [hcw] at h
      exact h]
    rw [if_pos rfl]
    by_cases hC : jsIncludes flag "C" = true
    · rw [hC, hgzC hC]
      rfl
    · rw [show jsIncludes flag "C" = false from by
        cases hcc : jsIncludes flag "C"
        · rfl
        · exact absurd hcc hC]
      rfl
  -- the dead tail: remaining parity frames and END are dropped
  have hDead : runFrames md5 gz ⟨[], proto⟩
      (((List.range' (q + 1) (Ng - q - 1)).map (mainPair cw gs T)).map
        (pFrame sid) ++
      (OG.map (parityFrame sid cw) ++ ["E:" ++ sid ++ "::"])) =
      (⟨[], proto⟩,
        (((List.range' (q + 1) (Ng - q - 1)).map (mainPair cw gs T)).map
          (pFrame sid) ++
        (OG.map (parityFrame sid cw) ++ ["E:" ++ sid ++ "::"])).map
          (fun _ => (none : Option Out))) :=
    run_dead_segment md5 gz proto _ (by
      intro f hf
      rcases List.mem_append.mp hf with hf | hf
      · obtain ⟨kv, hkv, rfl⟩ := List.mem_map.mp hf
        obtain ⟨k, _, rfl⟩ := List.mem_map.mp hkv
        exact step_dead_P md5 gz proto sid (mainPair cw gs T k).1
          (String.mk (b64encode (mainPair cw gs T k).2)) hsid
          (createParityKey_colonFree _ _ _ (by decide))
          (b64encode_colonFree _ (hXBb _ _))
      · rcases List.mem_append.mp hf with hf | hf
        · obtain ⟨g, hg, rfl⟩ := List.mem_map.mp hf
          exact step_dead_P md5 gz proto sid
            (createParityKey g.start g.stop g.type)
            (String.mk (b64encode (xorBytes ((cw.drop (g.start - 1)).take
              (g.stop - (g.start - 1))) CHUNK_SIZE))) hsid
            (createParityKey_colonFree _ _ _ (hOG g hg).2.2.2.2)
            (b64encode_colonFree _ (hXBb _ _))
        · rw [List.mem_singleton.mp hf]
          exact step_dead_E md5 gz proto sid hsid)
  -- assemble the full run
  rw [hframes]
  rw [runFrames]
  rw [hS]
  dsimp only
  rw [runFrames_append]
  rw [hD1]
  dsimp only
  rw [runFrames_append]
  rw [hD2]
  dsimp only
  rw [runFrames_append]
  rw [hD3]
  dsimp only
  rw [runFrames]
  rw [hfin]
  dsimp only
  rw [hDead]
  dsimp only
  simp only [List.filter_append, List.filter_cons, Option.isSome_none,
    Bool.false_eq_true, if_false, Option.isSome_some, if_true,
    filter_isSome_map_none, List.nil_append, List.append_nil,
    List.filter_nil]

/-- Counterexample to C3: with payload `[65, 0]` (a chunk whose true
content ends in a `0x00` byte) under `BASIC_2` protection, withholding
the single DATA packet (index 1 of the emitted frame list) leaves the
receiver silent: the recovery XOR with the trailing-zero strip yields
`[65]`, the hash gate rejects it, and nothing is ever delivered, so the
single-loss round trip does not deliver `m` for every payload. -/
theorem c3_counterexample :
    ((sendLargeDataPackets md5c (fun l => l) "9-5" [65, 0] false
        BASIC_2).getD 1 "").data.head? = some 'D' ∧
    ((runFrames md5c gzc ⟨[], "X"⟩
      ((sendLargeDataPackets md5c (fun l => l) "9-5" [65, 0] false
        BASIC_2).eraseIdx 1)).2.all (fun o => o == none)) = true := by
  decide

/-- C3 (amended): single-loss round trip for uncompressed sends whose
dropped chunk does not end in a zero byte. For every one of the four
shipped FEC schemes other than NONE, every payload, and every single
DATA packet `j` withheld, the receiver run over the remaining frames
delivers exactly the payload (and nothing else), provided the dropped
chunk's last byte is nonzero (the trailing-zero strip of the XOR
reconstruction is then the identity) and gunzip fails on the raw bytes
(the `FBASIC_*` wire flags contain the letter `C`, so the receiver
attempts decompression via the `includes("C")` flag test and falls back
to the raw bytes). -/
theorem c3_amended_single_loss_recovery (md5 : List Nat → String)
    (gz : List Nat → Option (List Nat)) (gzipFn : List Nat → List Nat)
    (proto sid : String) (data : List Nat) (scheme : FECScheme) (j b : Nat)
    (hscheme : scheme ∈
      [BASIC_4, BASIC_2, OVERLAPPING_3, STRONG_OVERLAPPING_3])
    (hsid : colonFree sid)
    (hdb : ∀ bb ∈ data, bb < 256)
    (hhne : ¬ md5 data = "") (hhcf : colonFree (md5 data))
    (hj : j < (chunkBytes data CHUNK_SIZE).length)
    (hlast : ((chunkBytes data CHUNK_SIZE).getD j []).getLast? = some b)
    (hbz : ¬ b = 0)
    (hgz : gz data = none) :
    (runFrames md5 gz ⟨[], proto⟩
      ((sendLargeDataPackets md5 gzipFn sid data false scheme).eraseIdx
        (1 + j))).2.filter (fun o => o.isSome) = [some (Out.bytes data)] := by
  simp only [List.mem_cons, List.not_mem_nil, or_false] at hscheme
  rcases hscheme with rfl | rfl | rfl | rfl
  · exact c3_run_core md5 gz gzipFn proto sid "FBASIC_4" data
      (chunkBytes data CHUNK_SIZE) (chunkBytes data CHUNK_SIZE).length
      BASIC_4.groupSize (j / BASIC_4.groupSize)
      (((chunkBytes data CHUNK_SIZE).length + BASIC_4.groupSize - 1) /
        BASIC_4.groupSize) j b BASIC_4 []
      rfl rfl rfl rfl rfl hsid hdb hhne hhcf (by decide) (by decide)
      (by decide) (by decide) (by decide) (by decide)
      (fun h => absurd h (by decide))
      (by rw [generateFECGroups_basic _ _ rfl rfl (by decide),
        List.append_nil])
      (fun g hg => absurd hg (List.not_mem_nil g))
      hj hlast hbz (fun _ => hgz)
  · exact c3_run_core md5 gz gzipFn proto sid "FBASIC_2" data
      (chunkBytes data CHUNK_SIZE) (chunkBytes data CHUNK_SIZE).length
      BASIC_2.groupSize (j / BASIC_2.groupSize)
      (((chunkBytes data CHUNK_SIZE).length + BASIC_2.groupSize - 1) /
        BASIC_2.groupSize) j b BASIC_2 []
      rfl rfl rfl rfl rfl hsid hdb hhne hhcf (by decide) (by decide)
      (by decide) (by decide) (by decide) (by decide)
      (fun h => absurd h (by decide))
      (by rw [generateFECGroups_basic _ _ rfl rfl (by decide),
        List.append_nil])
      (fun g hg => absurd hg (List.not_mem_nil g))
      hj hlast hbz (fun _ => hgz)
  · exact c3_run_core md5 gz gzipFn proto sid "FOVERLAPPING_3" data
      (chunkBytes data CHUNK_SIZE) (chunkBytes data CHUNK_SIZE).length
      OVERLAPPING_3.groupSize (j / OVERLAPPING_3.groupSize)
      (((chunkBytes data CHUNK_SIZE).length + OVERLAPPING_3.groupSize - 1) /
        OVERLAPPING_3.groupSize) j b OVERLAPPING_3
      (overlappingGroupsLoop (chunkBytes data CHUNK_SIZE).length)
      rfl rfl rfl rfl rfl hsid hdb hhne hhcf (by decide) (by decide)
      (by decide) (by decide) (by decide) (by decide)
      (fun _ => rfl)
      (generateFECGroups_overlap _ _ rfl rfl)
      (fun g hg => by
        obtain ⟨h1, h2, h3, h4⟩ := overlappingGroupsLoop_mem _ g hg
        obtain ⟨nn, hnn⟩ := overlappingGroupsLoop_type _ g hg
        exact ⟨h1, h2, h3, h4, by
          rw [hnn]
          exact colonFree_append _ _ (by decide) (decStr_colonFree nn)⟩)
      hj hlast hbz (fun _ => hgz)
  · exact c3_run_core md5 gz gzipFn proto sid "FSTRONG_OVERLAPPING_3" data
      (chunkBytes data CHUNK_SIZE) (chunkBytes data CHUNK_SIZE).length
      STRONG_OVERLAPPING_3.groupSize (j / STRONG_OVERLAPPING_3.groupSize)
      (((chunkBytes data CHUNK_SIZE).length +
        STRONG_OVERLAPPING_3.groupSize - 1) /
        STRONG_OVERLAPPING_3.groupSize) j b STRONG_OVERLAPPING_3
      (overlappingGroupsLoop (chunkBytes data CHUNK_SIZE).length)
      rfl rfl rfl rfl rfl hsid hdb hhne hhcf (by decide) (by decide)
      (by decide) (by decide) (by decide) (by decide)
      (fun _ => rfl)
      (generateFECGroups_overlap _ _ rfl rfl)
      (fun g hg => by
        obtain ⟨h1, h2, h3, h4⟩ := overlappingGroupsLoop_mem _ g hg
        obtain ⟨nn, hnn⟩ := overlappingGroupsLoop_type _ g hg
        exact ⟨h1, h2, h3, h4, by
          rw [hnn]
          exact colonFree_append _ _ (by decide) (decStr_colonFree nn)⟩)
      hj hlast hbz (fun _ => hgz)

/-- Witness for the amended C3: the concrete payload `[65, 66]` sent
under `BASIC_2` with its only DATA packet withheld is recovered from the
parity and delivered. -/
theorem c3_amended_single_loss_recovery_witness :
    (runFrames md5c gzc ⟨[], "X"⟩
      ((sendLargeDataPackets md5c (fun l => l) "9-7" [65, 66] false
        BASIC_2).eraseIdx (1 + 0))).2.filter (fun o => o.isSome) =
      [some (Out.bytes [65, 66])] :=
  c3_amended_single_loss_recovery md5c gzc (fun l => l) "X" "9-7"
    [65, 66] BASIC_2 0 66 (by decide) (by decide) (by decide) (by decide)
    (by decide) (by decide) (by decide) (by decide) rfl

end Sonicwave

